import Mathlib

/-!
# The politization counter: an Aho-Corasick automaton with switchable patterns

A shallow embedding of `main.cpp`.

* An `AhoCorasickNode *` is an index into an arena (`List AhoCorasickNode`), the
  null pointer is `none`. The nodes that `std::map<char, AhoCorasickNode>` owns
  are allocated at the end of the arena, and the map stores their index.
* The root (`AhoCorasick::root_`) is the node at index `0`.
* A `std::string` is a `List Char`; `std::cin` is the list of the tokens that
  are still unread.
* The recursion of `GetAutomatonTransition` and the `while` loops are given
  fuel; a run that exhausts it yields `none`, and so does undefined behaviour
  (an index outside `surname_vertexes_`, a null `suffix_link_` that is read).
* Counters (`long long cnt`, `size_t`) are natural numbers: the wrap-around of the
  64-bit count of `AnswerIssue` is not modelled.
-/

set_option linter.dupNamespace false

namespace Politics

/-! ## Nodes and the arena -/

/-- The struct `AhoCorasickNode`. -/
structure AhoCorasickNode where
  is_terminal_ : Bool
  trie_transitions_ : List (Char × Nat)
  automaton_transitions_cache_ : List (Char × Nat)
  suffix_link_ : Option Nat
  terminal_link_ : Option Nat
  deriving DecidableEq

/-- The value of `AhoCorasickNode()`: the default member initialisers. -/
def AhoCorasickNode.fresh : AhoCorasickNode :=
  { is_terminal_ := false
    trie_transitions_ := []
    automaton_transitions_cache_ := []
    suffix_link_ := none
    terminal_link_ := none }

/-- The class `AhoCorasick`: the arena of the nodes owned by `root_`. -/
abbrev AhoCorasick := List AhoCorasickNode

/-- Reading through a node pointer, `*p`. -/
def deref (h : AhoCorasick) (p : Nat) : AhoCorasickNode :=
  h.getD p AhoCorasickNode.fresh

/-- The lookup `m.find(ch)` of both maps: `none` stands for `m.end()`. -/
def mapFind : List (Char × Nat) → Char → Option Nat
  | [], _ => none
  | (k, v) :: rest, ch => if k = ch then some v else mapFind rest ch

/-- The assignment `m[ch] = v` of `std::map<char, _>`, which keeps the keys in
increasing order. The order only decides in which order `CalculateLinks` visits the
children of a node; it is the order of the character codes, that of `char` on the 7-bit
characters. -/
def mapInsert : List (Char × Nat) → Char → Nat → List (Char × Nat)
  | [], ch, v => [(ch, v)]
  | (k, x) :: rest, ch, v =>
    if ch.toNat < k.toNat then (ch, v) :: (k, x) :: rest
    else if k = ch then (ch, v) :: rest
    else (k, x) :: mapInsert rest ch v

/-- The assignment `m[ch] = v` of `std::unordered_map<char, _>`; the map is only
ever searched, and the newest binding of a key is the one `mapFind` sees. -/
def cacheAssign (m : List (Char × Nat)) (ch : Char) (v : Nat) : List (Char × Nat) :=
  (ch, v) :: m

/-- The function `GetAutomatonTransition(node, ch)`, returning the answer and the
arena with the caches it filled. -/
def GetAutomatonTransition : Nat → AhoCorasick → Nat → Char → Option (Nat × AhoCorasick)
  | 0, _, _, _ => none
  | fuel + 1, h, node, ch =>
    match mapFind (deref h node).automaton_transitions_cache_ ch with
    | some answer => some (answer, h)
    | none =>
      match (deref h node).suffix_link_ with
      | none => some (node, h)
      | some sl =>
        match GetAutomatonTransition fuel h sl ch with
        | none => none
        | some (answer, h1) =>
          some (answer, h1.set node
            { deref h1 node with
              automaton_transitions_cache_ :=
                cacheAssign (deref h1 node).automaton_transitions_cache_ ch answer })

/-! ## NodeReference -/

/-- The class `NodeReference`: a non-null node pointer (every reference the
program makes wraps `&root_`, a trie child or an answer of
`GetAutomatonTransition`). -/
abbrev NodeReference := Nat

/-- The method `NodeReference::Next`. -/
def NodeReference.Next (h : AhoCorasick) (self : NodeReference) (ch : Char) :
    Option (NodeReference × AhoCorasick) :=
  GetAutomatonTransition h.length h self ch

/-- The method `NodeReference::SetTerminal`. -/
def NodeReference.SetTerminal (h : AhoCorasick) (self : NodeReference) (flg : Bool) :
    AhoCorasick :=
  h.set self { deref h self with is_terminal_ := flg }

/-- The loop of `NodeReference::ForEachMatch`, the callback acting on a state. -/
def ForEachMatchLoop {σ : Type} (h : AhoCorasick) (cb : σ → Bool → σ) :
    Nat → Option Nat → σ → Option σ
  | _, none, acc => some acc
  | 0, some _, _ => none
  | fuel + 1, some curr, acc =>
    ForEachMatchLoop h cb fuel (deref h curr).terminal_link_ (cb acc (deref h curr).is_terminal_)

/-- The method `NodeReference::ForEachMatch`. -/
def NodeReference.ForEachMatch {σ : Type} (h : AhoCorasick) (self : NodeReference)
    (cb : σ → Bool → σ) (acc : σ) : Option σ :=
  ForEachMatchLoop h cb h.length (some self) acc

/-- The method `AhoCorasick::Root`. -/
def AhoCorasick.Root : NodeReference := 0

/-! ## AhoCorasickBuilder -/

/-- The class `AhoCorasickBuilder`. -/
structure AhoCorasickBuilder where
  surname_vertexes_ : List NodeReference
  strings_ : List (List Char)
  deriving DecidableEq

/-- The public `AhoCorasickBuilder::AddString(std::string)`. -/
def AhoCorasickBuilder.AddString (b : AhoCorasickBuilder) (string : List Char) :
    AhoCorasickBuilder :=
  { b with strings_ := b.strings_ ++ [string] }

/-- The `for` loop of the private `AddString(root, string)`: returns the arena and
the final `curr`. -/
def AhoCorasickBuilder.AddStringLoop : AhoCorasick → Nat → List Char → AhoCorasick × Nat
  | h, curr, [] => (h, curr)
  | h, curr, symbol :: rest =>
    match mapFind (deref h curr).trie_transitions_ symbol with
    | some child => AddStringLoop h child rest
    | none =>
      let child := h.length
      let h1 := h.set curr
        { deref h curr with
          trie_transitions_ := mapInsert (deref h curr).trie_transitions_ symbol child
          automaton_transitions_cache_ :=
            cacheAssign (deref h curr).automaton_transitions_cache_ symbol child }
      AddStringLoop (h1 ++ [AhoCorasickNode.fresh]) child rest

/-- The private `AhoCorasickBuilder::AddString(root, string)`. -/
def AhoCorasickBuilder.AddStringAt (b : AhoCorasickBuilder) (h : AhoCorasick) (root : Nat)
    (string : List Char) : AhoCorasickBuilder × AhoCorasick :=
  let r := AhoCorasickBuilder.AddStringLoop h root string
  ({ b with surname_vertexes_ := b.surname_vertexes_ ++ [r.2] },
   r.1.set r.2 { deref r.1 r.2 with is_terminal_ := true })

/-- The inner `while` loop of `CalculateLinks` for the child `child` reached on `ch`:
returns the arena and the final value of `last_suit_suffix`. -/
def suffixWalk (child : Nat) (ch : Char) : Nat → AhoCorasick → Option Nat →
    Option (AhoCorasick × Option Nat)
  | _, h, none => some (h, none)
  | 0, _, some _ => none
  | fuel + 1, h, some last_suit_suffix =>
    match mapFind (deref h last_suit_suffix).trie_transitions_ ch with
    | some target =>
      some (h.set child { deref h child with suffix_link_ := some target },
            some last_suit_suffix)
    | none => suffixWalk child ch fuel h (deref h last_suit_suffix).suffix_link_

/-- The body of the `for` loop of `CalculateLinks` for one trie transition of `curr`
(without the push on the queue). -/
def linkChild (root : Nat) (h : AhoCorasick) (curr : Nat) (trie_transition : Char × Nat) :
    Option AhoCorasick :=
  match suffixWalk trie_transition.2 trie_transition.1 h.length h (deref h curr).suffix_link_ with
  | none => none
  | some (h1, last_suit_suffix) =>
    let h2 :=
      if last_suit_suffix = none then
        h1.set trie_transition.2 { deref h1 trie_transition.2 with suffix_link_ := some root }
      else h1
    match (deref h2 trie_transition.2).suffix_link_ with
    | none => none
    | some sl =>
      some (h2.set trie_transition.2
        { deref h2 trie_transition.2 with
          terminal_link_ :=
            if !(deref h2 sl).is_terminal_ then (deref h2 sl).terminal_link_ else some sl })

/-- The `for` loop of `CalculateLinks` over the trie transitions of `curr`. -/
def linkChildren (root : Nat) (curr : Nat) :
    List (Char × Nat) → AhoCorasick → List Nat → Option (AhoCorasick × List Nat)
  | [], h, bfs_queue => some (h, bfs_queue)
  | trie_transition :: rest, h, bfs_queue =>
    match linkChild root h curr trie_transition with
    | none => none
    | some h1 => linkChildren root curr rest h1 (bfs_queue ++ [trie_transition.2])

/-- The outer `while (!bfs_queue.empty())` loop of `CalculateLinks`. -/
def bfsLoop (root : Nat) : Nat → AhoCorasick → List Nat → Option AhoCorasick
  | _, h, [] => some h
  | 0, _, _ :: _ => none
  | fuel + 1, h, curr :: bfs_queue =>
    match linkChildren root curr (deref h curr).trie_transitions_ h bfs_queue with
    | none => none
    | some (h1, bfs_queue1) => bfsLoop root fuel h1 bfs_queue1

/-- The static `AhoCorasickBuilder::CalculateLinks(root)`. -/
def AhoCorasickBuilder.CalculateLinks (h : AhoCorasick) (root : Nat) : Option AhoCorasick :=
  bfsLoop root h.length
    (h.set root { deref h root with suffix_link_ := none, terminal_link_ := none }) [root]

/-- The method `AhoCorasickBuilder::Build`: the builder (whose `surname_vertexes_`
grew) and the automaton. -/
def AhoCorasickBuilder.Build (b : AhoCorasickBuilder) :
    Option (AhoCorasickBuilder × AhoCorasick) :=
  let r := b.strings_.foldl
    (fun (acc : AhoCorasickBuilder × AhoCorasick) string =>
      AhoCorasickBuilder.AddStringAt acc.1 acc.2 AhoCorasick.Root string)
    (b, [AhoCorasickNode.fresh])
  match AhoCorasickBuilder.CalculateLinks r.2 AhoCorasick.Root with
  | none => none
  | some automaton => some (r.1, automaton)

/-- The method `AhoCorasickBuilder::GetSurnameVertexes`. -/
def AhoCorasickBuilder.GetSurnameVertexes (b : AhoCorasickBuilder) : List NodeReference :=
  b.surname_vertexes_

/-! ## PolitizationCounter -/

/-- The class `PolitizationCounter`. -/
structure PolitizationCounter where
  members_cnt_ : Nat
  issues_cnt_ : Nat
  surname_vertexes_ : List NodeReference
  automaton_ : AhoCorasick
  state_ : NodeReference
  deriving DecidableEq

/-- The extraction `std::cin >> s` of a string: the next token, or `s` unchanged
when the stream is exhausted. -/
def readString (s : List Char) : List (List Char) → List Char × List (List Char)
  | [] => (s, [])
  | token :: rest => (token, rest)

/-- The method `PolitizationCounter::Include`. -/
def PolitizationCounter.Include (c : PolitizationCounter) (surname_idx : Nat) :
    Option PolitizationCounter :=
  if surname_idx = 0 then none
  else
    match c.surname_vertexes_[surname_idx - 1]? with
    | none => none
    | some v => some { c with automaton_ := NodeReference.SetTerminal c.automaton_ v true }

/-- The method `PolitizationCounter::Exclude`. -/
def PolitizationCounter.Exclude (c : PolitizationCounter) (surname_idx : Nat) :
    Option PolitizationCounter :=
  if surname_idx = 0 then none
  else
    match c.surname_vertexes_[surname_idx - 1]? with
    | none => none
    | some v => some { c with automaton_ := NodeReference.SetTerminal c.automaton_ v false }

/-- The `for` loop of `AnswerIssue` over the characters `issue[1]`, `issue[2]`, ...:
the arena, `state_` and `cnt` are threaded through. -/
def PolitizationCounter.AnswerIssueLoop :
    AhoCorasick → NodeReference → Nat → List Char → Option (AhoCorasick × NodeReference × Nat)
  | h, state, cnt, [] => some (h, state, cnt)
  | h, state, cnt, ch :: rest =>
    match NodeReference.Next h state ch with
    | none => none
    | some (state1, h1) =>
      match NodeReference.ForEachMatch h1 state1
          (fun (n : Nat) (is_terminal : Bool) => if is_terminal then n + 1 else n) cnt with
      | none => none
      | some cnt1 => AnswerIssueLoop h1 state1 cnt1 rest

/-- The method `PolitizationCounter::AnswerIssue`: the returned count and the
counter afterwards. -/
def PolitizationCounter.AnswerIssue (c : PolitizationCounter) (issue : List Char) :
    Option (Nat × PolitizationCounter) :=
  match PolitizationCounter.AnswerIssueLoop c.automaton_ c.state_ 0 (issue.drop 1) with
  | none => none
  | some (h, _, cnt) => some (cnt, { c with automaton_ := h, state_ := AhoCorasick.Root })

/-- The `for` loop of `Init`, reading `members_cnt_` surnames into the builder. -/
def PolitizationCounter.InitLoop :
    Nat → List Char → List (List Char) → AhoCorasickBuilder →
      AhoCorasickBuilder × List (List Char)
  | 0, _, input, builder => (builder, input)
  | k + 1, surname, input, builder =>
    let r := readString surname input
    InitLoop k r.1 r.2 (builder.AddString r.1)

/-- The method `PolitizationCounter::Init`. -/
def PolitizationCounter.Init (c : PolitizationCounter) (input : List (List Char)) :
    Option (PolitizationCounter × List (List Char)) :=
  let r := PolitizationCounter.InitLoop c.members_cnt_ [] input ⟨[], []⟩
  match r.1.Build with
  | none => none
  | some (builder, automaton) =>
    some ({ c with automaton_ := automaton, surname_vertexes_ := builder.GetSurnameVertexes },
          r.2)

/-- The constant `shift`, the code of the character `0`. -/
def shift : Nat := 48

/-- The inner `for` loop of `RequestProcess` over `issue[1]`, `issue[2]`, ..., run on the
characters that are left: `num = num * 10 + size_t(issue[j] - shift)` in the unsigned 64-bit
arithmetic of `size_t` (a character stands for its code, as a 7-bit `char` does). -/
def parseIndex : List Char → Nat → Nat
  | [], num => num
  | ch :: rest, num => parseIndex rest ((num * 10 + (ch.toNat + (2 ^ 64 - shift))) % 2 ^ 64)

/-- The `for` loop of `RequestProcess`: `i` counts the iterations that are left, `issue` is
the local string, and `out` collects the counts passed to the callback, in order. -/
def PolitizationCounter.RequestProcessLoop :
    Nat → List Char → List (List Char) → PolitizationCounter → List Nat →
      Option (PolitizationCounter × List (List Char) × List Nat)
  | 0, _, input, c, out => some (c, input, out)
  | i + 1, issue, input, c, out =>
    let r := readString issue input
    if r.1.head? = some '+' ∨ r.1.head? = some '-' then
      if r.1.head? = some '+' then
        match c.Include (parseIndex (r.1.drop 1) 0) with
        | none => none
        | some c1 => RequestProcessLoop i r.1 r.2 c1 out
      else if r.1.head? = some '-' then
        match c.Exclude (parseIndex (r.1.drop 1) 0) with
        | none => none
        | some c1 => RequestProcessLoop i r.1 r.2 c1 out
      else RequestProcessLoop i r.1 r.2 c out
    else
      match c.AnswerIssue r.1 with
      | none => none
      | some (cnt, c1) => RequestProcessLoop i r.1 r.2 c1 (out ++ [cnt])

/-- The method `PolitizationCounter::RequestProcess`, the callback appending to a list: the
counter afterwards, the input that is left and the counts the callback received. -/
def PolitizationCounter.RequestProcess (c : PolitizationCounter) (input : List (List Char)) :
    Option (PolitizationCounter × List (List Char) × List Nat) :=
  PolitizationCounter.RequestProcessLoop c.issues_cnt_ [] input c []

/-- The constructor `PolitizationCounter(n, k)` run on the input that is left. -/
def PolitizationCounter.PolitizationCounter (n k : Nat) (input : List (List Char)) :
    Option (PolitizationCounter × List (List Char)) :=
  match PolitizationCounter.Init
      { members_cnt_ := k, issues_cnt_ := n, surname_vertexes_ := [],
        automaton_ := [], state_ := 0 } input with
  | none => none
  | some (c, rest) => some ({ c with state_ := AhoCorasick.Root }, rest)


/-- The value of a string of decimal digits. -/
def decimalValue (digits : List Char) : Nat :=
  digits.foldl (fun n d => 10 * n + (d.toNat - 48)) 0

/-- The extraction `std::cin >> n` of a `size_t` when the next token is a string of decimal
digits whose value fits 64 bits. Other inputs (a sign, a token that only starts with
digits, an exhausted stream) make the stream fail or split the token; they are not
modelled and yield `none`. -/
def readSize : List (List Char) → Option (Nat × List (List Char))
  | [] => none
  | token :: rest =>
    if token ≠ [] ∧ token.all Char.isDigit = true ∧ decimalValue token < 2 ^ 64 then
      some (decimalValue token, rest)
    else none

/-- The function `main`: the lines written to `std::cout`, as the list of the counts. -/
def main (input : List (List Char)) : Option (List Nat) :=
  match readSize input with
  | none => none
  | some (n, input1) =>
    match readSize input1 with
    | none => none
    | some (k, input2) =>
      match PolitizationCounter.PolitizationCounter n k input2 with
      | none => none
      | some (cnt, input3) =>
        match cnt.RequestProcess input3 with
        | none => none
        | some r => some r.2.2

/-! ## Specification vocabulary -/

/-- The node reached from `v` by following the trie edges that spell a string. -/
def trieWalk (h : AhoCorasick) : Nat → List Char → Option Nat
  | v, [] => some v
  | v, ch :: rest =>
    match mapFind (deref h v).trie_transitions_ ch with
    | none => none
    | some u => trieWalk h u rest

/-- Whether the entry node of the dictionary string `s` has its flag set: some entry
`i` with `D[i] = s` has `is_terminal_` set on the node of its handle. -/
def entryActive (D : List (List Char)) (c : PolitizationCounter) (s : List Char) : Bool :=
  (D.zip c.surname_vertexes_).any
    (fun p => decide (p.1 = s) && (deref c.automaton_ p.2).is_terminal_)

/-- The distinct dictionary strings whose entry node is active. -/
def activeStrings (D : List (List Char)) (c : PolitizationCounter) : List (List Char) :=
  D.dedup.filter (entryActive D c)

/-- The number of pairs `(p, s)` with `1 ≤ p ≤ |text|` and `s` in `active` a suffix of
the first `p` characters of `text`. -/
def occurrences (active : List (List Char)) (text : List Char) : Nat :=
  ((List.range text.length).map
    (fun i => (active.filter (fun s => decide (s <:+ text.take (i + 1)))).length)).sum

/-- The counter states the program reaches for the dictionary `D`: the constructor run on
an input that starts with the strings of `D`, followed by any calls of `Include`,
`Exclude` and `AnswerIssue`. -/
inductive Reachable (D : List (List Char)) : PolitizationCounter → Prop
  | init (n : Nat) (ops rest : List (List Char)) (c : PolitizationCounter) :
      PolitizationCounter.PolitizationCounter n D.length (D ++ ops) = some (c, rest) →
      Reachable D c
  | incl (c c1 : PolitizationCounter) (i : Nat) :
      Reachable D c → c.Include i = some c1 → Reachable D c1
  | excl (c c1 : PolitizationCounter) (i : Nat) :
      Reachable D c → c.Exclude i = some c1 → Reachable D c1
  | query (c c1 : PolitizationCounter) (issue : List Char) (cnt : Nat) :
      Reachable D c → c.AnswerIssue issue = some (cnt, c1) → Reachable D c1

/-- The activation state of entry `i` (counted from 1): the flag of the node of its handle. -/
def entryFlag (c : PolitizationCounter) (i : Nat) : Bool :=
  match c.surname_vertexes_[i - 1]? with
  | some v => (deref c.automaton_ v).is_terminal_
  | none => false

/-- The arenas differ at most in the `is_terminal_` flag of node `v`: every other node, and
the trie edges, cache, suffix link and terminal link of `v`, are the same. -/
def SameButFlagOf (v : Nat) (h h1 : AhoCorasick) : Prop :=
  h1.length = h.length ∧ (∀ q, q ≠ v → deref h1 q = deref h q) ∧
    (deref h1 v).trie_transitions_ = (deref h v).trie_transitions_ ∧
    (deref h1 v).automaton_transitions_cache_ = (deref h v).automaton_transitions_cache_ ∧
    (deref h1 v).suffix_link_ = (deref h v).suffix_link_ ∧
    (deref h1 v).terminal_link_ = (deref h v).terminal_link_

/-- Runs of operations that do not toggle the string `s`: calls of `AnswerIssue`, and calls
of `Include` and `Exclude` for entries whose string is not `s`. -/
inductive StepsAvoiding (D : List (List Char)) (s : List Char) :
    PolitizationCounter → PolitizationCounter → Prop
  | refl (c : PolitizationCounter) : StepsAvoiding D s c c
  | incl (c c1 c2 : PolitizationCounter) (k : Nat) :
      StepsAvoiding D s c c1 → D[k - 1]? ≠ some s → c1.Include k = some c2 →
      StepsAvoiding D s c c2
  | excl (c c1 c2 : PolitizationCounter) (k : Nat) :
      StepsAvoiding D s c c1 → D[k - 1]? ≠ some s → c1.Exclude k = some c2 →
      StepsAvoiding D s c c2
  | query (c c1 c2 : PolitizationCounter) (issue : List Char) (cnt : Nat) :
      StepsAvoiding D s c c1 → c1.AnswerIssue issue = some (cnt, c2) →
      StepsAvoiding D s c c2

/-- The counter that the constructor makes when the input holds just the strings of `D`
(the empty counter should the constructor fail, which it does not). -/
def counterOf (D : List (List Char)) : PolitizationCounter :=
  match PolitizationCounter.PolitizationCounter 0 D.length D with
  | some (c, _) => c
  | none => ⟨0, 0, [], [], 0⟩

/-- The state after `Include`, the state itself for an index out of range. -/
def includeOr (c : PolitizationCounter) (i : Nat) : PolitizationCounter :=
  (c.Include i).getD c

/-- The state after `Exclude`, the state itself for an index out of range. -/
def excludeOr (c : PolitizationCounter) (i : Nat) : PolitizationCounter :=
  (c.Exclude i).getD c

/-- An operation of the stream, as the specification reads a token. -/
inductive Operation where
  | enable (index : Nat)
  | disable (index : Nat)
  | query (token : List Char)
  deriving DecidableEq

/-- The reading of a token in the words of the specification: `+` followed by decimal
digits is `Enable` of their value, `-` followed by decimal digits is `Disable` of their
value, any other token is a query whose text is the token. -/
def operationOf (token : List Char) : Operation :=
  match token with
  | [] => Operation.query []
  | sign :: digits =>
    if sign = '+' ∧ digits ≠ [] ∧ digits.all Char.isDigit = true then
      Operation.enable (decimalValue digits)
    else if sign = '-' ∧ digits ≠ [] ∧ digits.all Char.isDigit = true then
      Operation.disable (decimalValue digits)
    else Operation.query token

/-- The operations carried out in order, every query adding its count to the output. -/
def runOperations :
    PolitizationCounter → List Operation → List Nat → Option (PolitizationCounter × List Nat)
  | c, [], out => some (c, out)
  | c, Operation.enable i :: ops, out =>
    match c.Include i with
    | none => none
    | some c1 => runOperations c1 ops out
  | c, Operation.disable i :: ops, out =>
    match c.Exclude i with
    | none => none
    | some c1 => runOperations c1 ops out
  | c, Operation.query token :: ops, out =>
    match c.AnswerIssue token with
    | none => none
    | some (cnt, c1) => runOperations c1 ops (out ++ [cnt])

/-- Whether the operation is a query, the kind that writes a count. -/
def Operation.isQuery : Operation → Bool
  | Operation.query _ => true
  | _ => false

/-- Whether the index of a toggle names one of `k` dictionary entries, counted from 1. -/
def Operation.inRange (k : Nat) : Operation → Bool
  | Operation.enable i => decide (1 ≤ i ∧ i ≤ k)
  | Operation.disable i => decide (1 ≤ i ∧ i ≤ k)
  | Operation.query _ => true

/-- The set of active dictionary strings after an operation, in the words of the
specification: `Enable(i)` makes the string of entry `i` active, `Disable(i)` makes it
inactive (entries are counted from 1, and entries with the same string share their state),
a query changes nothing. -/
def applyOperation (D active : List (List Char)) : Operation → List (List Char)
  | Operation.enable i =>
    match D[i - 1]? with
    | some s => if 1 ≤ i ∧ s ∉ active then s :: active else active
    | none => active
  | Operation.disable i =>
    match D[i - 1]? with
    | some s => if 1 ≤ i then active.filter (fun t => decide (t ≠ s)) else active
    | none => active
  | Operation.query _ => active

/-- The counts that the specification expects for a list of operations, from the set of
active strings at the start: every query token yields the number of occurrences of the
strings active at that point in the token without its first character. -/
def expectedCounts (D : List (List Char)) : List (List Char) → List Operation → List Nat
  | _, [] => []
  | active, Operation.enable i :: ops =>
    expectedCounts D (applyOperation D active (Operation.enable i)) ops
  | active, Operation.disable i :: ops =>
    expectedCounts D (applyOperation D active (Operation.disable i)) ops
  | active, Operation.query token :: ops =>
    occurrences active token.tail :: expectedCounts D active ops

/-- A token that starts with `+` or `-` is well formed when decimal digits follow, at least
one, and their value fits the 64 bits of `size_t`. -/
def WellFormedToken (token : List Char) : Prop :=
  ∀ sign digits, token = sign :: digits → sign = '+' ∨ sign = '-' →
    digits ≠ [] ∧ digits.all Char.isDigit = true ∧ decimalValue digits < 2 ^ 64

/-- The chain `p`, `suffix_link(p)`, `suffix_link(suffix_link(p))`, ... from a node pointer,
cut after `fuel` nodes. -/
def suffixChain (h : AhoCorasick) : Nat → Option Nat → List Nat
  | 0, _ => []
  | _ + 1, none => []
  | fuel + 1, some p => p :: suffixChain h fuel (deref h p).suffix_link_

/-- The arena that `Build` hands to `CalculateLinks`: the trie of the strings `D`. -/
def trieOf (D : List (List Char)) : AhoCorasick :=
  (D.foldl
    (fun (acc : AhoCorasickBuilder × AhoCorasick) string =>
      AhoCorasickBuilder.AddStringAt acc.1 acc.2 AhoCorasick.Root string)
    (⟨[], D⟩, [AhoCorasickNode.fresh])).2

/-- The states `(arena, queue)` at the head of the `while` loop of `CalculateLinks(root)`
run on the arena `h0`: the state before the first iteration, and the state after the body
has run for the front `curr` of the queue. -/
inductive LoopState (h0 : AhoCorasick) : AhoCorasick → List Nat → Prop
  | start :
      LoopState h0
        (h0.set AhoCorasick.Root
          { deref h0 AhoCorasick.Root with suffix_link_ := none, terminal_link_ := none })
        [AhoCorasick.Root]
  | step (h h1 : AhoCorasick) (curr : Nat) (queue queue1 : List Nat) :
      LoopState h0 h (curr :: queue) →
      linkChildren AhoCorasick.Root curr (deref h curr).trie_transitions_ h queue =
        some (h1, queue1) →
      LoopState h0 h1 queue1

/-- The arenas reached from the arena `h0` by calls of `Next` on any node, by the query
loop of `AnswerIssue` started on the root, and by `SetTerminal` on the handles. -/
inductive ArenaReach (handles : List Nat) (h0 : AhoCorasick) : AhoCorasick → Prop
  | start : ArenaReach handles h0 h0
  | goto (h h1 : AhoCorasick) (v u : Nat) (ch : Char) :
      ArenaReach handles h0 h → NodeReference.Next h v ch = some (u, h1) →
      ArenaReach handles h0 h1
  | query (h h1 : AhoCorasick) (text : List Char) (v1 cnt : Nat) :
      ArenaReach handles h0 h →
      PolitizationCounter.AnswerIssueLoop h AhoCorasick.Root 0 text = some (h1, v1, cnt) →
      ArenaReach handles h0 h1
  | toggle (h : AhoCorasick) (v : Nat) (flg : Bool) :
      ArenaReach handles h0 h → v ∈ handles →
      ArenaReach handles h0 (NodeReference.SetTerminal h v flg)

/-! ## Invariants of the arena

The proofs carry the list `ws` of the words spelled by the nodes: `word ws v` is the
string read along the trie path from the root to node `v`. -/

/-- The word of node `v`. -/
def word (ws : List (List Char)) (v : Nat) : List Char := ws.getD v []

/-- The string `s` is the longest suffix of `w` among the strings of `W`. -/
def IsLongestSuffix (W : List (List Char)) (w s : List Char) : Prop :=
  s ∈ W ∧ s <:+ w ∧ ∀ t, t ∈ W → t <:+ w → t.length ≤ s.length

/-- The string `s` is the longest proper suffix of `w` among the strings of `W`. -/
def IsLongestProperSuffix (W : List (List Char)) (w s : List Char) : Prop :=
  s ∈ W ∧ s <:+ w ∧ s.length < w.length ∧
    ∀ t, t ∈ W → t <:+ w → t.length < w.length → t.length ≤ s.length

/-- The trie: the nodes spell distinct words, closed under dropping the last symbol,
and the trie edges are exactly the one-symbol extensions. -/
structure TrieInv (h : AhoCorasick) (ws : List (List Char)) : Prop where
  len : ws.length = h.length
  root : word ws 0 = []
  pos : 0 < h.length
  inj : ∀ u v, u < h.length → v < h.length → word ws u = word ws v → u = v
  depth : ∀ v, v < h.length → (word ws v).length ≤ v
  edge : ∀ v ch u, v < h.length → mapFind (deref h v).trie_transitions_ ch = some u →
    u < h.length ∧ word ws u = word ws v ++ [ch]
  edge_complete : ∀ v ch u, v < h.length → u < h.length → word ws u = word ws v ++ [ch] →
    mapFind (deref h v).trie_transitions_ ch = some u
  parent : ∀ u, u < h.length → u ≠ 0 → ∃ v ch, v < h.length ∧ word ws u = word ws v ++ [ch]
  keys : ∀ v, v < h.length → ((deref h v).trie_transitions_.map Prod.fst).Nodup

/-- The arena while `Build` adds the strings, before the links are computed: the trie of
the strings `D` added so far, with their handles. -/
structure TrieBuilt (D : List (List Char)) (h : AhoCorasick) (ws : List (List Char))
    (handles : List Nat) : Prop where
  trie : TrieInv h ws
  cache_eq : ∀ v ch, mapFind (deref h v).automaton_transitions_cache_ ch =
    mapFind (deref h v).trie_transitions_ ch
  flags : ∀ v, v < h.length → ((deref h v).is_terminal_ = true ↔ word ws v ∈ D)
  nolinks : ∀ v, (deref h v).suffix_link_ = none ∧ (deref h v).terminal_link_ = none
  handles_word : handles.map (word ws) = D
  handles_lt : ∀ v, v ∈ handles → v < h.length

/-- The terminal link `tl` of a node with word `w` is right: it is the node of the longest
proper suffix of `w` that is a dictionary string, null when there is none. -/
def TerminalLinkOK (D ws : List (List Char)) (n : Nat) (w : List Char) : Option Nat → Prop
  | none => ∀ t, t ∈ D → t <:+ w → ¬ t.length < w.length
  | some u => u < n ∧ IsLongestProperSuffix D w (word ws u)

/-- Node `v` has its final links: the root a null suffix link, any other node the node of
the longest proper suffix of its word that is a word of the trie. -/
def Linked (D ws : List (List Char)) (h : AhoCorasick) (v : Nat) : Prop :=
  (v = 0 → (deref h v).suffix_link_ = none) ∧
  (v ≠ 0 → ∃ u, u < h.length ∧ (deref h v).suffix_link_ = some u ∧
    IsLongestProperSuffix ws (word ws v) (word ws u)) ∧
  TerminalLinkOK D ws h.length (word ws v) (deref h v).terminal_link_

/-- The cache holds only values of the transition function, and holds every trie edge. -/
structure CacheInv (h : AhoCorasick) (ws : List (List Char)) : Prop where
  sound : ∀ v ch u, v < h.length →
    mapFind (deref h v).automaton_transitions_cache_ ch = some u →
    u < h.length ∧ IsLongestSuffix ws (word ws v ++ [ch]) (word ws u)
  complete : ∀ v ch, v < h.length → word ws v ++ [ch] ∈ ws →
    mapFind (deref h v).automaton_transitions_cache_ ch ≠ none

/-- The invariant of a built automaton for the dictionary `D`. -/
structure AutomatonInv (D : List (List Char)) (h : AhoCorasick) (ws : List (List Char)) :
    Prop where
  trie : TrieInv h ws
  dict : ∀ s, s ∈ D → s ∈ ws
  flags : ∀ v, v < h.length → (deref h v).is_terminal_ = true → word ws v ∈ D
  links : ∀ v, v < h.length → Linked D ws h v
  cache : CacheInv h ws

/-- The invariant of a counter for the dictionary `D`. -/
def CounterInv (D : List (List Char)) (c : PolitizationCounter) : Prop :=
  ∃ ws, AutomatonInv D c.automaton_ ws ∧
    c.surname_vertexes_.map (word ws) = D ∧
    (∀ v, v ∈ c.surname_vertexes_ → v < c.automaton_.length) ∧
    c.state_ = 0

/-- The two arenas differ at most in the transition caches. -/
def SameButCache (h h1 : AhoCorasick) : Prop :=
  h1.length = h.length ∧ ∀ p,
    (deref h1 p).is_terminal_ = (deref h p).is_terminal_ ∧
    (deref h1 p).trie_transitions_ = (deref h p).trie_transitions_ ∧
    (deref h1 p).suffix_link_ = (deref h p).suffix_link_ ∧
    (deref h1 p).terminal_link_ = (deref h p).terminal_link_

/-- The two arenas differ at most in the suffix and terminal links. -/
def SameButLinks (h h1 : AhoCorasick) : Prop :=
  h1.length = h.length ∧ ∀ p,
    (deref h1 p).is_terminal_ = (deref h p).is_terminal_ ∧
    (deref h1 p).trie_transitions_ = (deref h p).trie_transitions_ ∧
    (deref h1 p).automaton_transitions_cache_ = (deref h p).automaton_transitions_cache_

/-- What the inner loop of `CalculateLinks` knows when `last_suit_suffix` is `p`, for a
parent with word `wv` and the symbol `c`: every proper suffix `y` of `wv` in the trie that
has an edge on `c` is at most as long as the word of `p`. -/
def WalkInv (ws : List (List Char)) (n : Nat) (wv : List Char) (c : Char) : Option Nat → Prop
  | none => ∀ y, y ∈ ws → y <:+ wv → y.length < wv.length → y ++ [c] ∉ ws
  | some p => p < n ∧ word ws p <:+ wv ∧ (word ws p).length < wv.length ∧
      ∀ y, y ∈ ws → y <:+ wv → y.length < wv.length → y ++ [c] ∈ ws →
        y.length ≤ (word ws p).length

/-- The invariant of the breadth-first loop of `CalculateLinks`: the queue is ordered by
depth and spans at most two levels, its nodes have their links, and every node without
links is below a node of the queue. -/
structure BfsInv (D ws : List (List Char)) (h : AhoCorasick) (queue : List Nat) : Prop where
  linked : ∀ q, q ∈ queue → q < h.length ∧ Linked D ws h q
  sorted : queue.Pairwise (fun a b => (word ws a).length ≤ (word ws b).length)
  close : ∀ a b, a ∈ queue → b ∈ queue → (word ws b).length ≤ (word ws a).length + 1
  pending : ∀ v, v < h.length → Linked D ws h v ∨
    ∃ q, q ∈ queue ∧ word ws q <+: word ws v ∧ word ws q ≠ word ws v

/-- The occurrences counted while the rest of a text is read after the part `pre`. -/
def occurrencesFrom (active : List (List Char)) : List Char → List Char → Nat
  | _, [] => 0
  | pre, ch :: rest =>
    (active.filter (fun s => decide (s <:+ pre ++ [ch]))).length +
      occurrencesFrom active (pre ++ [ch]) rest

/-- Every word of the trie is empty or the start of a dictionary string. -/
def PrefixWords (D ws : List (List Char)) : Prop :=
  ∀ w, w ∈ ws → w = [] ∨ ∃ s, s ∈ D ∧ w <+: s

/-- The number of words of the trie below `w`: the size of the subtree of its node. -/
def subtreeSize (ws : List (List Char)) (w : List Char) : Nat :=
  ws.countP (fun x => decide (w <+: x))

/-! ## Maps -/

theorem mapFind_mapInsert (m : List (Char × Nat)) (ch : Char) (v : Nat) (c : Char) :
    mapFind (mapInsert m ch v) c = if ch = c then some v else mapFind m c := by
  induction m with
  | nil => simp [mapInsert, mapFind]
  | cons kv rest ih =>
    obtain ⟨k, x⟩ := kv
    unfold mapInsert
    by_cases h1 : ch.toNat < k.toNat
    · simp only [h1, if_true]
      simp [mapFind]
    · simp only [h1, if_false]
      by_cases h2 : k = ch
      · subst h2
        by_cases h3 : k = c
        · simp [mapFind, h3]
        · simp [mapFind, h3]
      · simp only [h2, if_false]
        by_cases h3 : ch = c
        · subst h3
          simp [mapFind, h2, ih]
        · simp [mapFind, ih, h3]

theorem mapFind_cacheAssign (m : List (Char × Nat)) (ch : Char) (v : Nat) (c : Char) :
    mapFind (cacheAssign m ch v) c = if ch = c then some v else mapFind m c := by
  simp [cacheAssign, mapFind]

theorem mapFind_eq_none_iff (m : List (Char × Nat)) (c : Char) :
    mapFind m c = none ↔ c ∉ m.map Prod.fst := by
  induction m with
  | nil => simp [mapFind]
  | cons kv rest ih =>
    obtain ⟨k, x⟩ := kv
    by_cases h : k = c
    · simp [mapFind, h]
    · simp only [mapFind, h, if_false, ih, List.map_cons, List.mem_cons]
      constructor
      · intro h1 h2
        rcases h2 with h2 | h2
        · exact h h2.symm
        · exact h1 h2
      · intro h1 h2
        exact h1 (Or.inr h2)

theorem keys_mapInsert (m : List (Char × Nat)) (ch : Char) (v : Nat) (c : Char) :
    c ∈ (mapInsert m ch v).map Prod.fst ↔ c = ch ∨ c ∈ m.map Prod.fst := by
  induction m with
  | nil => simp [mapInsert]
  | cons kv rest ih =>
    obtain ⟨k, x⟩ := kv
    unfold mapInsert
    by_cases h1 : ch.toNat < k.toNat
    · simp [h1]
    · simp only [h1, if_false]
      by_cases h2 : k = ch
      · subst h2
        simp
      · simp only [h2, if_false, List.map_cons, List.mem_cons, ih]
        tauto

theorem nodup_keys_mapInsert (m : List (Char × Nat)) (ch : Char) (v : Nat)
    (hm : (m.map Prod.fst).Nodup) (hc : ch ∉ m.map Prod.fst) :
    ((mapInsert m ch v).map Prod.fst).Nodup := by
  induction m with
  | nil => simp [mapInsert]
  | cons kv rest ih =>
    obtain ⟨k, x⟩ := kv
    simp only [List.map_cons, List.nodup_cons] at hm
    simp only [List.map_cons, List.mem_cons, not_or] at hc
    unfold mapInsert
    by_cases h1 : ch.toNat < k.toNat
    · simp only [h1, if_true, List.map_cons, List.nodup_cons, List.mem_cons]
      refine ⟨?_, hm.1, hm.2⟩
      rintro (h | h)
      · exact hc.1 h
      · exact hc.2 h
    · simp only [h1, if_false]
      by_cases h2 : k = ch
      · exact absurd h2.symm hc.1
      · simp only [h2, if_false, List.map_cons, List.nodup_cons]
        refine ⟨?_, ih hm.2 hc.2⟩
        rw [keys_mapInsert]
        rintro (h | h)
        · exact h2 h
        · exact hm.1 h

theorem mapFind_of_mem (m : List (Char × Nat)) (hm : (m.map Prod.fst).Nodup)
    (c : Char) (u : Nat) (hcu : (c, u) ∈ m) : mapFind m c = some u := by
  induction m with
  | nil => simp at hcu
  | cons kv rest ih =>
    obtain ⟨k, x⟩ := kv
    simp only [List.map_cons, List.nodup_cons] at hm
    rcases List.mem_cons.1 hcu with h | h
    · injection h with h1 h2
      subst h1
      subst h2
      simp [mapFind]
    · have hk : k ≠ c := by
        intro hkc
        subst hkc
        exact hm.1 (List.mem_map.2 ⟨(k, u), h, rfl⟩)
      simp [mapFind, hk, ih hm.2 h]

theorem mem_of_mapFind (m : List (Char × Nat)) (c : Char) (u : Nat)
    (h : mapFind m c = some u) : (c, u) ∈ m := by
  induction m with
  | nil => simp [mapFind] at h
  | cons kv rest ih =>
    obtain ⟨k, x⟩ := kv
    by_cases hk : k = c
    · subst hk
      simp [mapFind] at h
      subst h
      exact List.mem_cons_self _ _
    · simp only [mapFind, hk, if_false] at h
      exact List.mem_cons_of_mem _ (ih h)

/-! ## The arena -/

theorem deref_of_le (h : AhoCorasick) (p : Nat) (hp : h.length ≤ p) :
    deref h p = AhoCorasickNode.fresh := by
  unfold deref
  exact List.getD_eq_default _ _ hp

theorem deref_set (h : AhoCorasick) (p q : Nat) (x : AhoCorasickNode) :
    deref (h.set p x) q = if p = q ∧ p < h.length then x else deref h q := by
  unfold deref
  simp only [List.getD_eq_getElem?_getD, List.getElem?_set]
  by_cases hpq : p = q
  · subst hpq
    by_cases hp : p < h.length
    · simp [hp]
    · simp only [hp, and_false, if_false]
      rw [List.getElem?_eq_none (Nat.le_of_not_lt hp)]
      simp
  · simp [hpq]

theorem deref_set_self (h : AhoCorasick) (p : Nat) (x : AhoCorasickNode) (hp : p < h.length) :
    deref (h.set p x) p = x := by
  simp [deref_set, hp]

theorem deref_set_ne (h : AhoCorasick) (p q : Nat) (x : AhoCorasickNode) (hpq : p ≠ q) :
    deref (h.set p x) q = deref h q := by
  simp [deref_set, hpq]

theorem deref_append_left (h l : AhoCorasick) (p : Nat) (hp : p < h.length) :
    deref (h ++ l) p = deref h p := by
  unfold deref
  exact List.getD_append _ _ _ _ hp

theorem deref_append_fresh (h : AhoCorasick) :
    deref (h ++ [AhoCorasickNode.fresh]) h.length = AhoCorasickNode.fresh := by
  unfold deref
  rw [List.getD_append_right _ _ _ _ (le_refl _)]
  simp

theorem word_append_left (ws l : List (List Char)) (v : Nat) (hv : v < ws.length) :
    word (ws ++ l) v = word ws v := by
  unfold word
  exact List.getD_append _ _ _ _ hv

theorem word_append_new (ws : List (List Char)) (w : List Char) :
    word (ws ++ [w]) ws.length = w := by
  unfold word
  rw [List.getD_append_right _ _ _ _ (le_refl _)]
  simp

theorem word_mem (ws : List (List Char)) (v : Nat) (hv : v < ws.length) : word ws v ∈ ws := by
  unfold word
  rw [List.getD_eq_getElem _ _ hv]
  exact List.getElem_mem hv

theorem exists_of_mem_words (ws : List (List Char)) (w : List Char) (hw : w ∈ ws) :
    ∃ v, v < ws.length ∧ word ws v = w := by
  obtain ⟨i, hi, rfl⟩ := List.getElem_of_mem hw
  refine ⟨i, hi, ?_⟩
  unfold word
  exact List.getD_eq_getElem _ _ hi

/-! ## Longest suffixes -/

theorem suffix_eq_of_length_eq {s t w : List Char} (hs : s <:+ w) (ht : t <:+ w)
    (hl : s.length = t.length) : s = t :=
  (List.suffix_of_suffix_length_le hs ht (le_of_eq hl)).eq_of_length hl

theorem IsLongestSuffix.unique {W : List (List Char)} {w s t : List Char}
    (hs : IsLongestSuffix W w s) (ht : IsLongestSuffix W w t) : s = t :=
  suffix_eq_of_length_eq hs.2.1 ht.2.1
    (le_antisymm (ht.2.2 s hs.1 hs.2.1) (hs.2.2 t ht.1 ht.2.1))

theorem IsLongestProperSuffix.unique_proper {W : List (List Char)} {w s t : List Char}
    (hs : IsLongestProperSuffix W w s) (ht : IsLongestProperSuffix W w t) : s = t :=
  suffix_eq_of_length_eq hs.2.1 ht.2.1
    (le_antisymm (ht.2.2.2 s hs.1 hs.2.1 hs.2.2.1) (hs.2.2.2 t ht.1 ht.2.1 ht.2.2.1))

/-- A suffix that is a word of `W` is a suffix of the longest such suffix. -/
theorem IsLongestSuffix.suffix_iff {W : List (List Char)} {w s t : List Char}
    (hs : IsLongestSuffix W w s) (ht : t ∈ W) : t <:+ w ↔ t <:+ s :=
  ⟨fun h => List.suffix_of_suffix_length_le h hs.2.1 (hs.2.2 t ht h), fun h => h.trans hs.2.1⟩

theorem suffix_length_lt_of_ne {s w : List Char} (hs : s <:+ w) (hne : s ≠ w) :
    s.length < w.length := by
  rcases Nat.lt_or_ge s.length w.length with h | h
  · exact h
  · exact absurd (hs.eq_of_length_le h) hne

theorem isLongestSuffix_self {W : List (List Char)} {w : List Char} (hw : w ∈ W) :
    IsLongestSuffix W w w :=
  ⟨hw, List.suffix_refl _, fun _ _ ht => ht.length_le⟩

/-- Reading one more symbol: the state after `t ++ [c]` is determined by the state after
`t`. -/
theorem IsLongestSuffix.step {W : List (List Char)}
    (hclosed : ∀ x c, x ++ [c] ∈ W → x ∈ W)
    {t s u : List Char} {c : Char}
    (hs : IsLongestSuffix W t s) (hu : IsLongestSuffix W (s ++ [c]) u) :
    IsLongestSuffix W (t ++ [c]) u := by
  refine ⟨hu.1, hu.2.1.trans ?_, ?_⟩
  · obtain ⟨r, hr⟩ := hs.2.1
    exact ⟨r, by rw [← hr, List.append_assoc]⟩
  · intro x hx hxs
    rcases List.suffix_concat_iff.1 hxs with h | ⟨y, rfl, hy⟩
    · subst h
      simp
    · have hyW : y ∈ W := hclosed y c hx
      have h1 : y <:+ s := (hs.suffix_iff hyW).1 hy
      apply hu.2.2 _ hx
      obtain ⟨r, hr⟩ := h1
      exact ⟨r, by rw [← hr, List.append_assoc]⟩

/-- The fallback of the transition function through the suffix link. -/
theorem IsLongestSuffix.of_link {W : List (List Char)}
    (hclosed : ∀ x c, x ++ [c] ∈ W → x ∈ W)
    {w p u : List Char} {c : Char} (hw : w ++ [c] ∉ W)
    (hp : IsLongestProperSuffix W w p) (hu : IsLongestSuffix W (p ++ [c]) u) :
    IsLongestSuffix W (w ++ [c]) u := by
  refine ⟨hu.1, hu.2.1.trans ?_, ?_⟩
  · obtain ⟨r, hr⟩ := hp.2.1
    exact ⟨r, by rw [← hr, List.append_assoc]⟩
  · intro x hx hxs
    rcases List.suffix_concat_iff.1 hxs with h | ⟨y, rfl, hy⟩
    · subst h
      simp
    · have hyW : y ∈ W := hclosed y c hx
      have hne : y ≠ w := by
        intro h
        subst h
        exact hw hx
      have hlt : y.length < w.length := suffix_length_lt_of_ne hy hne
      have h1 : y <:+ p :=
        List.suffix_of_suffix_length_le hy hp.2.1 (hp.2.2.2 y hyW hy hlt)
      apply hu.2.2 _ hx
      obtain ⟨r, hr⟩ := h1
      exact ⟨r, by rw [← hr, List.append_assoc]⟩

/-- At the root a symbol without a trie edge leads back to the root. -/
theorem isLongestSuffix_root {W : List (List Char)} (hnil : [] ∈ W)
    {c : Char} (hw : [c] ∉ W) : IsLongestSuffix W ([] ++ [c]) [] := by
  refine ⟨hnil, List.nil_suffix, ?_⟩
  intro x hx hxs
  rcases List.suffix_concat_iff.1 hxs with h | ⟨y, rfl, hy⟩
  · subst h
    simp
  · have : y = [] := List.suffix_nil.1 hy
    subst this
    exact absurd hx hw

/-! ## The trie invariant -/

theorem TrieInv.of_same_trie {h h1 : AhoCorasick} {ws : List (List Char)} (hT : TrieInv h ws)
    (hlen : h1.length = h.length)
    (htrie : ∀ v, (deref h1 v).trie_transitions_ = (deref h v).trie_transitions_) :
    TrieInv h1 ws := by
  refine ⟨?_, hT.root, ?_, ?_, ?_, ?_, ?_, ?_, ?_⟩
  · rw [hlen]; exact hT.len
  · rw [hlen]; exact hT.pos
  · intro u v hu hv; rw [hlen] at hu hv; exact hT.inj u v hu hv
  · intro v hv; rw [hlen] at hv; exact hT.depth v hv
  · intro v ch u hv hf
    rw [hlen] at hv ⊢
    rw [htrie] at hf
    exact hT.edge v ch u hv hf
  · intro v ch u hv hu hw
    rw [hlen] at hv hu
    rw [htrie]
    exact hT.edge_complete v ch u hv hu hw
  · intro u hu hne
    rw [hlen] at hu ⊢
    exact hT.parent u hu hne
  · intro v hv
    rw [hlen] at hv
    rw [htrie]
    exact hT.keys v hv

theorem TrieInv.word_ne_nil {h : AhoCorasick} {ws : List (List Char)} (hT : TrieInv h ws)
    {v : Nat} (hv : v < h.length) (hne : v ≠ 0) : word ws v ≠ [] := by
  intro hw
  exact hne (hT.inj v 0 hv hT.pos (hw.trans hT.root.symm))

theorem TrieInv.mem_iff {h : AhoCorasick} {ws : List (List Char)} (hT : TrieInv h ws)
    (w : List Char) : w ∈ ws ↔ ∃ v, v < h.length ∧ word ws v = w := by
  constructor
  · intro hw
    obtain ⟨v, hv, hvw⟩ := exists_of_mem_words ws w hw
    exact ⟨v, hT.len ▸ hv, hvw⟩
  · rintro ⟨v, hv, rfl⟩
    exact word_mem ws v (hT.len.symm ▸ hv)

theorem TrieInv.nil_mem {h : AhoCorasick} {ws : List (List Char)} (hT : TrieInv h ws) :
    [] ∈ ws :=
  (hT.mem_iff []).2 ⟨0, hT.pos, hT.root⟩

/-- The words of the trie are closed under dropping the last symbol. -/
theorem TrieInv.closed {h : AhoCorasick} {ws : List (List Char)} (hT : TrieInv h ws)
    (x : List Char) (c : Char) (hx : x ++ [c] ∈ ws) : x ∈ ws := by
  obtain ⟨u, hu, huw⟩ := (hT.mem_iff _).1 hx
  have hne : u ≠ 0 := by
    intro h0
    subst h0
    rw [hT.root] at huw
    simp at huw
  obtain ⟨v, ch, hv, hvw⟩ := hT.parent u hu hne
  rw [huw] at hvw
  have := List.append_inj' hvw (by simp)
  rw [this.1]
  exact (hT.mem_iff _).2 ⟨v, hv, rfl⟩

/-- Adding a leaf under `curr` on a symbol that has no edge yet. -/
theorem TrieInv.extend {h : AhoCorasick} {ws : List (List Char)} (hT : TrieInv h ws)
    {curr : Nat} {sym : Char} (hc : curr < h.length)
    (hnone : mapFind (deref h curr).trie_transitions_ sym = none)
    (h1 : AhoCorasick) (hlen : h1.length = h.length + 1)
    (hcur : (deref h1 curr).trie_transitions_ =
      mapInsert (deref h curr).trie_transitions_ sym h.length)
    (hnew : (deref h1 h.length).trie_transitions_ = [])
    (hold : ∀ v, v < h.length → v ≠ curr →
      (deref h1 v).trie_transitions_ = (deref h v).trie_transitions_) :
    TrieInv h1 (ws ++ [word ws curr ++ [sym]]) := by
  have hwold : ∀ v, v < h.length → word (ws ++ [word ws curr ++ [sym]]) v = word ws v :=
    fun v hv => word_append_left ws _ v (hT.len.symm ▸ hv)
  have hwnew : word (ws ++ [word ws curr ++ [sym]]) h.length = word ws curr ++ [sym] := by
    rw [← hT.len]; exact word_append_new ws _
  have hfresh : ∀ u, u < h.length → word ws u ≠ word ws curr ++ [sym] := by
    intro u hu hw
    have := hT.edge_complete curr sym u hc hu hw
    rw [hnone] at this
    exact Option.noConfusion this
  have hcases : ∀ v, v < h1.length → v < h.length ∨ v = h.length := by
    intro v hv; rw [hlen] at hv; omega
  refine ⟨?_, ?_, ?_, ?_, ?_, ?_, ?_, ?_, ?_⟩
  · simp [hlen, hT.len]
  · rw [hwold 0 hT.pos]; exact hT.root
  · rw [hlen]; omega
  · intro u v hu hv huv
    rcases hcases u hu with hu1 | hu1 <;> rcases hcases v hv with hv1 | hv1
    · rw [hwold u hu1, hwold v hv1] at huv
      exact hT.inj u v hu1 hv1 huv
    · subst hv1
      rw [hwold u hu1, hwnew] at huv
      exact absurd huv (hfresh u hu1)
    · subst hu1
      rw [hwold v hv1, hwnew] at huv
      exact absurd huv.symm (hfresh v hv1)
    · rw [hu1, hv1]
  · intro v hv
    rcases hcases v hv with hv1 | hv1
    · rw [hwold v hv1]; exact hT.depth v hv1
    · subst hv1
      rw [hwnew]
      have := hT.depth curr hc
      simp
      omega
  · intro v ch u hv hf
    rcases hcases v hv with hv1 | hv1
    · by_cases hvc : v = curr
      · subst hvc
        rw [hcur, mapFind_mapInsert] at hf
        by_cases hs : sym = ch
        · subst hs
          simp at hf
          subst hf
          exact ⟨by rw [hlen]; omega, by rw [hwnew, hwold v hv1]⟩
        · simp only [hs, if_false] at hf
          obtain ⟨hu, hw⟩ := hT.edge v ch u hv1 hf
          exact ⟨by rw [hlen]; omega, by rw [hwold u hu, hwold v hv1]; exact hw⟩
      · rw [hold v hv1 hvc] at hf
        obtain ⟨hu, hw⟩ := hT.edge v ch u hv1 hf
        exact ⟨by rw [hlen]; omega, by rw [hwold u hu, hwold v hv1]; exact hw⟩
    · subst hv1
      rw [hnew] at hf
      simp [mapFind] at hf
  · intro v ch u hv hu hw
    rcases hcases v hv with hv1 | hv1 <;> rcases hcases u hu with hu1 | hu1
    · rw [hwold u hu1, hwold v hv1] at hw
      have he := hT.edge_complete v ch u hv1 hu1 hw
      by_cases hvc : v = curr
      · subst hvc
        rw [hcur, mapFind_mapInsert]
        have hs : sym ≠ ch := by
          intro hs
          subst hs
          rw [hnone] at he
          exact Option.noConfusion he
        simp [hs, he]
      · rw [hold v hv1 hvc]; exact he
    · subst hu1
      rw [hwnew, hwold v hv1] at hw
      have h2 := List.append_inj' hw (by simp)
      have hvc : v = curr := hT.inj v curr hv1 hc h2.1.symm
      have hs : sym = ch := by simpa using h2.2
      subst hvc
      rw [hcur, mapFind_mapInsert]
      simp [hs]
    · subst hv1
      rw [hwnew, hwold u hu1] at hw
      have hne : u ≠ 0 := by
        intro h0
        subst h0
        rw [hT.root] at hw
        simp at hw
      obtain ⟨p, c', hp, hpw⟩ := hT.parent u hu1 hne
      rw [hw] at hpw
      have h2 := List.append_inj' hpw (by simp)
      exact absurd h2.1.symm (hfresh p hp)
    · subst hv1
      subst hu1
      rw [hwnew] at hw
      have := congrArg List.length hw
      simp at this
  · intro u hu hne
    rcases hcases u hu with hu1 | hu1
    · obtain ⟨p, c', hp, hpw⟩ := hT.parent u hu1 hne
      exact ⟨p, c', by rw [hlen]; omega, by rw [hwold u hu1, hwold p hp]; exact hpw⟩
    · subst hu1
      exact ⟨curr, sym, by rw [hlen]; omega, by rw [hwnew, hwold curr hc]⟩
  · intro v hv
    rcases hcases v hv with hv1 | hv1
    · by_cases hvc : v = curr
      · subst hvc
        rw [hcur]
        exact nodup_keys_mapInsert _ _ _ (hT.keys v hv1) ((mapFind_eq_none_iff _ _).1 hnone)
      · rw [hold v hv1 hvc]; exact hT.keys v hv1
    · subst hv1
      rw [hnew]
      simp

/-! ## Adding the strings -/

theorem AddStringLoop_spec (s : List Char) :
    ∀ (h : AhoCorasick) (ws : List (List Char)) (curr : Nat),
      TrieInv h ws → curr < h.length →
      (∀ v ch, mapFind (deref h v).automaton_transitions_cache_ ch =
        mapFind (deref h v).trie_transitions_ ch) →
      (∀ v, (deref h v).suffix_link_ = none ∧ (deref h v).terminal_link_ = none) →
      ∃ ws1,
        TrieInv (AhoCorasickBuilder.AddStringLoop h curr s).1 (ws ++ ws1) ∧
        (AhoCorasickBuilder.AddStringLoop h curr s).2 <
          (AhoCorasickBuilder.AddStringLoop h curr s).1.length ∧
        word (ws ++ ws1) (AhoCorasickBuilder.AddStringLoop h curr s).2 = word ws curr ++ s ∧
        (∀ v ch,
          mapFind (deref (AhoCorasickBuilder.AddStringLoop h curr s).1 v).automaton_transitions_cache_ ch =
          mapFind (deref (AhoCorasickBuilder.AddStringLoop h curr s).1 v).trie_transitions_ ch) ∧
        (∀ v, (deref (AhoCorasickBuilder.AddStringLoop h curr s).1 v).suffix_link_ = none ∧
          (deref (AhoCorasickBuilder.AddStringLoop h curr s).1 v).terminal_link_ = none) ∧
        (∀ v, (deref (AhoCorasickBuilder.AddStringLoop h curr s).1 v).is_terminal_ =
          (deref h v).is_terminal_) := by
  induction s with
  | nil =>
    intro h ws curr hT hc hcache hlinks
    refine ⟨[], ?_⟩
    have e : AhoCorasickBuilder.AddStringLoop h curr [] = (h, curr) := rfl
    rw [e, List.append_nil]
    exact ⟨hT, hc, by simp, hcache, hlinks, fun _ => rfl⟩
  | cons sym rest ih =>
    intro h ws curr hT hc hcache hlinks
    cases hf : mapFind (deref h curr).trie_transitions_ sym with
    | some child =>
      obtain ⟨hch, hw⟩ := hT.edge curr sym child hc hf
      obtain ⟨ws1, h1, h2, h3, h4, h5, h6⟩ := ih h ws child hT hch hcache hlinks
      refine ⟨ws1, ?_⟩
      simp only [AhoCorasickBuilder.AddStringLoop, hf]
      refine ⟨h1, h2, ?_, h4, h5, h6⟩
      rw [h3, hw]
      simp
    | none =>
      -- the arena after the new leaf is made
      let nd : AhoCorasickNode :=
        { deref h curr with
          trie_transitions_ := mapInsert (deref h curr).trie_transitions_ sym h.length
          automaton_transitions_cache_ :=
            cacheAssign (deref h curr).automaton_transitions_cache_ sym h.length }
      let hnew : AhoCorasick := h.set curr nd ++ [AhoCorasickNode.fresh]
      have hlen : hnew.length = h.length + 1 := by simp [hnew]
      have hdcur : deref hnew curr = nd := by
        show deref (h.set curr nd ++ [AhoCorasickNode.fresh]) curr = nd
        rw [deref_append_left _ _ _ (by simpa using hc), deref_set_self _ _ _ hc]
      have hdnew : deref hnew h.length = AhoCorasickNode.fresh := by
        show deref (h.set curr nd ++ [AhoCorasickNode.fresh]) h.length = _
        have := deref_append_fresh (h.set curr nd)
        simpa using this
      have hdold : ∀ v, v ≠ curr → v ≠ h.length → deref hnew v = deref h v := by
        intro v hv1 hv2
        show deref (h.set curr nd ++ [AhoCorasickNode.fresh]) v = _
        rcases Nat.lt_or_ge v h.length with hv | hv
        · rw [deref_append_left _ _ _ (by simpa using hv), deref_set_ne _ _ _ _ (Ne.symm hv1)]
        · rw [deref_of_le _ _ (by simp; omega), deref_of_le _ _ hv]
      have hT1 : TrieInv hnew (ws ++ [word ws curr ++ [sym]]) := by
        apply hT.extend hc hf hnew hlen
        · rw [hdcur]
        · rw [hdnew]; rfl
        · intro v hv hvc
          rw [hdold v hvc (Nat.ne_of_lt hv)]
      have hcache1 : ∀ v ch, mapFind (deref hnew v).automaton_transitions_cache_ ch =
          mapFind (deref hnew v).trie_transitions_ ch := by
        intro v ch
        by_cases hvc : v = curr
        · subst hvc
          rw [hdcur]
          show mapFind (cacheAssign _ _ _) ch = mapFind (mapInsert _ _ _) ch
          rw [mapFind_cacheAssign, mapFind_mapInsert, hcache]
        · by_cases hvn : v = h.length
          · subst hvn
            rw [hdnew]; rfl
          · rw [hdold v hvc hvn]; exact hcache v ch
      have hlinks1 : ∀ v, (deref hnew v).suffix_link_ = none ∧
          (deref hnew v).terminal_link_ = none := by
        intro v
        by_cases hvc : v = curr
        · subst hvc
          rw [hdcur]
          exact hlinks v
        · by_cases hvn : v = h.length
          · subst hvn
            rw [hdnew]; exact ⟨rfl, rfl⟩
          · rw [hdold v hvc hvn]; exact hlinks v
      have hterm1 : ∀ v, (deref hnew v).is_terminal_ = (deref h v).is_terminal_ := by
        intro v
        by_cases hvc : v = curr
        · subst hvc
          rw [hdcur]
        · by_cases hvn : v = h.length
          · subst hvn
            rw [hdnew, deref_of_le _ _ (le_refl _)]
          · rw [hdold v hvc hvn]
      obtain ⟨ws1, h1, h2, h3, h4, h5, h6⟩ :=
        ih hnew (ws ++ [word ws curr ++ [sym]]) h.length hT1 (by rw [hlen]; omega)
          hcache1 hlinks1
      refine ⟨[word ws curr ++ [sym]] ++ ws1, ?_⟩
      have hstep : AhoCorasickBuilder.AddStringLoop h curr (sym :: rest) =
          AhoCorasickBuilder.AddStringLoop hnew h.length rest := by
        simp only [AhoCorasickBuilder.AddStringLoop, hf]
      rw [hstep, ← List.append_assoc]
      refine ⟨h1, h2, ?_, h4, h5, fun v => (h6 v).trans (hterm1 v)⟩
      rw [h3]
      have : word (ws ++ [word ws curr ++ [sym]]) h.length = word ws curr ++ [sym] := by
        rw [← hT.len]; exact word_append_new ws _
      rw [this]
      simp

theorem TrieBuilt.dict {D : List (List Char)} {h : AhoCorasick} {ws : List (List Char)}
    {handles : List Nat} (hB : TrieBuilt D h ws handles) (s : List Char) (hs : s ∈ D) :
    ∃ v, v ∈ handles ∧ v < h.length ∧ word ws v = s := by
  rw [← hB.handles_word] at hs
  obtain ⟨v, hv, hvs⟩ := List.mem_map.1 hs
  exact ⟨v, hv, hB.handles_lt v hv, hvs⟩

theorem AddStringAt_spec {D : List (List Char)} {h : AhoCorasick} {ws : List (List Char)}
    {handles : List Nat} (hB : TrieBuilt D h ws handles) (strs : List (List Char))
    (s : List Char) :
    ∃ ws1,
      TrieBuilt (D ++ [s]) (AhoCorasickBuilder.AddStringAt ⟨handles, strs⟩ h 0 s).2 (ws ++ ws1)
        (AhoCorasickBuilder.AddStringAt ⟨handles, strs⟩ h 0 s).1.surname_vertexes_ ∧
      (AhoCorasickBuilder.AddStringAt ⟨handles, strs⟩ h 0 s).1.strings_ = strs := by
  obtain ⟨ws1, h1, h2, h3, h4, h5, h6⟩ :=
    AddStringLoop_spec s h ws 0 hB.trie hB.trie.pos hB.cache_eq hB.nolinks
  refine ⟨ws1, ?_, rfl⟩
  generalize hr : AhoCorasickBuilder.AddStringLoop h 0 s = r at h1 h2 h3 h4 h5 h6
  have hAt : AhoCorasickBuilder.AddStringAt ⟨handles, strs⟩ h 0 s =
      (⟨handles ++ [r.2], strs⟩, r.1.set r.2 { deref r.1 r.2 with is_terminal_ := true }) := by
    simp only [AhoCorasickBuilder.AddStringAt, hr]
  rw [hAt]
  simp only
  rw [hB.trie.root, List.nil_append] at h3
  have hle : h.length ≤ r.1.length := by
    rw [← hB.trie.len, ← h1.len]; simp
  have hwold : ∀ v, v < h.length → word (ws ++ ws1) v = word ws v :=
    fun v hv => word_append_left ws _ v (hB.trie.len.symm ▸ hv)
  have hd : ∀ v, deref (r.1.set r.2 { deref r.1 r.2 with is_terminal_ := true }) v =
      if v = r.2 then { deref r.1 r.2 with is_terminal_ := true } else deref r.1 v := by
    intro v
    rw [deref_set]
    by_cases hv : r.2 = v
    · subst hv; simp [h2]
    · simp [hv, Ne.symm hv]
  refine ⟨?_, ?_, ?_, ?_, ?_, ?_⟩
  · apply h1.of_same_trie (by simp)
    intro v
    rw [hd]
    split
    · next hv => subst hv; rfl
    · rfl
  · intro v ch
    rw [hd]
    split
    · next hv => subst hv; exact h4 _ ch
    · exact h4 v ch
  · intro v hv
    rw [List.length_set] at hv
    rw [hd]
    by_cases hvr : v = r.2
    · subst hvr
      simp [h3]
    · simp only [hvr, if_false, h6, List.mem_append, List.mem_singleton]
      constructor
      · intro ht
        have hvh : v < h.length := by
          rcases Nat.lt_or_ge v h.length with hlt | hge
          · exact hlt
          · rw [deref_of_le _ _ hge] at ht
            exact absurd ht (by simp [AhoCorasickNode.fresh])
        left
        rw [hwold v hvh]
        exact (hB.flags v hvh).1 ht
      · rintro (hw | hw)
        · obtain ⟨q, _, hq, hqw⟩ := hB.dict _ hw
          have hvq : v = q := by
            apply h1.inj v q hv (lt_of_lt_of_le hq hle)
            rw [hwold q hq, hqw]
          subst hvq
          rw [hwold v hq] at hw
          exact (hB.flags v hq).2 hw
        · exact absurd (h1.inj v r.2 hv h2 (hw.trans h3.symm)) hvr
  · intro v
    rw [hd]
    split
    · next hv => subst hv; exact h5 _
    · exact h5 v
  · rw [List.map_append, List.map_singleton, h3, ← hB.handles_word]
    congr 1
    apply List.map_congr_left
    intro v hv
    exact hwold v (hB.handles_lt v hv)
  · intro v hv
    rw [List.length_set]
    rcases List.mem_append.1 hv with hv | hv
    · exact lt_of_lt_of_le (hB.handles_lt v hv) hle
    · rw [List.mem_singleton.1 hv]; exact h2

theorem addStrings_spec (strs : List (List Char)) :
    ∀ (D : List (List Char)) (h : AhoCorasick) (ws : List (List Char)) (handles : List Nat)
      (names : List (List Char)),
      TrieBuilt D h ws handles →
      ∃ ws1,
        TrieBuilt (D ++ strs)
          (strs.foldl (fun (acc : AhoCorasickBuilder × AhoCorasick) string =>
            AhoCorasickBuilder.AddStringAt acc.1 acc.2 AhoCorasick.Root string)
            (⟨handles, names⟩, h)).2 ws1
          (strs.foldl (fun (acc : AhoCorasickBuilder × AhoCorasick) string =>
            AhoCorasickBuilder.AddStringAt acc.1 acc.2 AhoCorasick.Root string)
            (⟨handles, names⟩, h)).1.surname_vertexes_ ∧
        (strs.foldl (fun (acc : AhoCorasickBuilder × AhoCorasick) string =>
            AhoCorasickBuilder.AddStringAt acc.1 acc.2 AhoCorasick.Root string)
            (⟨handles, names⟩, h)).1.strings_ = names := by
  induction strs with
  | nil =>
    intro D h ws handles names hB
    exact ⟨ws, by simpa using hB, rfl⟩
  | cons s rest ih =>
    intro D h ws handles names hB
    obtain ⟨ws1, hB1, hn⟩ := AddStringAt_spec hB names s
    simp only [List.foldl_cons]
    generalize hr : AhoCorasickBuilder.AddStringAt ⟨handles, names⟩ h AhoCorasick.Root s = r
    have hr0 : AhoCorasickBuilder.AddStringAt ⟨handles, names⟩ h 0 s = r := hr
    rw [hr0] at hB1 hn
    obtain ⟨b, h1⟩ := r
    obtain ⟨hs, ns⟩ := b
    simp only at hB1 hn
    subst hn
    obtain ⟨ws2, hB2, hn2⟩ := ih (D ++ [s]) h1 (ws ++ ws1) hs ns hB1
    refine ⟨ws2, ?_, hn2⟩
    rw [List.append_assoc] at hB2
    exact hB2

theorem trieBuilt_fresh : TrieBuilt [] [AhoCorasickNode.fresh] [[]] [] := by
  have hd : ∀ v, deref [AhoCorasickNode.fresh] v = AhoCorasickNode.fresh := by
    intro v
    cases v with
    | zero => rfl
    | succ n => exact deref_of_le _ _ (by simp)
  have hlt : ∀ v, v < [AhoCorasickNode.fresh].length → v = 0 := by
    intro v hv; simp at hv; exact hv
  refine ⟨⟨rfl, rfl, by simp, ?_, ?_, ?_, ?_, ?_, ?_⟩, ?_, ?_, ?_, rfl, ?_⟩
  · intro u v hu hv _; rw [hlt u hu, hlt v hv]
  · intro v hv; rw [hlt v hv]; simp [word]
  · intro v ch u _ hf; rw [hd] at hf; simp [AhoCorasickNode.fresh, mapFind] at hf
  · intro v ch u hv hu hw
    rw [hlt v hv, hlt u hu] at hw
    simp [word] at hw
  · intro u hu hne; exact absurd (hlt u hu) hne
  · intro v _; rw [hd]; simp [AhoCorasickNode.fresh]
  · intro v ch; rw [hd]; rfl
  · intro v _; rw [hd]; simp [AhoCorasickNode.fresh]
  · intro v; rw [hd]; exact ⟨rfl, rfl⟩
  · intro v hv; simp at hv

/-! ## The suffix links -/

theorem suffix_concat_concat {x y : List Char} (c : Char) (h : x <:+ y) :
    x ++ [c] <:+ y ++ [c] := by
  obtain ⟨r, hr⟩ := h
  exact ⟨r, by rw [← hr, List.append_assoc]⟩

theorem isLongestProperSuffix_concat {W : List (List Char)}
    (hclosed : ∀ x c, x ++ [c] ∈ W → x ∈ W) {wv p : List Char} {c : Char}
    (hp : p <:+ wv) (hlt : p.length < wv.length) (hpc : p ++ [c] ∈ W)
    (hmax : ∀ y, y ∈ W → y <:+ wv → y.length < wv.length → y ++ [c] ∈ W →
      y.length ≤ p.length) :
    IsLongestProperSuffix W (wv ++ [c]) (p ++ [c]) := by
  refine ⟨hpc, suffix_concat_concat c hp, by simpa using hlt, ?_⟩
  intro x hx hxs hxl
  rcases List.suffix_concat_iff.1 hxs with h | ⟨y, rfl, hy⟩
  · subst h; simp
  · have := hmax y (hclosed y c hx) hy (by simpa using hxl) hx
    simpa using this

theorem isLongestProperSuffix_concat_nil {W : List (List Char)}
    (hclosed : ∀ x c, x ++ [c] ∈ W → x ∈ W) (hnil : [] ∈ W) {wv : List Char} {c : Char}
    (hnone : ∀ y, y ∈ W → y <:+ wv → y.length < wv.length → y ++ [c] ∉ W) :
    IsLongestProperSuffix W (wv ++ [c]) [] := by
  refine ⟨hnil, List.nil_suffix, by simp, ?_⟩
  intro x hx hxs hxl
  rcases List.suffix_concat_iff.1 hxs with h | ⟨y, rfl, hy⟩
  · subst h; simp
  · exact absurd hx (hnone y (hclosed y c hx) hy (by simpa using hxl))

theorem suffixWalk_spec {D ws : List (List Char)} {h : AhoCorasick} (hT : TrieInv h ws)
    (wv : List Char) (c : Char) (child : Nat)
    (hL : ∀ q, q < h.length → (word ws q).length < wv.length → Linked D ws h q) :
    ∀ (fuel : Nat) (p : Option Nat), WalkInv ws h.length wv c p →
      (∀ q, p = some q → (word ws q).length < fuel) →
      ∃ h1 last, suffixWalk child c fuel h p = some (h1, last) ∧
        ((last = none ∧ h1 = h ∧ IsLongestProperSuffix ws (wv ++ [c]) []) ∨
         (∃ t, last ≠ none ∧ t < h.length ∧
            IsLongestProperSuffix ws (wv ++ [c]) (word ws t) ∧
            h1 = h.set child { deref h child with suffix_link_ := some t })) := by
  intro fuel
  induction fuel with
  | zero =>
    intro p hp hfuel
    cases p with
    | none =>
      exact ⟨h, none, rfl, Or.inl ⟨rfl, rfl,
        isLongestProperSuffix_concat_nil hT.closed hT.nil_mem hp⟩⟩
    | some q => exact absurd (hfuel q rfl) (Nat.not_lt_zero _)
  | succ fuel ih =>
    intro p hp hfuel
    cases p with
    | none =>
      exact ⟨h, none, rfl, Or.inl ⟨rfl, rfl,
        isLongestProperSuffix_concat_nil hT.closed hT.nil_mem hp⟩⟩
    | some q =>
      obtain ⟨hq, hqs, hql, hmax⟩ := hp
      cases hf : mapFind (deref h q).trie_transitions_ c with
      | some t =>
        obtain ⟨ht, htw⟩ := hT.edge q c t hq hf
        refine ⟨_, some q, by simp only [suffixWalk, hf], Or.inr ⟨t, by simp, ht, ?_, rfl⟩⟩
        rw [htw]
        apply isLongestProperSuffix_concat hT.closed hqs hql _ hmax
        rw [← htw]
        exact (hT.mem_iff _).2 ⟨t, ht, rfl⟩
      | none =>
        have hnotin : word ws q ++ [c] ∉ ws := by
          intro hmem
          obtain ⟨u, hu, huw⟩ := (hT.mem_iff _).1 hmem
          have := hT.edge_complete q c u hq hu huw
          rw [hf] at this
          exact Option.noConfusion this
        have hstep : suffixWalk child c (fuel + 1) h (some q) =
            suffixWalk child c fuel h (deref h q).suffix_link_ := by
          simp only [suffixWalk, hf]
        rw [hstep]
        have hLq := hL q hq hql
        apply ih
        · by_cases hq0 : q = 0
          · rw [hLq.1 hq0]
            intro y hy hys hyl hyc
            have hle := hmax y hy hys hyl hyc
            rw [hq0, hT.root] at hle
            have hy0 : y = [] := List.length_eq_zero.1 (Nat.le_zero.1 hle)
            apply hnotin
            have hwq : word ws q = y := by rw [hq0, hT.root, hy0]
            rw [hwq]
            exact hyc
          · obtain ⟨u, hu, hsl, hlps⟩ := hLq.2.1 hq0
            rw [hsl]
            refine ⟨hu, hlps.2.1.trans hqs, lt_trans hlps.2.2.1 hql, ?_⟩
            intro y hy hys hyl hyc
            have hle := hmax y hy hys hyl hyc
            have hyq : y <:+ word ws q := List.suffix_of_suffix_length_le hys hqs hle
            have hne : y ≠ word ws q := by
              intro he
              rw [he] at hyc
              exact hnotin hyc
            exact hlps.2.2.2 y hy hyq (suffix_length_lt_of_ne hyq hne)
        · intro u hu
          by_cases hq0 : q = 0
          · rw [hLq.1 hq0] at hu
            exact Option.noConfusion hu
          · obtain ⟨u1, _, hsl, hlps⟩ := hLq.2.1 hq0
            rw [hsl] at hu
            injection hu with hu
            subst hu
            have := hfuel q rfl
            have := hlps.2.2.1
            omega

/-- The terminal link of a node from the terminal link of its suffix link. -/
theorem terminalLinkOK_step {D ws : List (List Char)} {n : Nat} {wu wt : List Char}
    (hdict : ∀ s, s ∈ D → s ∈ ws) (hlps : IsLongestProperSuffix ws wu wt)
    (hnot : wt ∉ D) (tl : Option Nat) (htl : TerminalLinkOK D ws n wt tl) :
    TerminalLinkOK D ws n wu tl := by
  have key : ∀ x, x ∈ D → x <:+ wu → x.length < wu.length →
      x <:+ wt ∧ x.length < wt.length := by
    intro x hx hxs hxl
    have hle := hlps.2.2.2 x (hdict x hx) hxs hxl
    have hxt : x <:+ wt := List.suffix_of_suffix_length_le hxs hlps.2.1 hle
    refine ⟨hxt, suffix_length_lt_of_ne hxt ?_⟩
    intro he
    rw [he] at hx
    exact hnot hx
  cases tl with
  | none =>
    intro x hx hxs hxl
    obtain ⟨h1, h2⟩ := key x hx hxs hxl
    exact htl x hx h1 h2
  | some r =>
    obtain ⟨hr, hrl⟩ := htl
    refine ⟨hr, hrl.1, hrl.2.1.trans hlps.2.1, lt_trans hrl.2.2.1 hlps.2.2.1, ?_⟩
    intro x hx hxs hxl
    obtain ⟨h1, h2⟩ := key x hx hxs hxl
    exact hrl.2.2.2 x hx h1 h2

theorem terminalLinkOK_self {D ws : List (List Char)} {n t : Nat} {wu : List Char}
    (hdict : ∀ s, s ∈ D → s ∈ ws) (ht : t < n)
    (hlps : IsLongestProperSuffix ws wu (word ws t)) (hin : word ws t ∈ D) :
    TerminalLinkOK D ws n wu (some t) :=
  ⟨ht, hin, hlps.2.1, hlps.2.2.1, fun x hx hxs hxl => hlps.2.2.2 x (hdict x hx) hxs hxl⟩

theorem linkChild_spec {D ws : List (List Char)} {h : AhoCorasick} (hT : TrieInv h ws)
    (hdict : ∀ s, s ∈ D → s ∈ ws)
    (hflags : ∀ v, v < h.length → ((deref h v).is_terminal_ = true ↔ word ws v ∈ D))
    {curr child : Nat} {c : Char} (hcurr : curr < h.length) (hchild : child < h.length)
    (hw : word ws child = word ws curr ++ [c])
    (hL : ∀ q, q < h.length → (word ws q).length ≤ (word ws curr).length → Linked D ws h q) :
    ∃ h1, linkChild 0 h curr (c, child) = some h1 ∧ h1.length = h.length ∧
      Linked D ws h1 child ∧
      (∀ q, q ≠ child → deref h1 q = deref h q) ∧
      (deref h1 child).is_terminal_ = (deref h child).is_terminal_ ∧
      (deref h1 child).trie_transitions_ = (deref h child).trie_transitions_ ∧
      (deref h1 child).automaton_transitions_cache_ =
        (deref h child).automaton_transitions_cache_ := by
  have hLc := hL curr hcurr (le_refl _)
  have hstart : WalkInv ws h.length (word ws curr) c (deref h curr).suffix_link_ := by
    by_cases h0 : curr = 0
    · rw [hLc.1 h0]
      intro y _ _ hyl
      rw [h0, hT.root] at hyl
      exact absurd hyl (Nat.not_lt_zero _)
    · obtain ⟨u, hu, hsl, hlps⟩ := hLc.2.1 h0
      rw [hsl]
      exact ⟨hu, hlps.2.1, hlps.2.2.1, fun y hy hys hyl _ => hlps.2.2.2 y hy hys hyl⟩
  have hfuel : ∀ q, (deref h curr).suffix_link_ = some q → (word ws q).length < h.length := by
    intro q hq
    rw [hq] at hstart
    exact lt_of_le_of_lt (hT.depth q hstart.1) hstart.1
  obtain ⟨h1, last, hwalk, hres⟩ :=
    suffixWalk_spec (D := D) hT (word ws curr) c child
      (fun q hq hlt => hL q hq (le_of_lt hlt)) h.length _ hstart hfuel
  -- the arena once the suffix link of the child is set
  have hsl : ∃ t, t < h.length ∧ IsLongestProperSuffix ws (word ws child) (word ws t) ∧
      (if last = none then
          h1.set child { deref h1 child with suffix_link_ := some 0 }
        else h1) = h.set child { deref h child with suffix_link_ := some t } := by
    rcases hres with ⟨hl, hh, hlps⟩ | ⟨t, hl, ht, hlps, hh⟩
    · refine ⟨0, hT.pos, ?_, ?_⟩
      · rw [hw, hT.root]; exact hlps
      · rw [hl, hh]; simp
    · refine ⟨t, ht, ?_, ?_⟩
      · rw [hw]; exact hlps
      · rw [hh]; simp [hl]
  obtain ⟨t, ht, hlps, hh2⟩ := hsl
  have htne : t ≠ child := by
    intro he
    have := hlps.2.2.1
    rw [he] at this
    exact absurd this (lt_irrefl _)
  have hd2c : deref (h.set child { deref h child with suffix_link_ := some t }) child =
      { deref h child with suffix_link_ := some t } := deref_set_self _ _ _ hchild
  have hd2t : deref (h.set child { deref h child with suffix_link_ := some t }) t =
      deref h t := deref_set_ne _ _ _ _ (Ne.symm htne)
  have hrun : linkChild 0 h curr (c, child) =
      some ((h.set child { deref h child with suffix_link_ := some t }).set child
        { deref h child with
          suffix_link_ := some t
          terminal_link_ :=
            if !(deref h t).is_terminal_ then (deref h t).terminal_link_ else some t }) := by
    unfold linkChild
    simp only [hwalk, hh2, hd2c, hd2t]
  refine ⟨_, hrun, by simp, ?_, ?_, ?_, ?_, ?_⟩
  · have hdc : deref ((h.set child { deref h child with suffix_link_ := some t }).set child
        { deref h child with
          suffix_link_ := some t
          terminal_link_ :=
            if !(deref h t).is_terminal_ then (deref h t).terminal_link_ else some t }) child =
        { deref h child with
          suffix_link_ := some t
          terminal_link_ :=
            if !(deref h t).is_terminal_ then (deref h t).terminal_link_ else some t } :=
      deref_set_self _ _ _ (by simpa using hchild)
    have hc0 : child ≠ 0 := by
      intro h0
      rw [h0, hT.root] at hw
      simp at hw
    refine ⟨fun h0 => absurd h0 hc0, fun _ => ⟨t, by simpa using ht, by rw [hdc], hlps⟩, ?_⟩
    rw [hdc]
    simp only [List.length_set]
    have htl : (word ws t).length ≤ (word ws curr).length := by
      have := hlps.2.2.1
      rw [hw] at this
      simp at this
      omega
    cases hterm : (deref h t).is_terminal_ with
    | true =>
      simp only [Bool.not_true, Bool.false_eq_true, if_false]
      exact terminalLinkOK_self hdict ht hlps ((hflags t ht).1 hterm)
    | false =>
      simp only [Bool.not_false, if_true]
      apply terminalLinkOK_step hdict hlps _ _ (hL t ht htl).2.2
      intro hin
      have := (hflags t ht).2 hin
      rw [hterm] at this
      exact Bool.noConfusion this
  · intro q hq
    rw [deref_set_ne _ _ _ _ (Ne.symm hq), deref_set_ne _ _ _ _ (Ne.symm hq)]
  · rw [deref_set_self _ _ _ (by simpa using hchild)]
  · rw [deref_set_self _ _ _ (by simpa using hchild)]
  · rw [deref_set_self _ _ _ (by simpa using hchild)]

/-- A node keeps its links when the arena changes elsewhere. -/
theorem Linked.of_same_links {D ws : List (List Char)} {h h1 : AhoCorasick} {v : Nat}
    (hL : Linked D ws h v) (hlen : h1.length = h.length)
    (hsl : (deref h1 v).suffix_link_ = (deref h v).suffix_link_)
    (htl : (deref h1 v).terminal_link_ = (deref h v).terminal_link_) : Linked D ws h1 v := by
  unfold Linked at hL ⊢
  rw [hsl, htl, hlen]
  exact hL

theorem SameButLinks.links_refl (h : AhoCorasick) : SameButLinks h h :=
  ⟨rfl, fun _ => ⟨rfl, rfl, rfl⟩⟩

theorem SameButLinks.links_trans {h h1 h2 : AhoCorasick} (h01 : SameButLinks h h1)
    (h12 : SameButLinks h1 h2) : SameButLinks h h2 :=
  ⟨h12.1.trans h01.1, fun p =>
    ⟨(h12.2 p).1.trans (h01.2 p).1, (h12.2 p).2.1.trans (h01.2 p).2.1,
      (h12.2 p).2.2.trans (h01.2 p).2.2⟩⟩

theorem SameButLinks.trieInv {h h1 : AhoCorasick} {ws : List (List Char)}
    (hs : SameButLinks h h1) (hT : TrieInv h ws) : TrieInv h1 ws :=
  hT.of_same_trie hs.1 (fun v => (hs.2 v).2.1)

theorem linkChildren_spec {D ws : List (List Char)} (hdict : ∀ s, s ∈ D → s ∈ ws)
    (curr : Nat) (l : List (Char × Nat)) :
    ∀ (h : AhoCorasick) (queue : List Nat),
      TrieInv h ws →
      (∀ v, v < h.length → ((deref h v).is_terminal_ = true ↔ word ws v ∈ D)) →
      curr < h.length →
      (∀ p, p ∈ l → p.2 < h.length ∧ word ws p.2 = word ws curr ++ [p.1]) →
      (∀ q, q < h.length → (word ws q).length ≤ (word ws curr).length → Linked D ws h q) →
      ∃ h1, linkChildren 0 curr l h queue = some (h1, queue ++ l.map Prod.snd) ∧
        SameButLinks h h1 ∧
        (∀ p, p ∈ l → Linked D ws h1 p.2) ∧
        (∀ q, Linked D ws h q → Linked D ws h1 q) := by
  induction l with
  | nil =>
    intro h queue _ _ _ _ _
    exact ⟨h, by simp [linkChildren], SameButLinks.links_refl h, by simp, fun _ hq => hq⟩
  | cons p rest ih =>
    intro h queue hT hflags hcurr hl hL
    obtain ⟨c, child⟩ := p
    obtain ⟨hchild, hw⟩ := hl (c, child) (List.mem_cons_self _ _)
    obtain ⟨h1, hrun, hlen, hLc, hother, ht, htr, hca⟩ :=
      linkChild_spec hT hdict hflags hcurr hchild hw hL
    have hsame : SameButLinks h h1 := by
      refine ⟨hlen, fun q => ?_⟩
      by_cases hq : q = child
      · subst hq; exact ⟨ht, htr, hca⟩
      · rw [hother q hq]; exact ⟨rfl, rfl, rfl⟩
    have hpres : ∀ q, Linked D ws h q → Linked D ws h1 q := by
      intro q hq
      by_cases hqc : q = child
      · subst hqc; exact hLc
      · exact hq.of_same_links hlen (by rw [hother q hqc]) (by rw [hother q hqc])
    obtain ⟨h2, hrun2, hsame2, hL2, hpres2⟩ :=
      ih h1 (queue ++ [child]) (hsame.trieInv hT)
        (by
          intro v hv
          rw [hlen] at hv
          rw [(hsame.2 v).1]
          exact hflags v hv)
        (by rw [hlen]; exact hcurr)
        (by
          intro p hp
          rw [hlen]
          exact hl p (List.mem_cons_of_mem _ hp))
        (by
          intro q hq hd
          rw [hlen] at hq
          exact hpres q (hL q hq hd))
    refine ⟨h2, ?_, hsame.links_trans hsame2, ?_, fun q hq => hpres2 q (hpres q hq)⟩
    · simp only [linkChildren, hrun, hrun2, List.map_cons, List.append_assoc,
        List.singleton_append]
    · intro p hp
      rcases List.mem_cons.1 hp with hp | hp
      · subst hp
        exact hpres2 _ hLc
      · exact hL2 p hp

/-! ## The breadth-first loop terminates -/

theorem sum_map_ite_le_one (cs : List Char) (hcs : cs.Nodup) (p : Char → Prop)
    [DecidablePred p] (hp : ∀ a b, a ∈ cs → b ∈ cs → p a → p b → a = b) :
    (cs.map (fun c => if p c then 1 else 0)).sum ≤ 1 := by
  induction cs with
  | nil => simp
  | cons a rest ih =>
    have hnd := List.nodup_cons.1 hcs
    have ih1 := ih hnd.2 (fun x y hx hy => hp x y (List.mem_cons_of_mem _ hx)
      (List.mem_cons_of_mem _ hy))
    simp only [List.map_cons, List.sum_cons]
    by_cases ha : p a
    · have hzero : (rest.map (fun c => if p c then 1 else 0)).sum = 0 := by
        apply List.sum_eq_zero
        intro x hx
        obtain ⟨b, hb, hbx⟩ := List.mem_map.1 hx
        by_cases hpb : p b
        · have := hp a b (List.mem_cons_self _ _) (List.mem_cons_of_mem _ hb) ha hpb
          rw [← this] at hb
          exact absurd hb hnd.1
        · simp [hpb] at hbx
          exact hbx.symm
      simp [ha, hzero]
    · simp [ha]
      exact ih1

/-- The subtrees of the children of a node are disjoint parts of its subtree, which also
holds the node itself. -/
theorem subtreeSize_children (ws : List (List Char)) (w : List Char) (cs : List Char)
    (hcs : cs.Nodup) :
    (cs.map (fun c => subtreeSize ws (w ++ [c]))).sum + ws.countP (fun x => decide (x = w)) ≤
      subtreeSize ws w := by
  induction ws with
  | nil => simp [subtreeSize]
  | cons x rest ih =>
    have hsplit : ∀ c, subtreeSize (x :: rest) (w ++ [c]) =
        subtreeSize rest (w ++ [c]) + (if w ++ [c] <+: x then 1 else 0) := by
      intro c
      simp only [subtreeSize, List.countP_cons, decide_eq_true_eq]
    have hsum : (cs.map (fun c => subtreeSize (x :: rest) (w ++ [c]))).sum =
        (cs.map (fun c => subtreeSize rest (w ++ [c]))).sum +
        (cs.map (fun c => if w ++ [c] <+: x then 1 else 0)).sum := by
      rw [← List.sum_map_add]
      congr 1
      apply List.map_congr_left
      intro c _
      exact hsplit c
    rw [hsum]
    have hpoint : (cs.map (fun c => if w ++ [c] <+: x then 1 else 0)).sum +
        (if x = w then 1 else 0) ≤ (if w <+: x then 1 else 0) := by
      by_cases hwx : w <+: x
      · simp only [hwx, if_true]
        by_cases hxw : x = w
        · subst hxw
          have hzero : (cs.map (fun c => if x ++ [c] <+: x then 1 else 0)).sum = 0 := by
            apply List.sum_eq_zero
            intro y hy
            obtain ⟨c, _, hcy⟩ := List.mem_map.1 hy
            have : ¬ (x ++ [c] <+: x) := by
              intro hpre
              have := hpre.length_le
              simp at this
            simp [this] at hcy
            exact hcy.symm
          simp [hzero]
        · simp only [hxw, if_false, add_zero]
          apply sum_map_ite_le_one cs hcs (fun c => w ++ [c] <+: x)
          intro a b _ _ ha hb
          obtain ⟨r, hr⟩ := hwx
          obtain ⟨ra, hra⟩ := ha
          obtain ⟨rb, hrb⟩ := hb
          rw [← hr, List.append_assoc] at hra hrb
          have h1 := List.append_cancel_left hra
          have h2 := List.append_cancel_left hrb
          rw [← h2] at h1
          simp at h1
          exact h1.1
      · have hzero : (cs.map (fun c => if w ++ [c] <+: x then 1 else 0)).sum = 0 := by
          apply List.sum_eq_zero
          intro y hy
          obtain ⟨c, _, hcy⟩ := List.mem_map.1 hy
          have : ¬ (w ++ [c] <+: x) := fun hpre => hwx ((List.prefix_append w [c]).trans hpre)
          simp [this] at hcy
          exact hcy.symm
        have hxw : x ≠ w := by
          intro he
          subst he
          exact hwx (List.prefix_refl _)
        simp [hzero, hxw, hwx]
    have hl : (x :: rest).countP (fun y => decide (y = w)) =
        rest.countP (fun y => decide (y = w)) + (if x = w then 1 else 0) := by
      simp only [List.countP_cons, decide_eq_true_eq]
    have hr : subtreeSize (x :: rest) w = subtreeSize rest w + (if w <+: x then 1 else 0) := by
      simp only [subtreeSize, List.countP_cons, decide_eq_true_eq]
    rw [hl, hr]
    omega

theorem TrieInv.closed_append {h : AhoCorasick} {ws : List (List Char)} (hT : TrieInv h ws)
    (x y : List Char) (hxy : x ++ y ∈ ws) : x ∈ ws := by
  induction y using List.reverseRecOn with
  | nil => simpa using hxy
  | append_singleton y c ih =>
    apply ih
    apply hT.closed _ c
    rw [List.append_assoc]
    exact hxy

theorem subtreeSize_pos {ws : List (List Char)} {w : List Char} (hw : w ∈ ws) :
    0 < subtreeSize ws w := by
  unfold subtreeSize
  exact List.countP_pos_iff.2 ⟨w, hw, by simp⟩

/-- The children of a node: the targets of its trie transitions. -/
theorem TrieInv.children {h : AhoCorasick} {ws : List (List Char)} (hT : TrieInv h ws)
    {curr : Nat} (hcurr : curr < h.length) (p : Char × Nat)
    (hp : p ∈ (deref h curr).trie_transitions_) :
    p.2 < h.length ∧ word ws p.2 = word ws curr ++ [p.1] :=
  hT.edge curr p.1 p.2 hcurr (mapFind_of_mem _ (hT.keys curr hcurr) p.1 p.2 hp)

theorem subtreeSize_step {h : AhoCorasick} {ws : List (List Char)} (hT : TrieInv h ws)
    {curr : Nat} (hcurr : curr < h.length) :
    (((deref h curr).trie_transitions_.map Prod.snd).map
        (fun q => subtreeSize ws (word ws q))).sum + 1 ≤ subtreeSize ws (word ws curr) := by
  have h1 := subtreeSize_children ws (word ws curr)
    ((deref h curr).trie_transitions_.map Prod.fst) (hT.keys curr hcurr)
  have h2 : 0 < ws.countP (fun x => decide (x = word ws curr)) :=
    List.countP_pos_iff.2 ⟨_, (hT.mem_iff _).2 ⟨curr, hcurr, rfl⟩, by simp⟩
  have h3 : ((deref h curr).trie_transitions_.map Prod.snd).map
        (fun q => subtreeSize ws (word ws q)) =
      ((deref h curr).trie_transitions_.map Prod.fst).map
        (fun c => subtreeSize ws (word ws curr ++ [c])) := by
    rw [List.map_map, List.map_map]
    apply List.map_congr_left
    intro p hp
    simp only [Function.comp]
    rw [(hT.children hcurr p hp).2]
  rw [h3]
  omega

/-- One run of the body of the breadth-first loop: when `curr` is taken from the queue,
every node that is not deeper than `curr` has its links; the body links the children of
`curr`, appends them to the queue and keeps the invariant. -/
theorem bfs_body_spec {D ws : List (List Char)} (hdict : ∀ s, s ∈ D → s ∈ ws)
    {h : AhoCorasick} {curr : Nat} {rest : List Nat} (hT : TrieInv h ws)
    (hflags : ∀ v, v < h.length → ((deref h v).is_terminal_ = true ↔ word ws v ∈ D))
    (hI : BfsInv D ws h (curr :: rest)) :
    (∀ q, q < h.length → (word ws q).length ≤ (word ws curr).length → Linked D ws h q) ∧
    ∃ h1, linkChildren 0 curr (deref h curr).trie_transitions_ h rest =
        some (h1, rest ++ (deref h curr).trie_transitions_.map Prod.snd) ∧
      SameButLinks h h1 ∧
      BfsInv D ws h1 (rest ++ (deref h curr).trie_transitions_.map Prod.snd) ∧
      (∀ q, Linked D ws h q → Linked D ws h1 q) := by
  have hcurr := (hI.linked curr (List.mem_cons_self _ _)).1
  have hsorted := List.pairwise_cons.1 hI.sorted
  -- every node that is not deeper than `curr` has its links
  have hL : ∀ q, q < h.length → (word ws q).length ≤ (word ws curr).length →
      Linked D ws h q := by
    intro q hq hd
    rcases hI.pending q hq with hl | ⟨a, ha, hpre, hne⟩
    · exact hl
    · exfalso
      have hlt : (word ws a).length < (word ws q).length := by
        rcases Nat.lt_or_ge (word ws a).length (word ws q).length with hlt | hge
        · exact hlt
        · exact absurd (hpre.eq_of_length (le_antisymm hpre.length_le hge)) hne
      have hca : (word ws curr).length ≤ (word ws a).length := by
        rcases List.mem_cons.1 ha with ha | ha
        · rw [ha]
        · exact hsorted.1 a ha
      omega
  obtain ⟨h1, hrun, hsame, hLch, hpres⟩ :=
    linkChildren_spec hdict curr (deref h curr).trie_transitions_ h rest hT hflags hcurr
      (fun p hp => hT.children hcurr p hp) hL
  have hT1 := hsame.trieInv hT
  have hdepth : ∀ u, u ∈ (deref h curr).trie_transitions_.map Prod.snd →
      u < h.length ∧ (word ws u).length = (word ws curr).length + 1 ∧
      Linked D ws h1 u := by
    intro u hu
    obtain ⟨p, hp, hpu⟩ := List.mem_map.1 hu
    subst hpu
    obtain ⟨hlt, hw⟩ := hT.children hcurr p hp
    exact ⟨hlt, by rw [hw]; simp, hLch p hp⟩
  have hrest : ∀ a, a ∈ rest → (word ws curr).length ≤ (word ws a).length ∧
      (word ws a).length ≤ (word ws curr).length + 1 :=
    fun a ha => ⟨hsorted.1 a ha,
      hI.close curr a (List.mem_cons_self _ _) (List.mem_cons_of_mem _ ha)⟩
  have hI1 : BfsInv D ws h1 (rest ++ (deref h curr).trie_transitions_.map Prod.snd) := by
    refine ⟨?_, ?_, ?_, ?_⟩
    · intro q hq
      rw [hsame.1]
      rcases List.mem_append.1 hq with hq | hq
      · obtain ⟨h2, h3⟩ := hI.linked q (List.mem_cons_of_mem _ hq)
        exact ⟨h2, hpres q h3⟩
      · exact ⟨(hdepth q hq).1, (hdepth q hq).2.2⟩
    · rw [List.pairwise_append]
      refine ⟨hsorted.2, ?_, ?_⟩
      · rw [List.pairwise_iff_forall_sublist]
        intro a b hab
        have ha := hab.subset (List.mem_cons_self _ _)
        have hb := hab.subset (List.mem_cons_of_mem _ (List.mem_singleton_self _))
        rw [(hdepth a ha).2.1, (hdepth b hb).2.1]
      · intro a ha b hb
        rw [(hdepth b hb).2.1]
        exact (hrest a ha).2
    · intro a b ha hb
      have hA : (word ws curr).length ≤ (word ws a).length := by
        rcases List.mem_append.1 ha with ha | ha
        · exact (hrest a ha).1
        · rw [(hdepth a ha).2.1]; omega
      have hB : (word ws b).length ≤ (word ws curr).length + 1 := by
        rcases List.mem_append.1 hb with hb | hb
        · exact (hrest b hb).2
        · rw [(hdepth b hb).2.1]
      omega
    · intro v hv
      rw [hsame.1] at hv
      rcases hI.pending v hv with hl | ⟨a, ha, hpre, hne⟩
      · exact Or.inl (hpres v hl)
      · rcases List.mem_cons.1 ha with ha | ha
        · subst ha
          obtain ⟨r, hr⟩ := hpre
          cases r with
          | nil => simp at hr; exact absurd hr hne
          | cons c tail =>
            have hmem : word ws a ++ [c] ∈ ws := by
              apply hT.closed_append _ tail
              rw [List.append_assoc, List.singleton_append, hr]
              exact (hT.mem_iff _).2 ⟨v, hv, rfl⟩
            obtain ⟨u, hu, huw⟩ := (hT.mem_iff _).1 hmem
            have hfind := hT.edge_complete a c u hcurr hu huw
            have humem : u ∈ (deref h a).trie_transitions_.map Prod.snd :=
              List.mem_map.2 ⟨(c, u), mem_of_mapFind _ _ _ hfind, rfl⟩
            by_cases htail : tail = []
            · subst htail
              have : u = v := hT.inj u v hu hv (by rw [huw, hr])
              subst this
              exact Or.inl (hdepth u humem).2.2
            · refine Or.inr ⟨u, List.mem_append_right _ humem, ?_, ?_⟩
              · rw [huw, ← hr]
                exact ⟨tail, by simp⟩
              · intro he
                have := congrArg List.length he
                rw [huw, ← hr] at this
                simp at this
                exact htail this
        · exact Or.inr ⟨a, List.mem_append_left _ ha, hpre, hne⟩
  exact ⟨hL, h1, hrun, hsame, hI1, hpres⟩

theorem bfsLoop_spec {D ws : List (List Char)} (hdict : ∀ s, s ∈ D → s ∈ ws) :
    ∀ (fuel : Nat) (h : AhoCorasick) (queue : List Nat),
      TrieInv h ws →
      (∀ v, v < h.length → ((deref h v).is_terminal_ = true ↔ word ws v ∈ D)) →
      BfsInv D ws h queue →
      (queue.map (fun q => subtreeSize ws (word ws q))).sum ≤ fuel →
      ∃ h1, bfsLoop 0 fuel h queue = some h1 ∧ SameButLinks h h1 ∧
        ∀ v, v < h1.length → Linked D ws h1 v := by
  intro fuel
  induction fuel with
  | zero =>
    intro h queue hT _ hI hfuel
    cases queue with
    | nil =>
      refine ⟨h, rfl, SameButLinks.links_refl h, fun v hv => ?_⟩
      rcases hI.pending v hv with hl | ⟨q, hq, _⟩
      · exact hl
      · simp at hq
    | cons curr rest =>
      have hc := (hI.linked curr (List.mem_cons_self _ _)).1
      have := subtreeSize_pos ((hT.mem_iff _).2 ⟨curr, hc, rfl⟩)
      simp only [List.map_cons, List.sum_cons] at hfuel
      omega
  | succ fuel ih =>
    intro h queue hT hflags hI hfuel
    cases queue with
    | nil =>
      refine ⟨h, rfl, SameButLinks.links_refl h, fun v hv => ?_⟩
      rcases hI.pending v hv with hl | ⟨q, hq, _⟩
      · exact hl
      · simp at hq
    | cons curr rest =>
      have hcurr := (hI.linked curr (List.mem_cons_self _ _)).1
      obtain ⟨_, h1, hrun, hsame, hI1, _⟩ := bfs_body_spec hdict hT hflags hI
      have hT1 := hsame.trieInv hT
      have hfuel1 : ((rest ++ (deref h curr).trie_transitions_.map Prod.snd).map
          (fun q => subtreeSize ws (word ws q))).sum ≤ fuel := by
        have := subtreeSize_step hT hcurr
        simp only [List.map_cons, List.sum_cons] at hfuel
        rw [List.map_append, List.sum_append]
        omega
      obtain ⟨h2, hrun2, hsame2, hall⟩ :=
        ih h1 _ hT1
          (by
            intro v hv
            rw [hsame.1] at hv
            rw [(hsame.2 v).1]
            exact hflags v hv)
          hI1 hfuel1
      refine ⟨h2, ?_, hsame.links_trans hsame2, hall⟩
      simp only [bfsLoop, hrun, hrun2]

/-! ## Build -/

/-- The state in which the breadth-first loop starts satisfies its invariant. -/
theorem bfs_start_spec {D ws : List (List Char)} {h : AhoCorasick} {handles : List Nat}
    (hB : TrieBuilt D h ws handles) :
    (∀ s, s ∈ D → s ∈ ws) ∧
    SameButLinks h
      (h.set 0 { deref h 0 with suffix_link_ := none, terminal_link_ := none }) ∧
    BfsInv D ws
      (h.set 0 { deref h 0 with suffix_link_ := none, terminal_link_ := none }) [0] := by
  have hT := hB.trie
  have hdict : ∀ s, s ∈ D → s ∈ ws := by
    intro s hs
    obtain ⟨v, _, hv, hvs⟩ := hB.dict s hs
    exact (hT.mem_iff s).2 ⟨v, hv, hvs⟩
  have hd : ∀ v, deref (h.set 0 { deref h 0 with suffix_link_ := none, terminal_link_ := none }) v =
      if v = 0 then { deref h 0 with suffix_link_ := none, terminal_link_ := none }
      else deref h v := by
    intro v
    rw [deref_set]
    by_cases hv : 0 = v
    · subst hv; simp [hT.pos]
    · simp [hv, Ne.symm hv]
  have hsame : SameButLinks h
      (h.set 0 { deref h 0 with suffix_link_ := none, terminal_link_ := none }) := by
    refine ⟨by simp, fun v => ?_⟩
    rw [hd]
    split
    · next hv => subst hv; exact ⟨rfl, rfl, rfl⟩
    · exact ⟨rfl, rfl, rfl⟩
  have hI : BfsInv D ws
      (h.set 0 { deref h 0 with suffix_link_ := none, terminal_link_ := none }) [0] := by
    have hroot : Linked D ws
        (h.set 0 { deref h 0 with suffix_link_ := none, terminal_link_ := none }) 0 := by
      refine ⟨fun _ => by rw [hd]; simp, fun h0 => absurd rfl h0, ?_⟩
      rw [hd]
      simp only [if_true]
      intro t _ _ hl
      rw [hT.root] at hl
      exact absurd hl (Nat.not_lt_zero _)
    refine ⟨?_, List.pairwise_singleton _ _, ?_, ?_⟩
    · intro q hq
      rw [List.mem_singleton.1 hq]
      exact ⟨by simpa using hT.pos, hroot⟩
    · intro a b ha hb
      rw [List.mem_singleton.1 ha, List.mem_singleton.1 hb]
      omega
    · intro v hv
      rw [hsame.1] at hv
      by_cases hv0 : v = 0
      · subst hv0; exact Or.inl hroot
      · refine Or.inr ⟨0, List.mem_singleton_self _, ?_, ?_⟩
        · rw [hT.root]; exact List.nil_prefix
        · rw [hT.root]; exact (hT.word_ne_nil hv hv0).symm
  exact ⟨hdict, hsame, hI⟩

theorem CalculateLinks_spec {D ws : List (List Char)} {h : AhoCorasick} {handles : List Nat}
    (hB : TrieBuilt D h ws handles) :
    ∃ h1, AhoCorasickBuilder.CalculateLinks h 0 = some h1 ∧ SameButLinks h h1 ∧
      ∀ v, v < h1.length → Linked D ws h1 v := by
  have hT := hB.trie
  obtain ⟨hdict, hsame, hI⟩ := bfs_start_spec hB
  have hfuel : (([0] : List Nat).map (fun q => subtreeSize ws (word ws q))).sum ≤ h.length := by
    simp only [List.map_cons, List.map_nil, List.sum_cons, List.sum_nil, add_zero]
    rw [← hT.len]
    exact List.countP_le_length _
  obtain ⟨h1, hrun, hsame1, hall⟩ :=
    bfsLoop_spec hdict h.length _ [0] (hsame.trieInv hT)
      (by
        intro v hv
        rw [hsame.1] at hv
        rw [(hsame.2 v).1]
        exact hB.flags v hv)
      hI hfuel
  exact ⟨h1, hrun, hsame.links_trans hsame1, hall⟩

/-- The automaton that `Build` returns for the strings `D`, with the handles. -/
theorem Build_spec (D : List (List Char)) :
    ∃ h ws handles,
      AhoCorasickBuilder.Build ⟨[], D⟩ = some (⟨handles, D⟩, h) ∧
      AutomatonInv D h ws ∧
      (∀ v, v < h.length → word ws v ∈ D → (deref h v).is_terminal_ = true) ∧
      handles.map (word ws) = D ∧
      (∀ v, v ∈ handles → v < h.length) := by
  obtain ⟨ws, hB, hn⟩ := addStrings_spec D [] [AhoCorasickNode.fresh] [[]] [] D trieBuilt_fresh
  rw [List.nil_append] at hB
  generalize hr : (D.foldl (fun (acc : AhoCorasickBuilder × AhoCorasick) string =>
            AhoCorasickBuilder.AddStringAt acc.1 acc.2 AhoCorasick.Root string)
            (⟨[], D⟩, [AhoCorasickNode.fresh])) = r at hB hn
  obtain ⟨h1, hrun, hsame, hall⟩ := CalculateLinks_spec hB
  have hT := hB.trie
  have hdict : ∀ s, s ∈ D → s ∈ ws := by
    intro s hs
    obtain ⟨v, _, hv, hvs⟩ := hB.dict s hs
    exact (hT.mem_iff s).2 ⟨v, hv, hvs⟩
  refine ⟨h1, ws, r.1.surname_vertexes_, ?_, ⟨hsame.trieInv hT, hdict, ?_, hall, ?_, ?_⟩,
    ?_, hB.handles_word, ?_⟩
  · unfold AhoCorasickBuilder.Build
    simp only [hr]
    have hrun1 : AhoCorasickBuilder.CalculateLinks r.2 AhoCorasick.Root = some h1 := hrun
    rw [hrun1]
    obtain ⟨b, h0⟩ := r
    obtain ⟨hs, ns⟩ := b
    simp only at hn
    subst hn
    rfl
  · intro v hv ht
    rw [hsame.1] at hv
    rw [(hsame.2 v).1] at ht
    exact (hB.flags v hv).1 ht
  · intro v ch u hv hf
    rw [hsame.1] at hv ⊢
    rw [(hsame.2 v).2.2, hB.cache_eq] at hf
    obtain ⟨hu, hw⟩ := hT.edge v ch u hv hf
    refine ⟨hu, ?_⟩
    rw [← hw]
    exact isLongestSuffix_self ((hT.mem_iff _).2 ⟨u, hu, rfl⟩)
  · intro v ch hv hmem
    rw [hsame.1] at hv
    rw [(hsame.2 v).2.2, hB.cache_eq]
    obtain ⟨u, hu, huw⟩ := (hT.mem_iff _).1 hmem
    rw [hT.edge_complete v ch u hv hu huw]
    simp
  · intro v hv hw
    rw [hsame.1] at hv
    rw [(hsame.2 v).1]
    exact (hB.flags v hv).2 hw
  · intro v hv
    rw [hsame.1]
    exact hB.handles_lt v hv

theorem InitLoop_spec (D : List (List Char)) :
    ∀ (surname : List Char) (ops : List (List Char)) (b : AhoCorasickBuilder),
      PolitizationCounter.InitLoop D.length surname (D ++ ops) b =
        (⟨b.surname_vertexes_, b.strings_ ++ D⟩, ops) := by
  induction D with
  | nil =>
    intro surname ops b
    simp [PolitizationCounter.InitLoop]
  | cons s rest ih =>
    intro surname ops b
    simp only [List.length_cons, List.cons_append, PolitizationCounter.InitLoop, readString]
    rw [ih]
    simp [AhoCorasickBuilder.AddString]

/-- The counter that the constructor makes from an input that starts with `D`. -/
theorem constructor_spec (D : List (List Char)) (n : Nat) (ops : List (List Char)) :
    ∃ h ws handles,
      PolitizationCounter.PolitizationCounter n D.length (D ++ ops) =
        some (⟨D.length, n, handles, h, 0⟩, ops) ∧
      AutomatonInv D h ws ∧
      (∀ v, v < h.length → word ws v ∈ D → (deref h v).is_terminal_ = true) ∧
      handles.map (word ws) = D ∧
      (∀ v, v ∈ handles → v < h.length) := by
  obtain ⟨h, ws, handles, hrun, hrest⟩ := Build_spec D
  refine ⟨h, ws, handles, ?_, hrest⟩
  unfold PolitizationCounter.PolitizationCounter PolitizationCounter.Init
  simp only [InitLoop_spec, List.nil_append, hrun]
  rfl

/-! ## The transition function -/

theorem SameButCache.cache_refl (h : AhoCorasick) : SameButCache h h :=
  ⟨rfl, fun _ => ⟨rfl, rfl, rfl, rfl⟩⟩

theorem SameButCache.cache_trans {h h1 h2 : AhoCorasick} (h01 : SameButCache h h1)
    (h12 : SameButCache h1 h2) : SameButCache h h2 :=
  ⟨h12.1.trans h01.1, fun p =>
    ⟨(h12.2 p).1.trans (h01.2 p).1, (h12.2 p).2.1.trans (h01.2 p).2.1,
      (h12.2 p).2.2.1.trans (h01.2 p).2.2.1, (h12.2 p).2.2.2.trans (h01.2 p).2.2.2⟩⟩

theorem AutomatonInv.of_sameButCache {D ws : List (List Char)} {h h1 : AhoCorasick}
    (hA : AutomatonInv D h ws) (hs : SameButCache h h1) (hc : CacheInv h1 ws) :
    AutomatonInv D h1 ws := by
  refine ⟨hA.trie.of_same_trie hs.1 (fun v => (hs.2 v).2.1), hA.dict, ?_, ?_, hc⟩
  · intro v hv ht
    rw [hs.1] at hv
    rw [(hs.2 v).1] at ht
    exact hA.flags v hv ht
  · intro v hv
    rw [hs.1] at hv
    exact (hA.links v hv).of_same_links hs.1 (hs.2 v).2.2.1 (hs.2 v).2.2.2

theorem GetAutomatonTransition_spec {D ws : List (List Char)} (c : Char) :
    ∀ (fuel : Nat) (h : AhoCorasick) (v : Nat),
      AutomatonInv D h ws → v < h.length → (word ws v).length < fuel →
      ∃ u h1, GetAutomatonTransition fuel h v c = some (u, h1) ∧ u < h.length ∧
        IsLongestSuffix ws (word ws v ++ [c]) (word ws u) ∧
        SameButCache h h1 ∧ AutomatonInv D h1 ws := by
  intro fuel
  induction fuel with
  | zero => intro h v _ _ hf; exact absurd hf (Nat.not_lt_zero _)
  | succ fuel ih =>
    intro h v hA hv hfuel
    cases hfind : mapFind (deref h v).automaton_transitions_cache_ c with
    | some u =>
      obtain ⟨hu, hls⟩ := hA.cache.sound v c u hv hfind
      exact ⟨u, h, by simp only [GetAutomatonTransition, hfind], hu, hls,
        SameButCache.cache_refl h, hA⟩
    | none =>
      have hnot : word ws v ++ [c] ∉ ws := by
        intro hmem
        exact hA.cache.complete v c hv hmem hfind
      cases hsl : (deref h v).suffix_link_ with
      | none =>
        have hv0 : v = 0 := by
          by_contra hne
          obtain ⟨u, _, hu, _⟩ := (hA.links v hv).2.1 hne
          rw [hsl] at hu
          exact Option.noConfusion hu
        subst hv0
        refine ⟨0, h, by simp only [GetAutomatonTransition, hfind, hsl], hv, ?_,
          SameButCache.cache_refl h, hA⟩
        rw [hA.trie.root] at hnot ⊢
        exact isLongestSuffix_root hA.trie.nil_mem (by simpa using hnot)
      | some p =>
        have hv0 : v ≠ 0 := by
          intro h0
          have := (hA.links v hv).1 h0
          rw [hsl] at this
          exact Option.noConfusion this
        obtain ⟨p1, hp, hp1, hlps⟩ := (hA.links v hv).2.1 hv0
        rw [hsl] at hp1
        injection hp1 with hp1
        subst hp1
        obtain ⟨u, h1, hrun, hu, hls, hsame, hA1⟩ :=
          ih h p hA hp (by have := hlps.2.2.1; omega)
        have hv1 : v < h1.length := by rw [hsame.1]; exact hv
        have hd : ∀ q, deref (h1.set v { deref h1 v with
              automaton_transitions_cache_ :=
                cacheAssign (deref h1 v).automaton_transitions_cache_ c u }) q =
            if q = v then { deref h1 v with
              automaton_transitions_cache_ :=
                cacheAssign (deref h1 v).automaton_transitions_cache_ c u }
            else deref h1 q := by
          intro q
          rw [deref_set]
          by_cases hq : v = q
          · subst hq; simp [hv1]
          · simp [hq, Ne.symm hq]
        have hres : IsLongestSuffix ws (word ws v ++ [c]) (word ws u) :=
          IsLongestSuffix.of_link hA.trie.closed hnot hlps hls
        have hsame2 : SameButCache h1 (h1.set v { deref h1 v with
              automaton_transitions_cache_ :=
                cacheAssign (deref h1 v).automaton_transitions_cache_ c u }) := by
          refine ⟨by simp, fun q => ?_⟩
          rw [hd]
          split
          · next hq => subst hq; exact ⟨rfl, rfl, rfl, rfl⟩
          · exact ⟨rfl, rfl, rfl, rfl⟩
        refine ⟨u, _, by simp only [GetAutomatonTransition, hfind, hsl, hrun], hu, hres,
          hsame.cache_trans hsame2, hA1.of_sameButCache hsame2 ⟨?_, ?_⟩⟩
        · intro q ch t hq hf
          rw [List.length_set] at hq ⊢
          rw [hd] at hf
          by_cases hqv : q = v
          · subst hqv
            simp only [if_true] at hf
            rw [mapFind_cacheAssign] at hf
            by_cases hc : c = ch
            · subst hc
              simp only [if_true] at hf
              injection hf with hf
              subst hf
              rw [hsame.1]
              exact ⟨hu, hres⟩
            · simp only [hc, if_false] at hf
              exact hA1.cache.sound q ch t hq hf
          · simp only [hqv, if_false] at hf
            exact hA1.cache.sound q ch t hq hf
        · intro q ch hq hmem
          rw [List.length_set] at hq
          rw [hd]
          by_cases hqv : q = v
          · subst hqv
            simp only [if_true]
            rw [mapFind_cacheAssign]
            by_cases hc : c = ch
            · simp [hc]
            · simp only [hc, if_false]
              exact hA1.cache.complete q ch hq hmem
          · simp only [hqv, if_false]
            exact hA1.cache.complete q ch hq hmem

/-! ## Counting the matches at a node -/

theorem length_filter_suffix_split (L : List (List Char)) (hL : L.Nodup) (w : List Char) :
    (L.filter (fun s => decide (s <:+ w))).length =
      (if w ∈ L then 1 else 0) +
      L.countP (fun s => decide (s <:+ w ∧ s.length < w.length)) := by
  induction L with
  | nil => simp
  | cons x rest ih =>
    have hnd := List.nodup_cons.1 hL
    have ih1 := ih hnd.2
    rw [List.filter_cons, List.countP_cons]
    by_cases hxw : x = w
    · subst hxw
      have hnot : ¬ (x ∈ rest) := hnd.1
      simp only [List.suffix_refl, decide_True, if_true, List.length_cons, List.mem_cons,
        true_or, lt_irrefl, and_false, decide_False, Bool.false_eq_true, if_false, add_zero]
      rw [ih1]
      simp only [hnot, if_false]
      omega
    · by_cases hs : x <:+ w
      · have hlt : x.length < w.length := suffix_length_lt_of_ne hs hxw
        simp only [hs, decide_True, if_true, List.length_cons, List.mem_cons, hlt, and_self]
        rw [ih1]
        have : (w = x ∨ w ∈ rest) ↔ w ∈ rest := by
          constructor
          · rintro (h | h)
            · exact absurd h.symm hxw
            · exact h
          · exact Or.inr
        simp only [this]
        omega
      · simp only [hs, decide_False, Bool.false_eq_true, if_false, List.mem_cons, false_and,
          add_zero]
        rw [ih1]
        have : (w = x ∨ w ∈ rest) ↔ w ∈ rest := by
          constructor
          · rintro (h | h)
            · exact absurd h.symm hxw
            · exact h
          · exact Or.inr
        simp only [this]

/-- The strings of `L` that end at a node are the node's own word and those that end at its
terminal link. -/
theorem matches_step {D ws : List (List Char)} {n : Nat} (L : List (List Char))
    (hLD : ∀ s, s ∈ L → s ∈ D) (w : List Char) (tl : Option Nat)
    (htl : TerminalLinkOK D ws n w tl) :
    L.countP (fun s => decide (s <:+ w ∧ s.length < w.length)) =
      tl.elim 0 (fun t => (L.filter (fun s => decide (s <:+ word ws t))).length) := by
  cases tl with
  | none =>
    simp only [Option.elim]
    rw [List.countP_eq_zero]
    intro s hs
    simp only [decide_eq_true_eq, not_and]
    intro h1 h2
    exact htl s (hLD s hs) h1 h2
  | some t =>
    simp only [Option.elim]
    obtain ⟨_, hlps⟩ := htl
    rw [← List.countP_eq_length_filter]
    apply List.countP_congr
    intro s hs
    simp only [decide_eq_true_eq]
    constructor
    · rintro ⟨h1, h2⟩
      exact List.suffix_of_suffix_length_le h1 hlps.2.1 (hlps.2.2.2 s (hLD s hs) h1 h2)
    · intro h1
      exact ⟨h1.trans hlps.2.1, lt_of_le_of_lt h1.length_le hlps.2.2.1⟩

theorem ForEachMatchLoop_spec {D ws : List (List Char)} {h : AhoCorasick}
    (hA : AutomatonInv D h ws) (act : List Char → Bool)
    (hact : ∀ v, v < h.length → word ws v ∈ D → act (word ws v) = (deref h v).is_terminal_) :
    ∀ (fuel v acc : Nat), v < h.length → (word ws v).length < fuel →
      ForEachMatchLoop h (fun (n : Nat) (is_terminal : Bool) => if is_terminal then n + 1 else n)
          fuel (some v) acc =
        some (acc + ((D.dedup.filter act).filter (fun s => decide (s <:+ word ws v))).length) := by
  intro fuel
  induction fuel with
  | zero => intro v acc _ hf; exact absurd hf (Nat.not_lt_zero _)
  | succ fuel ih =>
    intro v acc hv hfuel
    have hnd : (D.dedup.filter act).Nodup := (List.nodup_dedup D).filter _
    have hLD : ∀ s, s ∈ D.dedup.filter act → s ∈ D := by
      intro s hs
      exact List.mem_dedup.1 (List.mem_filter.1 hs).1
    have hsplit := length_filter_suffix_split _ hnd (word ws v)
    have hstep := matches_step (D.dedup.filter act) hLD (word ws v)
      (deref h v).terminal_link_ (hA.links v hv).2.2
    have hself : (if word ws v ∈ D.dedup.filter act then 1 else 0) =
        (if (deref h v).is_terminal_ then 1 else 0) := by
      by_cases ht : (deref h v).is_terminal_ = true
      · have hin := hA.flags v hv ht
        have : word ws v ∈ D.dedup.filter act :=
          List.mem_filter.2 ⟨List.mem_dedup.2 hin, by rw [hact v hv hin]; exact ht⟩
        simp [this, ht]
      · have : word ws v ∉ D.dedup.filter act := by
          intro hmem
          obtain ⟨h1, h2⟩ := List.mem_filter.1 hmem
          rw [hact v hv (List.mem_dedup.1 h1)] at h2
          exact ht h2
        simp [this, ht]
    rw [hsplit, hself, hstep]
    cases htl : (deref h v).terminal_link_ with
    | none =>
      simp only [ForEachMatchLoop, htl, Option.elim]
      cases (deref h v).is_terminal_ <;> simp
    | some t =>
      have hOK := (hA.links v hv).2.2
      rw [htl] at hOK
      obtain ⟨ht, hlps⟩ := hOK
      simp only [ForEachMatchLoop, htl, Option.elim]
      rw [ih t _ ht (by have := hlps.2.2.1; omega)]
      cases (deref h v).is_terminal_ <;> simp
      omega

/-! ## Answering an issue -/

theorem occurrences_eq_from (active : List (List Char)) (text : List Char) :
    occurrences active text = occurrencesFrom active [] text := by
  have key : ∀ (rest pre : List Char),
      ((List.range rest.length).map
        (fun i => (active.filter (fun s => decide (s <:+ pre ++ rest.take (i + 1)))).length)).sum =
      occurrencesFrom active pre rest := by
    intro rest
    induction rest with
    | nil => intro pre; simp [occurrencesFrom]
    | cons c rest ih =>
      intro pre
      rw [List.length_cons, List.range_succ_eq_map, List.map_cons, List.sum_cons, List.map_map]
      simp only [occurrencesFrom]
      rw [← ih (pre ++ [c])]
      congr 2
      apply List.map_congr_left
      intro i _
      simp [Function.comp]
  have := key text []
  simpa [occurrences] using this

theorem AnswerIssueLoop_spec {D ws : List (List Char)} (act : List Char → Bool)
    (rest : List Char) :
    ∀ (h : AhoCorasick) (v cnt : Nat) (pre : List Char),
      AutomatonInv D h ws → v < h.length → IsLongestSuffix ws pre (word ws v) →
      (∀ q, q < h.length → word ws q ∈ D → act (word ws q) = (deref h q).is_terminal_) →
      ∃ h1 v1, PolitizationCounter.AnswerIssueLoop h v cnt rest =
          some (h1, v1, cnt + occurrencesFrom (D.dedup.filter act) pre rest) ∧
        SameButCache h h1 ∧ AutomatonInv D h1 ws := by
  induction rest with
  | nil =>
    intro h v cnt pre hA _ _ _
    exact ⟨h, v, by simp [PolitizationCounter.AnswerIssueLoop, occurrencesFrom],
      SameButCache.cache_refl h, hA⟩
  | cons c rest ih =>
    intro h v cnt pre hA hv hpre hact
    obtain ⟨u, h1, hrun, hu, hls, hsame, hA1⟩ :=
      GetAutomatonTransition_spec (D := D) c h.length h v hA hv
        (lt_of_le_of_lt (hA.trie.depth v hv) hv)
    have hu1 : u < h1.length := by rw [hsame.1]; exact hu
    have hact1 : ∀ q, q < h1.length → word ws q ∈ D →
        act (word ws q) = (deref h1 q).is_terminal_ := by
      intro q hq hw
      rw [hsame.1] at hq
      rw [(hsame.2 q).1]
      exact hact q hq hw
    have hls1 : IsLongestSuffix ws (pre ++ [c]) (word ws u) :=
      IsLongestSuffix.step hA.trie.closed hpre hls
    have hmatch := ForEachMatchLoop_spec hA1 act hact1 h1.length u cnt hu1
      (lt_of_le_of_lt (hA1.trie.depth u hu1) hu1)
    have hfilter : (D.dedup.filter act).filter (fun s => decide (s <:+ word ws u)) =
        (D.dedup.filter act).filter (fun s => decide (s <:+ pre ++ [c])) := by
      apply List.filter_congr
      intro s hs
      have hsD : s ∈ D := List.mem_dedup.1 (List.mem_filter.1 hs).1
      have := hls1.suffix_iff (hA.dict s hsD)
      simp only [decide_eq_decide]
      exact this.symm
    rw [hfilter] at hmatch
    obtain ⟨h2, v2, hrun2, hsame2, hA2⟩ :=
      ih h1 u (cnt + ((D.dedup.filter act).filter (fun s => decide (s <:+ pre ++ [c]))).length)
        (pre ++ [c]) hA1 hu1 hls1 hact1
    refine ⟨h2, v2, ?_, hsame.cache_trans hsame2, hA2⟩
    simp only [PolitizationCounter.AnswerIssueLoop, NodeReference.Next, NodeReference.ForEachMatch,
      hrun, hmatch, hrun2, occurrencesFrom, Nat.add_assoc]

/-! ## The counter -/

theorem any_zip_handles (ws : List (List Char)) (f : List Char × Nat → Bool) :
    ∀ (handles : List Nat) (D : List (List Char)), handles.map (word ws) = D →
      ((D.zip handles).any f = true ↔ ∃ q, q ∈ handles ∧ f (word ws q, q) = true) := by
  intro handles
  induction handles with
  | nil =>
    intro D hD
    subst hD
    simp
  | cons a rest ih =>
    intro D hD
    subst hD
    simp only [List.map_cons, List.zip_cons_cons, List.any_cons, Bool.or_eq_true,
      List.mem_cons, exists_eq_or_imp]
    rw [ih _ rfl]

theorem entryActive_eq {D ws : List (List Char)} {c : PolitizationCounter}
    (hT : TrieInv c.automaton_ ws) (hw : c.surname_vertexes_.map (word ws) = D)
    (hlt : ∀ v, v ∈ c.surname_vertexes_ → v < c.automaton_.length)
    (q : Nat) (hq : q < c.automaton_.length) (hqD : word ws q ∈ D) :
    entryActive D c (word ws q) = (deref c.automaton_ q).is_terminal_ := by
  have hiff : entryActive D c (word ws q) = true ↔ (deref c.automaton_ q).is_terminal_ = true := by
    unfold entryActive
    rw [any_zip_handles ws _ c.surname_vertexes_ D hw]
    constructor
    · rintro ⟨p, hp, hf⟩
      simp only [Bool.and_eq_true, decide_eq_true_eq] at hf
      have : p = q := hT.inj p q (hlt p hp) hq hf.1
      rw [← this]
      exact hf.2
    · intro ht
      rw [← hw] at hqD
      obtain ⟨p, hp, hpw⟩ := List.mem_map.1 hqD
      have : p = q := hT.inj p q (hlt p hp) hq hpw
      subst this
      exact ⟨p, hp, by simp [ht]⟩
  cases h1 : entryActive D c (word ws q) <;> cases h2 : (deref c.automaton_ q).is_terminal_
  · rfl
  · exact absurd (hiff.2 h2) (by simp [h1])
  · exact absurd (hiff.1 h1) (by simp [h2])
  · rfl

theorem activeStrings_congr (D : List (List Char)) (c c1 : PolitizationCounter)
    (hh : c1.surname_vertexes_ = c.surname_vertexes_)
    (hf : ∀ p, (deref c1.automaton_ p).is_terminal_ = (deref c.automaton_ p).is_terminal_) :
    activeStrings D c1 = activeStrings D c := by
  unfold activeStrings
  congr 1
  funext s
  unfold entryActive
  rw [hh]
  congr 1
  funext p
  rw [hf]

theorem isLongestSuffix_nil {W : List (List Char)} (hnil : [] ∈ W) :
    IsLongestSuffix W [] [] :=
  ⟨hnil, List.suffix_refl _, fun _ _ ht => ht.length_le⟩

/-- What `AnswerIssue` returns in a state that satisfies the invariant, and that the
invariant holds afterwards. -/
theorem AnswerIssue_spec {D : List (List Char)} {c : PolitizationCounter}
    (hI : CounterInv D c) (issue : List Char) :
    ∃ h1, c.AnswerIssue issue =
        some (occurrences (activeStrings D c) (issue.drop 1),
          { c with automaton_ := h1, state_ := 0 }) ∧
      SameButCache c.automaton_ h1 ∧
      CounterInv D { c with automaton_ := h1, state_ := 0 } := by
  obtain ⟨ws, hA, hw, hlt, hst⟩ := hI
  have hroot : IsLongestSuffix ws [] (word ws c.state_) := by
    rw [hst, hA.trie.root]
    exact isLongestSuffix_nil hA.trie.nil_mem
  obtain ⟨h1, v1, hrun, hsame, hA1⟩ :=
    AnswerIssueLoop_spec (D := D) (entryActive D c) (issue.drop 1) c.automaton_ c.state_ 0 []
      hA (by rw [hst]; exact hA.trie.pos) hroot
      (fun q hq hqD => entryActive_eq hA.trie hw hlt q hq hqD)
  refine ⟨h1, ?_, hsame, ws, hA1, hw, ?_, rfl⟩
  · unfold PolitizationCounter.AnswerIssue
    rw [hrun]
    simp only [Nat.zero_add, occurrences_eq_from, activeStrings]
    rfl
  · intro v hv
    show v < h1.length
    rw [hsame.1]
    exact hlt v hv

theorem deref_SetTerminal (h : AhoCorasick) (v : Nat) (flg : Bool) (q : Nat) :
    deref (NodeReference.SetTerminal h v flg) q =
      if q = v ∧ v < h.length then { deref h v with is_terminal_ := flg } else deref h q := by
  unfold NodeReference.SetTerminal
  rw [deref_set]
  by_cases hq : v = q
  · subst hq; simp
  · simp [hq, Ne.symm hq]

theorem AutomatonInv.setTerminal {D ws : List (List Char)} {h : AhoCorasick}
    (hA : AutomatonInv D h ws) (v : Nat) (flg : Bool)
    (hw : word ws v ∈ D) : AutomatonInv D (NodeReference.SetTerminal h v flg) ws := by
  have hlen : (NodeReference.SetTerminal h v flg).length = h.length := by
    simp [NodeReference.SetTerminal]
  have hd := deref_SetTerminal h v flg
  have hfields : ∀ q,
      (deref (NodeReference.SetTerminal h v flg) q).trie_transitions_ =
        (deref h q).trie_transitions_ ∧
      (deref (NodeReference.SetTerminal h v flg) q).automaton_transitions_cache_ =
        (deref h q).automaton_transitions_cache_ ∧
      (deref (NodeReference.SetTerminal h v flg) q).suffix_link_ = (deref h q).suffix_link_ ∧
      (deref (NodeReference.SetTerminal h v flg) q).terminal_link_ =
        (deref h q).terminal_link_ := by
    intro q
    rw [hd]
    split
    · next hq => rw [hq.1]; exact ⟨rfl, rfl, rfl, rfl⟩
    · exact ⟨rfl, rfl, rfl, rfl⟩
  refine ⟨hA.trie.of_same_trie hlen (fun q => (hfields q).1), hA.dict, ?_, ?_, ⟨?_, ?_⟩⟩
  · intro q hq ht
    rw [hlen] at hq
    rw [hd] at ht
    by_cases hqv : q = v
    · rw [hqv]; exact hw
    · simp only [hqv, false_and, if_false] at ht
      exact hA.flags q hq ht
  · intro q hq
    rw [hlen] at hq
    exact (hA.links q hq).of_same_links hlen (hfields q).2.2.1 (hfields q).2.2.2
  · intro q ch u hq hf
    rw [hlen] at hq ⊢
    rw [(hfields q).2.1] at hf
    exact hA.cache.sound q ch u hq hf
  · intro q ch hq hmem
    rw [hlen] at hq
    rw [(hfields q).2.1]
    exact hA.cache.complete q ch hq hmem

theorem CounterInv.toggle {D : List (List Char)} {c : PolitizationCounter}
    (hI : CounterInv D c) (v : Nat) (flg : Bool) (hv : v ∈ c.surname_vertexes_) :
    CounterInv D { c with automaton_ := NodeReference.SetTerminal c.automaton_ v flg } := by
  obtain ⟨ws, hA, hw, hlt, hst⟩ := hI
  have hwD : word ws v ∈ D := by
    rw [← hw]
    exact List.mem_map.2 ⟨v, hv, rfl⟩
  refine ⟨ws, hA.setTerminal v flg hwD, hw, ?_, hst⟩
  intro q hq
  show q < (NodeReference.SetTerminal c.automaton_ v flg).length
  simp only [NodeReference.SetTerminal, List.length_set]
  exact hlt q hq

theorem Include_eq (c : PolitizationCounter) (i : Nat) (c1 : PolitizationCounter)
    (h : c.Include i = some c1) :
    ∃ v, 0 < i ∧ c.surname_vertexes_[i - 1]? = some v ∧
      c1 = { c with automaton_ := NodeReference.SetTerminal c.automaton_ v true } := by
  unfold PolitizationCounter.Include at h
  by_cases hi : i = 0
  · simp [hi] at h
  · simp only [hi, if_false] at h
    cases hv : c.surname_vertexes_[i - 1]? with
    | none => simp [hv] at h
    | some v =>
      simp only [hv] at h
      injection h with h
      exact ⟨v, Nat.pos_of_ne_zero hi, rfl, h.symm⟩

theorem Exclude_eq (c : PolitizationCounter) (i : Nat) (c1 : PolitizationCounter)
    (h : c.Exclude i = some c1) :
    ∃ v, 0 < i ∧ c.surname_vertexes_[i - 1]? = some v ∧
      c1 = { c with automaton_ := NodeReference.SetTerminal c.automaton_ v false } := by
  unfold PolitizationCounter.Exclude at h
  by_cases hi : i = 0
  · simp [hi] at h
  · simp only [hi, if_false] at h
    cases hv : c.surname_vertexes_[i - 1]? with
    | none => simp [hv] at h
    | some v =>
      simp only [hv] at h
      injection h with h
      exact ⟨v, Nat.pos_of_ne_zero hi, rfl, h.symm⟩

theorem mem_of_getElem?_eq_some {l : List Nat} {i v : Nat} (h : l[i]? = some v) : v ∈ l := by
  obtain ⟨hi, hv⟩ := List.getElem?_eq_some.1 h
  rw [← hv]
  exact List.getElem_mem hi

/-- Every state the program reaches satisfies the invariant. -/
theorem Reachable.inv {D : List (List Char)} {c : PolitizationCounter} (hc : Reachable D c) :
    CounterInv D c := by
  induction hc with
  | init n ops rest c hrun =>
    obtain ⟨h, ws, handles, hrun1, hA, _, hw, hlt⟩ := constructor_spec D n ops
    rw [hrun1] at hrun
    injection hrun with hrun
    injection hrun with hc _
    subst hc
    exact ⟨ws, hA, hw, hlt, rfl⟩
  | incl c c1 i _ hrun ih =>
    obtain ⟨v, _, hv, hc1⟩ := Include_eq c i c1 hrun
    subst hc1
    exact ih.toggle v true (mem_of_getElem?_eq_some hv)
  | excl c c1 i _ hrun ih =>
    obtain ⟨v, _, hv, hc1⟩ := Exclude_eq c i c1 hrun
    subst hc1
    exact ih.toggle v false (mem_of_getElem?_eq_some hv)
  | query c c1 issue cnt _ hrun ih =>
    obtain ⟨h1, hrun1, _, hI1⟩ := AnswerIssue_spec ih issue
    rw [hrun1] at hrun
    injection hrun with hrun
    injection hrun with _ hc
    subst hc
    exact hI1

/-! ## Facts about reachable states -/

theorem reachable_counterOf (D : List (List Char)) : Reachable D (counterOf D) := by
  obtain ⟨h, ws, handles, hrun, _⟩ := constructor_spec D 0 []
  rw [List.append_nil] at hrun
  have hc : counterOf D = ⟨D.length, 0, handles, h, 0⟩ := by
    unfold counterOf
    rw [hrun]
  rw [hc]
  exact Reachable.init 0 [] [] _ (by rw [List.append_nil]; exact hrun)

theorem CounterInv.handles_length {D : List (List Char)} {c : PolitizationCounter}
    (hI : CounterInv D c) : c.surname_vertexes_.length = D.length := by
  obtain ⟨ws, _, hw, _, _⟩ := hI
  rw [← hw, List.length_map]

/-- The handle of a valid index exists and points into the arena. -/
theorem CounterInv.handle {D : List (List Char)} {c : PolitizationCounter}
    (hI : CounterInv D c) (i : Nat) (hi1 : 1 ≤ i) (hi2 : i ≤ D.length) :
    ∃ v, c.surname_vertexes_[i - 1]? = some v ∧ v < c.automaton_.length := by
  have hlen := hI.handles_length
  obtain ⟨ws, _, _, hlt, _⟩ := hI
  have hi : i - 1 < c.surname_vertexes_.length := by omega
  exact ⟨c.surname_vertexes_[i - 1], List.getElem?_eq_getElem hi,
    hlt _ (List.getElem_mem hi)⟩

theorem Include_of_handle (c : PolitizationCounter) (i v : Nat) (hi : 1 ≤ i)
    (hv : c.surname_vertexes_[i - 1]? = some v) :
    c.Include i =
      some { c with automaton_ := NodeReference.SetTerminal c.automaton_ v true } := by
  unfold PolitizationCounter.Include
  have : i ≠ 0 := by omega
  simp only [this, if_false, hv]

theorem Exclude_of_handle (c : PolitizationCounter) (i v : Nat) (hi : 1 ≤ i)
    (hv : c.surname_vertexes_[i - 1]? = some v) :
    c.Exclude i =
      some { c with automaton_ := NodeReference.SetTerminal c.automaton_ v false } := by
  unfold PolitizationCounter.Exclude
  have : i ≠ 0 := by omega
  simp only [this, if_false, hv]

theorem sameButFlagOf_SetTerminal (h : AhoCorasick) (v : Nat) (flg : Bool) :
    SameButFlagOf v h (NodeReference.SetTerminal h v flg) := by
  have hd := deref_SetTerminal h v flg
  refine ⟨by simp [NodeReference.SetTerminal], ?_, ?_, ?_, ?_, ?_⟩
  · intro q hq
    rw [hd]
    simp [hq]
  all_goals
    rw [hd]
    split <;> rfl

theorem flag_SetTerminal (h : AhoCorasick) (v : Nat) (flg : Bool) (hv : v < h.length) :
    (deref (NodeReference.SetTerminal h v flg) v).is_terminal_ = flg := by
  rw [deref_SetTerminal]
  simp [hv]

theorem SetTerminal_SetTerminal (h : AhoCorasick) (v : Nat) (a b : Bool) :
    NodeReference.SetTerminal (NodeReference.SetTerminal h v a) v b =
      NodeReference.SetTerminal h v b := by
  have hd := deref_SetTerminal h v a v
  unfold NodeReference.SetTerminal at hd ⊢
  rw [hd, List.set_set]
  by_cases hv : v < h.length
  · simp [hv]
  · simp [hv]

theorem SetTerminal_same (h : AhoCorasick) (v : Nat) (b : Bool)
    (hb : (deref h v).is_terminal_ = b) : NodeReference.SetTerminal h v b = h := by
  unfold NodeReference.SetTerminal
  have hnd : ({ deref h v with is_terminal_ := b } : AhoCorasickNode) = deref h v := by
    rw [← hb]
  rw [hnd]
  apply List.ext_getElem?
  intro i
  rw [List.getElem?_set]
  by_cases hi : v = i
  · subst hi
    by_cases hv : v < h.length
    · simp only [hv, if_true]
      unfold deref
      rw [List.getD_eq_getElem _ _ hv, List.getElem?_eq_getElem hv]
    · simp only [if_true, hv, if_false]
      rw [List.getElem?_eq_none (Nat.le_of_not_lt hv)]
  · simp [hi]

/-! ## The active strings -/

theorem entryActive_iff_flag {D ws : List (List Char)} {c : PolitizationCounter}
    (hT : TrieInv c.automaton_ ws) (hw : c.surname_vertexes_.map (word ws) = D)
    (hlt : ∀ v, v ∈ c.surname_vertexes_ → v < c.automaton_.length)
    (i v : Nat) (s : List Char) (hv : c.surname_vertexes_[i]? = some v)
    (hs : D[i]? = some s) :
    entryActive D c s = (deref c.automaton_ v).is_terminal_ := by
  have hvm : v ∈ c.surname_vertexes_ := mem_of_getElem?_eq_some hv
  have hws : word ws v = s := by
    rw [← hw, List.getElem?_map, hv] at hs
    simpa using hs
  have hsD : s ∈ D := by
    obtain ⟨hi, he⟩ := List.getElem?_eq_some.1 hs
    rw [← he]
    exact List.getElem_mem hi
  rw [← hws]
  exact entryActive_eq hT hw hlt v (hlt v hvm) (by rw [hws]; exact hsD)

theorem CounterInv.entryActive_eq_entryFlag {D : List (List Char)} {c : PolitizationCounter}
    (hI : CounterInv D c) (i : Nat) (s : List Char) (hs : D[i - 1]? = some s) :
    entryActive D c s = entryFlag c i := by
  have hlen := hI.handles_length
  obtain ⟨ws, hA, hw, hlt, _⟩ := hI
  have hi2 : i - 1 < D.length := (List.getElem?_eq_some.1 hs).1
  have hi3 : i - 1 < c.surname_vertexes_.length := by omega
  have hv : c.surname_vertexes_[i - 1]? = some c.surname_vertexes_[i - 1] :=
    List.getElem?_eq_getElem hi3
  rw [entryActive_iff_flag hA.trie hw hlt (i - 1) _ s hv hs]
  unfold entryFlag
  rw [hv]

theorem mem_activeStrings_iff (D : List (List Char)) (c : PolitizationCounter)
    (s : List Char) : s ∈ activeStrings D c ↔ s ∈ D ∧ entryActive D c s = true := by
  unfold activeStrings
  rw [List.mem_filter, List.mem_dedup]

theorem nodup_activeStrings (D : List (List Char)) (c : PolitizationCounter) :
    (activeStrings D c).Nodup :=
  (List.nodup_dedup D).filter _

/-! ## Monotonicity of the count -/

theorem occurrences_mono {A B : List (List Char)} (hAB : A.Sublist B) (text : List Char) :
    occurrences A text ≤ occurrences B text := by
  unfold occurrences
  apply List.sum_le_sum
  intro i _
  exact (hAB.filter _).length_le

theorem occurrences_nil (text : List Char) : occurrences [] text = 0 := by
  unfold occurrences
  apply List.sum_eq_zero
  intro x hx
  obtain ⟨i, _, hi⟩ := List.mem_map.1 hx
  simpa using hi.symm

/-! ## Following the trie edges -/

theorem trieWalk_spec {h : AhoCorasick} {ws : List (List Char)} (hT : TrieInv h ws)
    (s : List Char) :
    ∀ (v u : Nat), v < h.length → u < h.length → word ws u = word ws v ++ s →
      trieWalk h v s = some u := by
  induction s with
  | nil =>
    intro v u hv hu hw
    rw [List.append_nil] at hw
    rw [hT.inj u v hu hv hw]
    rfl
  | cons ch rest ih =>
    intro v u hv hu hw
    have hmem : word ws v ++ [ch] ∈ ws := by
      apply hT.closed_append _ rest
      rw [List.append_assoc, List.singleton_append, ← hw]
      exact (hT.mem_iff _).2 ⟨u, hu, rfl⟩
    obtain ⟨p, hp, hpw⟩ := (hT.mem_iff _).1 hmem
    have hfind := hT.edge_complete v ch p hv hp hpw
    simp only [trieWalk, hfind]
    apply ih p u hp hu
    rw [hpw, List.append_assoc, List.singleton_append]
    exact hw

theorem foldl_AddString (D : List (List Char)) :
    ∀ b : AhoCorasickBuilder,
      D.foldl AhoCorasickBuilder.AddString b = ⟨b.surname_vertexes_, b.strings_ ++ D⟩ := by
  induction D with
  | nil => intro b; simp
  | cons s rest ih =>
    intro b
    rw [List.foldl_cons, ih]
    simp [AhoCorasickBuilder.AddString]

theorem filter_sublist_filter_of_imp {α : Type} (l : List α) (p q : α → Bool)
    (h : ∀ a, a ∈ l → p a = true → q a = true) : (l.filter p).Sublist (l.filter q) := by
  induction l with
  | nil => simp
  | cons x rest ih =>
    have ih1 := ih (fun a ha => h a (List.mem_cons_of_mem _ ha))
    rw [List.filter_cons, List.filter_cons]
    by_cases hp : p x = true
    · have hq := h x (List.mem_cons_self _ _) hp
      simp only [hp, hq, if_true]
      exact ih1.cons₂ x
    · simp only [hp, if_false]
      by_cases hq : q x = true
      · simp only [hq, if_true]
        exact ih1.cons x
      · simp only [hq, if_false]
        exact ih1

/-- Operations that avoid the string `s` keep the handles and the flag of the node of `s`. -/
theorem StepsAvoiding.keeps {D : List (List Char)} {s : List Char}
    {c1 c2 : PolitizationCounter} (hsteps : StepsAvoiding D s c1 c2)
    (hc1 : Reachable D c1) (i v : Nat) (hv : c1.surname_vertexes_[i]? = some v)
    (hs : D[i]? = some s) :
    Reachable D c2 ∧ c2.surname_vertexes_ = c1.surname_vertexes_ ∧
      (deref c2.automaton_ v).is_terminal_ = (deref c1.automaton_ v).is_terminal_ := by
  induction hsteps with
  | refl => exact ⟨hc1, rfl, rfl⟩
  | incl c3 c4 k _ hk hrun ih =>
    obtain ⟨hr, hh, hf⟩ := ih
    obtain ⟨u, _, hu, hc4⟩ := Include_eq c3 k c4 hrun
    refine ⟨Reachable.incl c3 c4 k hr hrun, ?_, ?_⟩
    · rw [hc4]; exact hh
    · obtain ⟨ws, _, hw, _, _⟩ := hr.inv
      have hv3 : c3.surname_vertexes_[i]? = some v := by rw [hh]; exact hv
      have hsv : word ws v = s := by
        have hs1 := hs
        rw [← hw, List.getElem?_map, hv3] at hs1
        simpa using hs1
      have hne : v ≠ u := by
        intro he
        apply hk
        rw [← hw, List.getElem?_map, hu, ← he]
        simp [hsv]
      rw [hc4]
      show (deref (NodeReference.SetTerminal c3.automaton_ u true) v).is_terminal_ = _
      rw [deref_SetTerminal]
      simp only [hne, false_and, if_false]
      exact hf
  | excl c3 c4 k _ hk hrun ih =>
    obtain ⟨hr, hh, hf⟩ := ih
    obtain ⟨u, _, hu, hc4⟩ := Exclude_eq c3 k c4 hrun
    refine ⟨Reachable.excl c3 c4 k hr hrun, ?_, ?_⟩
    · rw [hc4]; exact hh
    · obtain ⟨ws, _, hw, _, _⟩ := hr.inv
      have hv3 : c3.surname_vertexes_[i]? = some v := by rw [hh]; exact hv
      have hsv : word ws v = s := by
        have hs1 := hs
        rw [← hw, List.getElem?_map, hv3] at hs1
        simpa using hs1
      have hne : v ≠ u := by
        intro he
        apply hk
        rw [← hw, List.getElem?_map, hu, ← he]
        simp [hsv]
      rw [hc4]
      show (deref (NodeReference.SetTerminal c3.automaton_ u false) v).is_terminal_ = _
      rw [deref_SetTerminal]
      simp only [hne, false_and, if_false]
      exact hf
  | query c3 c4 issue cnt _ hrun ih =>
    obtain ⟨hr, hh, hf⟩ := ih
    obtain ⟨h1, hrun1, hsame, _⟩ := AnswerIssue_spec hr.inv issue
    rw [hrun1] at hrun
    injection hrun with hrun
    injection hrun with _ hc4
    refine ⟨Reachable.query c3 c4 issue _ hr (by rw [hrun1, hc4]), ?_, ?_⟩
    · rw [← hc4]; exact hh
    · rw [← hc4]
      show (deref h1 v).is_terminal_ = _
      rw [(hsame.2 v).1]
      exact hf

/-- After the constructor every dictionary string is active. -/
theorem activeStrings_constructor {D ws : List (List Char)} {c : PolitizationCounter}
    (hT : TrieInv c.automaton_ ws) (hw : c.surname_vertexes_.map (word ws) = D)
    (hlt : ∀ v, v ∈ c.surname_vertexes_ → v < c.automaton_.length)
    (hall : ∀ v, v < c.automaton_.length → word ws v ∈ D →
      (deref c.automaton_ v).is_terminal_ = true) :
    activeStrings D c = D.dedup := by
  unfold activeStrings
  rw [List.filter_eq_self]
  intro s hs
  have hsD : s ∈ D := List.mem_dedup.1 hs
  have hsD1 := hsD
  rw [← hw] at hsD1
  obtain ⟨v, hv, hvs⟩ := List.mem_map.1 hsD1
  rw [← hvs, entryActive_eq hT hw hlt v (hlt v hv) (by rw [hvs]; exact hsD)]
  exact hall v (hlt v hv) (by rw [hvs]; exact hsD)

/-! ## The claims -/

/-- Claim C1, the counterexample: with the dictionary a, ab, b, all entries enabled,
`AnswerIssue` applied to the token `ab` returns 1, while the strings a, ab, b are all active
and the number of pairs `(p, s)` for the text `ab` is 3. -/
theorem AnswerIssue_bare_text_counterexample :
    (PolitizationCounter.PolitizationCounter 1 3 [['a'], ['a', 'b'], ['b'], ['a', 'b']]).bind
      (fun r => (r.1.AnswerIssue ['a', 'b']).map
        (fun a => (a.1, activeStrings [['a'], ['a', 'b'], ['b']] r.1,
          occurrences (activeStrings [['a'], ['a', 'b'], ['b']] r.1) ['a', 'b']))) =
      some (1, [['a'], ['a', 'b'], ['b']], 3) := by
  decide

/-- Claim C1, amended: in every state reached for the dictionary `D`, `AnswerIssue` applied to
a token made of one leading character (the marker of a query, which is not fed to the
automaton) followed by `text` returns the number of pairs `(p, s)` with `1 ≤ p ≤ |text|` and
`s` a distinct dictionary string whose entry node is active such that `s` is a suffix of the
first `p` characters of `text`. -/
theorem AnswerIssue_counts_occurrences (D : List (List Char)) (c : PolitizationCounter)
    (hc : Reachable D c) (marker : Char) (text : List Char) :
    ∃ c1, c.AnswerIssue (marker :: text) =
      some (occurrences (activeStrings D c) text, c1) := by
  obtain ⟨h1, hrun, _, _⟩ := AnswerIssue_spec hc.inv (marker :: text)
  exact ⟨_, hrun⟩

/-- Claim C1, witness: dictionary a, ab, b, all enabled, the token `?ab` gives 3; after
`Exclude(2)` it gives 2; with only entry 2 enabled it gives 1; dictionary aa, the token
`?aaa` gives 2. -/
theorem AnswerIssue_counts_occurrences_witness :
    (∃ c1, (counterOf [['a'], ['a', 'b'], ['b']]).AnswerIssue ['?', 'a', 'b'] = some (3, c1)) ∧
    (∃ c1, (excludeOr (counterOf [['a'], ['a', 'b'], ['b']]) 2).AnswerIssue ['?', 'a', 'b'] =
      some (2, c1)) ∧
    (∃ c1, (excludeOr (excludeOr (counterOf [['a'], ['a', 'b'], ['b']]) 1) 3).AnswerIssue
      ['?', 'a', 'b'] = some (1, c1)) ∧
    (∃ c1, (counterOf [['a', 'a']]).AnswerIssue ['?', 'a', 'a', 'a'] = some (2, c1)) := by
  refine ⟨?_, ?_, ?_, ?_⟩
  · exact AnswerIssue_counts_occurrences [['a'], ['a', 'b'], ['b']] _
      (reachable_counterOf _) '?' ['a', 'b']
  · exact AnswerIssue_counts_occurrences [['a'], ['a', 'b'], ['b']] _
      (Reachable.excl _ _ 2 (reachable_counterOf _) (by decide)) '?' ['a', 'b']
  · exact AnswerIssue_counts_occurrences [['a'], ['a', 'b'], ['b']] _
      (Reachable.excl (excludeOr (counterOf [['a'], ['a', 'b'], ['b']]) 1) _ 3
        (Reachable.excl _ _ 1 (reachable_counterOf _) (by decide)) (by decide)) '?' ['a', 'b']
  · exact AnswerIssue_counts_occurrences [['a', 'a']] _
      (reachable_counterOf _) '?' ['a', 'a', 'a']

/-- Claim C2, the counterexample: right after the constructor has built the automaton for the
dictionary a, the node of the one handle has `is_terminal_` set, and the query token `?a`
is answered with 1. -/
theorem fresh_counter_counterexample :
    (PolitizationCounter.PolitizationCounter 1 1 [['a'], ['?', 'a']]).bind
      (fun r => (r.1.AnswerIssue ['?', 'a']).map
        (fun a => (r.1.surname_vertexes_, (deref r.1.automaton_ 1).is_terminal_, a.1))) =
      some ([1], true, 1) := by
  decide

/-- Claim C2, amended: right after the constructor has built the automaton from the strings
`D`, before any toggle, the nodes with `is_terminal_` set are exactly the entry nodes (the
nodes of the handles), so every distinct dictionary string is active and a query counts the
occurrences of all of them. -/
theorem fresh_counter_all_entries_active (D : List (List Char)) (n : Nat)
    (ops : List (List Char)) :
    ∃ c, PolitizationCounter.PolitizationCounter n D.length (D ++ ops) = some (c, ops) ∧
      (∀ v, (deref c.automaton_ v).is_terminal_ = true ↔ v ∈ c.surname_vertexes_) ∧
      activeStrings D c = D.dedup ∧
      ∀ (marker : Char) (text : List Char),
        ∃ c1, c.AnswerIssue (marker :: text) = some (occurrences D.dedup text, c1) := by
  obtain ⟨h, ws, handles, hrun, hA, hall, hw, hlt⟩ := constructor_spec D n ops
  have hact : activeStrings D ⟨D.length, n, handles, h, 0⟩ = D.dedup :=
    activeStrings_constructor (c := ⟨D.length, n, handles, h, 0⟩) hA.trie hw hlt hall
  have hI : CounterInv D ⟨D.length, n, handles, h, 0⟩ := ⟨ws, hA, hw, hlt, rfl⟩
  refine ⟨_, hrun, ?_, hact, ?_⟩
  · intro v
    show (deref h v).is_terminal_ = true ↔ v ∈ handles
    constructor
    · intro ht
      have hv : v < h.length := by
        rcases Nat.lt_or_ge v h.length with hv | hv
        · exact hv
        · rw [deref_of_le _ _ hv] at ht
          exact absurd ht (by simp [AhoCorasickNode.fresh])
      have hin := hA.flags v hv ht
      rw [← hw] at hin
      obtain ⟨q, hq, hqw⟩ := List.mem_map.1 hin
      rw [← hA.trie.inj q v (hlt q hq) hv hqw]
      exact hq
    · intro hv
      apply hall v (hlt v hv)
      rw [← hw]
      exact List.mem_map.2 ⟨v, hv, rfl⟩
  · intro marker text
    obtain ⟨h1, hrun1, _, _⟩ := AnswerIssue_spec hI (marker :: text)
    rw [hact] at hrun1
    exact ⟨_, hrun1⟩

/-- Claim C3: for a dictionary `D` of `K` strings, a reached state and an index `i` with
`1 ≤ i ≤ K`, `Include(i)` yields a state in which the node of the `i`-th handle has
`is_terminal_ = true` and `Exclude(i)` one in which it has `is_terminal_ = false`; in both
the handles, the cursor, every other node, and the trie edges, cache, suffix link and
terminal link of that node are unchanged. -/
theorem toggle_sets_only_entry_flag (D : List (List Char)) (c : PolitizationCounter)
    (hc : Reachable D c) (i : Nat) (hi1 : 1 ≤ i) (hi2 : i ≤ D.length) :
    ∃ v c1 c2, c.surname_vertexes_[i - 1]? = some v ∧
      c.Include i = some c1 ∧ (deref c1.automaton_ v).is_terminal_ = true ∧
      SameButFlagOf v c.automaton_ c1.automaton_ ∧
      c1.surname_vertexes_ = c.surname_vertexes_ ∧ c1.state_ = c.state_ ∧
      c.Exclude i = some c2 ∧ (deref c2.automaton_ v).is_terminal_ = false ∧
      SameButFlagOf v c.automaton_ c2.automaton_ ∧
      c2.surname_vertexes_ = c.surname_vertexes_ ∧ c2.state_ = c.state_ := by
  obtain ⟨v, hv, hlt⟩ := hc.inv.handle i hi1 hi2
  exact ⟨v, _, _, hv, Include_of_handle c i v hi1 hv, flag_SetTerminal _ v true hlt,
    sameButFlagOf_SetTerminal _ v true, rfl, rfl,
    Exclude_of_handle c i v hi1 hv, flag_SetTerminal _ v false hlt,
    sameButFlagOf_SetTerminal _ v false, rfl, rfl⟩

/-- Claim C3, witness: dictionary a, ab, b in its first state, index 2. -/
theorem toggle_sets_only_entry_flag_witness :
    ∃ v c1 c2, (counterOf [['a'], ['a', 'b'], ['b']]).surname_vertexes_[2 - 1]? = some v ∧
      (counterOf [['a'], ['a', 'b'], ['b']]).Include 2 = some c1 ∧
      (deref c1.automaton_ v).is_terminal_ = true ∧
      SameButFlagOf v (counterOf [['a'], ['a', 'b'], ['b']]).automaton_ c1.automaton_ ∧
      c1.surname_vertexes_ = (counterOf [['a'], ['a', 'b'], ['b']]).surname_vertexes_ ∧
      c1.state_ = (counterOf [['a'], ['a', 'b'], ['b']]).state_ ∧
      (counterOf [['a'], ['a', 'b'], ['b']]).Exclude 2 = some c2 ∧
      (deref c2.automaton_ v).is_terminal_ = false ∧
      SameButFlagOf v (counterOf [['a'], ['a', 'b'], ['b']]).automaton_ c2.automaton_ ∧
      c2.surname_vertexes_ = (counterOf [['a'], ['a', 'b'], ['b']]).surname_vertexes_ ∧
      c2.state_ = (counterOf [['a'], ['a', 'b'], ['b']]).state_ :=
  toggle_sets_only_entry_flag [['a'], ['a', 'b'], ['b']] _ (reachable_counterOf _) 2
    (by decide) (by decide)

/-- Claim C4: for the strings `D` added to a new builder, `Build` succeeds, the handle list of
`GetSurnameVertexes` has exactly as many elements as `D`, and its `i`-th handle is the node
reached from the root along the trie edges that spell the `i`-th string (the root for the
empty string). -/
theorem Build_handles_spell_strings (D : List (List Char)) :
    ∃ b automaton,
      (D.foldl AhoCorasickBuilder.AddString ⟨[], []⟩).Build = some (b, automaton) ∧
      b.GetSurnameVertexes.length = D.length ∧
      ∀ (i : Nat) (s : List Char), D[i]? = some s →
        ∃ v, b.GetSurnameVertexes[i]? = some v ∧
          trieWalk automaton AhoCorasick.Root s = some v := by
  obtain ⟨h, ws, handles, hrun, hA, _, hw, hlt⟩ := Build_spec D
  refine ⟨⟨handles, D⟩, h, ?_, ?_, ?_⟩
  · rw [foldl_AddString]
    exact hrun
  · show handles.length = D.length
    rw [← hw, List.length_map]
  · intro i s hs
    have hs1 := hs
    rw [← hw, List.getElem?_map] at hs1
    cases hv : handles[i]? with
    | none => rw [hv] at hs1; simp at hs1
    | some v =>
      rw [hv] at hs1
      have hvs : word ws v = s := by simpa using hs1
      have hvl : v < h.length := hlt v (mem_of_getElem?_eq_some hv)
      refine ⟨v, hv, ?_⟩
      apply trieWalk_spec hA.trie s 0 v hA.trie.pos hvl
      rw [hA.trie.root, List.nil_append, hvs]

theorem entryActive_false_of_all_inactive (D : List (List Char)) (c : PolitizationCounter)
    (hoff : ∀ nd, nd ∈ c.automaton_ → nd.is_terminal_ = false) (s : List Char) :
    entryActive D c s = false := by
  unfold entryActive
  rw [List.any_eq_false]
  intro p _
  have hflag : (deref c.automaton_ p.2).is_terminal_ = false := by
    rcases Nat.lt_or_ge p.2 c.automaton_.length with hlt | hge
    · unfold deref
      rw [List.getD_eq_getElem _ _ hlt]
      exact hoff _ (List.getElem_mem hlt)
    · rw [deref_of_le _ _ hge]
      rfl
  simp [hflag]

theorem counter_eta (c : PolitizationCounter) :
    ({ c with automaton_ := c.automaton_ } : PolitizationCounter) = c := by
  cases c
  rfl

/-- Claim C5, the counterexample: dictionary a, a, a; after `Exclude(1)` and then
`Include(3)`, with no toggle of the entries 1 and 2 in between or after, the query token `?a`
is answered with 1: the string of the entries 1 and 2 is counted. -/
theorem third_duplicate_counterexample :
    (PolitizationCounter.PolitizationCounter 1 3 [['a'], ['a'], ['a'], ['?', 'a']]).bind
      (fun r => (r.1.Exclude 1).bind (fun c1 => (c1.Include 3).bind
        (fun c2 => (c2.AnswerIssue ['?', 'a']).map Prod.fst))) = some 1 := by
  decide

/-- Claim C5, amended: if the `i`-th and `j`-th dictionary strings are the same string `s`,
their handles are the same node and share its flag: after `Exclude(i)`, as long as no entry
whose string is `s` is toggled afterwards (the entries `i` and `j` or a further duplicate),
entry `j` is inactive and no query counts `s`, and after `Include(i)`, under the same
condition, entry `j` is active and `s` is among the counted strings, which are pairwise distinct, so
that it is counted once per ending position. -/
theorem duplicate_entries_share_flag (D : List (List Char)) (c : PolitizationCounter)
    (hc : Reachable D c) (i j : Nat) (s : List Char) (hi : 1 ≤ i) (hj : 1 ≤ j)
    (hsi : D[i - 1]? = some s) (hsj : D[j - 1]? = some s) :
    (∃ v, c.surname_vertexes_[i - 1]? = some v ∧ c.surname_vertexes_[j - 1]? = some v) ∧
    (∀ c1 c2, c.Exclude i = some c1 → StepsAvoiding D s c1 c2 →
      entryFlag c2 j = false ∧ s ∉ activeStrings D c2 ∧
      ∀ (marker : Char) (text : List Char), ∃ c3,
        c2.AnswerIssue (marker :: text) = some (occurrences (activeStrings D c2) text, c3)) ∧
    (∀ c1 c2, c.Include i = some c1 → StepsAvoiding D s c1 c2 →
      entryFlag c2 j = true ∧ s ∈ activeStrings D c2 ∧ (activeStrings D c2).Nodup ∧
      ∀ (marker : Char) (text : List Char), ∃ c3,
        c2.AnswerIssue (marker :: text) = some (occurrences (activeStrings D c2) text, c3)) := by
  have hi2 : i ≤ D.length := by
    have := (List.getElem?_eq_some.1 hsi).1
    omega
  have hj2 : j ≤ D.length := by
    have := (List.getElem?_eq_some.1 hsj).1
    omega
  obtain ⟨vi, hvi, hvil⟩ := hc.inv.handle i hi hi2
  obtain ⟨vj, hvj, hvjl⟩ := hc.inv.handle j hj hj2
  have hsame : vj = vi := by
    obtain ⟨ws, hA, hw, _, _⟩ := hc.inv
    have h1 := hsi
    have h2 := hsj
    rw [← hw, List.getElem?_map, hvi] at h1
    rw [← hw, List.getElem?_map, hvj] at h2
    apply hA.trie.inj vj vi hvjl hvil
    have e1 : word ws vi = s := by simpa using h1
    have e2 : word ws vj = s := by simpa using h2
    rw [e1, e2]
  subst hsame
  have hsD : s ∈ D := by
    obtain ⟨hlt, he⟩ := List.getElem?_eq_some.1 hsi
    rw [← he]
    exact List.getElem_mem hlt
  -- what holds after the toggle of entry `i` to `flg` and operations that avoid `s`
  have key : ∀ (flg : Bool) (c1 c2 : PolitizationCounter),
      c1 = { c with automaton_ := NodeReference.SetTerminal c.automaton_ vj flg } →
      Reachable D c1 → StepsAvoiding D s c1 c2 →
      entryFlag c2 j = flg ∧ entryActive D c2 s = flg ∧
      ∀ (marker : Char) (text : List Char), ∃ c3,
        c2.AnswerIssue (marker :: text) =
          some (occurrences (activeStrings D c2) text, c3) := by
    intro flg c1 c2 hc1 hr1 hsteps
    have hv1 : c1.surname_vertexes_[i - 1]? = some vj := by rw [hc1]; exact hvi
    obtain ⟨hr2, hh, hf⟩ := hsteps.keeps hr1 (i - 1) vj hv1 hsi
    have hflag : entryFlag c2 j = flg := by
      unfold entryFlag
      rw [hh, hc1]
      show (match c.surname_vertexes_[j - 1]? with
        | some v => (deref c2.automaton_ v).is_terminal_
        | none => false) = flg
      rw [hvj]
      show (deref c2.automaton_ vj).is_terminal_ = flg
      rw [hf, hc1]
      exact flag_SetTerminal _ vj flg hvjl
    refine ⟨hflag, ?_, ?_⟩
    · rw [hr2.inv.entryActive_eq_entryFlag j s hsj]
      exact hflag
    · intro marker text
      obtain ⟨h1, hrun, _, _⟩ := AnswerIssue_spec hr2.inv (marker :: text)
      exact ⟨_, hrun⟩
  refine ⟨⟨vj, hvi, hvj⟩, ?_, ?_⟩
  · intro c1 c2 hrun hsteps
    obtain ⟨u, _, hu, hc1⟩ := Exclude_eq c i c1 hrun
    rw [hvi] at hu
    injection hu with hu
    subst hu
    obtain ⟨h1, h2, h3⟩ := key false c1 c2 hc1 (Reachable.excl c c1 i hc hrun) hsteps
    refine ⟨h1, ?_, h3⟩
    intro hmem
    have := ((mem_activeStrings_iff D c2 s).1 hmem).2
    rw [h2] at this
    exact Bool.noConfusion this
  · intro c1 c2 hrun hsteps
    obtain ⟨u, _, hu, hc1⟩ := Include_eq c i c1 hrun
    rw [hvi] at hu
    injection hu with hu
    subst hu
    obtain ⟨h1, h2, h3⟩ := key true c1 c2 hc1 (Reachable.incl c c1 i hc hrun) hsteps
    exact ⟨h1, (mem_activeStrings_iff D c2 s).2 ⟨hsD, h2⟩, nodup_activeStrings D c2, h3⟩

/-- Claim C5, witness: dictionary a, a with `i = 1` and `j = 2`: both handles are one node;
after `Exclude(1)` entry 2 is inactive and the token `?a` gives 0; after `Include(1)` entry 2
is active and the token `?aa` gives 2, one per ending position. -/
theorem duplicate_entries_share_flag_witness :
    (∃ v, (counterOf [['a'], ['a']]).surname_vertexes_[1 - 1]? = some v ∧
      (counterOf [['a'], ['a']]).surname_vertexes_[2 - 1]? = some v) ∧
    (entryFlag (excludeOr (counterOf [['a'], ['a']]) 1) 2 = false ∧
      ∃ c3, (excludeOr (counterOf [['a'], ['a']]) 1).AnswerIssue ['?', 'a'] = some (0, c3)) ∧
    (entryFlag (includeOr (counterOf [['a'], ['a']]) 1) 2 = true ∧
      ∃ c3, (includeOr (counterOf [['a'], ['a']]) 1).AnswerIssue ['?', 'a', 'a'] =
        some (2, c3)) := by
  have h := duplicate_entries_share_flag [['a'], ['a']] (counterOf [['a'], ['a']])
    (reachable_counterOf _) 1 2 ['a'] (by decide) (by decide) (by decide) (by decide)
  have h1 := h.2.1 (excludeOr (counterOf [['a'], ['a']]) 1) _ (by decide)
    (StepsAvoiding.refl _)
  have h2 := h.2.2 (includeOr (counterOf [['a'], ['a']]) 1) _ (by decide)
    (StepsAvoiding.refl _)
  exact ⟨h.1, ⟨h1.1, h1.2.2 '?' ['a']⟩, ⟨h2.1, h2.2.2.2 '?' ['a', 'a']⟩⟩

/-- Claim C6: in every reached state in which no node has `is_terminal_` set (every entry is
disabled), `AnswerIssue` returns 0 for every token. -/
theorem AnswerIssue_zero_of_all_inactive (D : List (List Char)) (c : PolitizationCounter)
    (hc : Reachable D c) (hoff : ∀ nd, nd ∈ c.automaton_ → nd.is_terminal_ = false)
    (issue : List Char) : ∃ c1, c.AnswerIssue issue = some (0, c1) := by
  obtain ⟨h1, hrun, _, _⟩ := AnswerIssue_spec hc.inv issue
  have hnil : activeStrings D c = [] := by
    unfold activeStrings
    rw [List.filter_eq_nil_iff]
    intro s _
    rw [entryActive_false_of_all_inactive D c hoff s]
    exact Bool.false_ne_true
  rw [hnil, occurrences_nil] at hrun
  exact ⟨_, hrun⟩

/-- Claim C6, witness: dictionary a, ab, b with all three entries disabled, token `?abab`. -/
theorem AnswerIssue_zero_of_all_inactive_witness :
    (∀ nd, nd ∈ (excludeOr (excludeOr (excludeOr (counterOf [['a'], ['a', 'b'], ['b']]) 1) 2)
        3).automaton_ → nd.is_terminal_ = false) ∧
    ∃ c1, (excludeOr (excludeOr (excludeOr (counterOf [['a'], ['a', 'b'], ['b']]) 1) 2)
        3).AnswerIssue ['?', 'a', 'b', 'a', 'b'] = some (0, c1) :=
  ⟨by decide,
    AnswerIssue_zero_of_all_inactive [['a'], ['a', 'b'], ['b']] _
      (Reachable.excl (excludeOr (excludeOr (counterOf [['a'], ['a', 'b'], ['b']]) 1) 2) _ 3
        (Reachable.excl (excludeOr (counterOf [['a'], ['a', 'b'], ['b']]) 1) _ 2
          (Reachable.excl _ _ 1 (reachable_counterOf _) (by decide)) (by decide)) (by decide))
      (by decide) ['?', 'a', 'b', 'a', 'b']⟩

/-- Claim C7: for two states `cA` and `cB` reached for the same dictionary such that every
entry active in `cA` is active in `cB`, and every token, the count `AnswerIssue` returns in
`cB` is at least the count it returns in `cA`. -/
theorem AnswerIssue_monotone (D : List (List Char)) (cA cB : PolitizationCounter)
    (hA : Reachable D cA) (hB : Reachable D cB)
    (hAB : ∀ i, 1 ≤ i → i ≤ D.length → entryFlag cA i = true → entryFlag cB i = true)
    (issue : List Char) :
    ∃ nA nB cA1 cB1, cA.AnswerIssue issue = some (nA, cA1) ∧
      cB.AnswerIssue issue = some (nB, cB1) ∧ nA ≤ nB := by
  obtain ⟨hA1, hrunA, _, _⟩ := AnswerIssue_spec hA.inv issue
  obtain ⟨hB1, hrunB, _, _⟩ := AnswerIssue_spec hB.inv issue
  refine ⟨_, _, _, _, hrunA, hrunB, ?_⟩
  apply occurrences_mono
  unfold activeStrings
  apply filter_sublist_filter_of_imp
  intro s hs hact
  obtain ⟨k, hk, hks⟩ := List.getElem_of_mem (List.mem_dedup.1 hs)
  have hk1 : D[k + 1 - 1]? = some s := by
    rw [Nat.add_sub_cancel, List.getElem?_eq_getElem hk, hks]
  rw [hA.inv.entryActive_eq_entryFlag (k + 1) s hk1] at hact
  rw [hB.inv.entryActive_eq_entryFlag (k + 1) s hk1]
  exact hAB (k + 1) (by omega) (by omega) hact

/-- Claim C7, witness: dictionary a, ab, b; in `cA` entry 2 is disabled, in `cB` all entries
are enabled; the token `?ab` gives 2 and 3. -/
theorem AnswerIssue_monotone_witness :
    ∃ nA nB cA1 cB1,
      (excludeOr (counterOf [['a'], ['a', 'b'], ['b']]) 2).AnswerIssue ['?', 'a', 'b'] =
        some (nA, cA1) ∧
      (counterOf [['a'], ['a', 'b'], ['b']]).AnswerIssue ['?', 'a', 'b'] = some (nB, cB1) ∧
      nA ≤ nB :=
  AnswerIssue_monotone [['a'], ['a', 'b'], ['b']] _ _
    (Reachable.excl _ _ 2 (reachable_counterOf _) (by decide)) (reachable_counterOf _)
    (by
      intro i h1 h2
      have h3 : i ≤ 3 := h2
      interval_cases i <;> decide)
    ['?', 'a', 'b']

/-- Claim C8, the counterexample: dictionary a; in the state the constructor leaves, entry 1
is active; after `Include(1)` and then `Exclude(1)` it is inactive. -/
theorem Include_then_Exclude_counterexample :
    (PolitizationCounter.PolitizationCounter 0 1 [['a']]).bind
      (fun r => (r.1.Include 1).bind (fun c1 => (c1.Exclude 1).map
        (fun c2 => (entryFlag r.1 1, entryFlag c2 1)))) = some (true, false) := by
  decide

/-- Claim C8, amended: for every reached state and every valid index `i`, `Include(i)`
followed by `Exclude(i)` yields the state of a single `Exclude(i)`, in which entry `i` is
inactive; when entry `i` was inactive before the two calls, the whole state is what it was
before them. -/
theorem Include_then_Exclude (D : List (List Char)) (c : PolitizationCounter)
    (hc : Reachable D c) (i : Nat) (hi1 : 1 ≤ i) (hi2 : i ≤ D.length) :
    ∃ c1 c2, c.Include i = some c1 ∧ c1.Exclude i = some c2 ∧ c.Exclude i = some c2 ∧
      entryFlag c2 i = false ∧ (entryFlag c i = false → c2 = c) := by
  obtain ⟨v, hv, hlt⟩ := hc.inv.handle i hi1 hi2
  have h1 := Include_of_handle c i v hi1 hv
  have h2 := Exclude_of_handle
    { c with automaton_ := NodeReference.SetTerminal c.automaton_ v true } i v hi1 hv
  simp only [SetTerminal_SetTerminal] at h2
  refine ⟨_, _, h1, h2, Exclude_of_handle c i v hi1 hv, ?_, ?_⟩
  · unfold entryFlag
    simp only [hv]
    exact flag_SetTerminal _ v false hlt
  · intro hflag
    unfold entryFlag at hflag
    simp only [hv] at hflag
    rw [SetTerminal_same _ v false hflag]

/-- Claim C8, witness: dictionary a, ab, b with entry 2 disabled, index 2: the two calls
give back the state. -/
theorem Include_then_Exclude_witness :
    ∃ c1 c2, (excludeOr (counterOf [['a'], ['a', 'b'], ['b']]) 2).Include 2 = some c1 ∧
      c1.Exclude 2 = some c2 ∧
      (excludeOr (counterOf [['a'], ['a', 'b'], ['b']]) 2).Exclude 2 = some c2 ∧
      entryFlag c2 2 = false ∧
      (entryFlag (excludeOr (counterOf [['a'], ['a', 'b'], ['b']]) 2) 2 = false →
        c2 = excludeOr (counterOf [['a'], ['a', 'b'], ['b']]) 2) :=
  Include_then_Exclude [['a'], ['a', 'b'], ['b']] _
    (Reachable.excl _ _ 2 (reachable_counterOf _) (by decide)) 2 (by decide) (by decide)

/-- Claim C9: for every counter state and every valid index `i`, a second `Include(i)` right
after `Include(i)` returns the state it is given, and so does a second `Exclude(i)` after
`Exclude(i)`: the state after two calls is the state after one, and so is whatever
`AnswerIssue` returns from it. -/
theorem toggle_idempotent (c : PolitizationCounter) (i : Nat) (hi1 : 1 ≤ i)
    (hi2 : i ≤ c.surname_vertexes_.length) :
    ∃ c1 c2, c.Include i = some c1 ∧ c1.Include i = some c1 ∧
      c.Exclude i = some c2 ∧ c2.Exclude i = some c2 ∧
      ∀ issue, (c.Include i).bind (fun s => (s.Include i).bind (fun t => t.AnswerIssue issue)) =
          c1.AnswerIssue issue ∧
        (c.Exclude i).bind (fun s => (s.Exclude i).bind (fun t => t.AnswerIssue issue)) =
          c2.AnswerIssue issue := by
  have hi : i - 1 < c.surname_vertexes_.length := by omega
  have hv : c.surname_vertexes_[i - 1]? = some c.surname_vertexes_[i - 1] :=
    List.getElem?_eq_getElem hi
  have h1 := Include_of_handle c i _ hi1 hv
  have h2 := Include_of_handle
    { c with automaton_ := NodeReference.SetTerminal c.automaton_ c.surname_vertexes_[i - 1] true }
    i _ hi1 hv
  simp only [SetTerminal_SetTerminal] at h2
  have h3 := Exclude_of_handle c i _ hi1 hv
  have h4 := Exclude_of_handle
    { c with automaton_ := NodeReference.SetTerminal c.automaton_ c.surname_vertexes_[i - 1] false }
    i _ hi1 hv
  simp only [SetTerminal_SetTerminal] at h4
  refine ⟨_, _, h1, h2, h3, h4, ?_⟩
  intro issue
  rw [h1, h3]
  simp only [Option.bind_some, Option.some_bind, h2, h4]
  exact ⟨trivial, trivial⟩

/-- Claim C9, witness: dictionary a, ab, b in its first state, index 2. -/
theorem toggle_idempotent_witness :
    ∃ c1 c2, (counterOf [['a'], ['a', 'b'], ['b']]).Include 2 = some c1 ∧
      c1.Include 2 = some c1 ∧
      (counterOf [['a'], ['a', 'b'], ['b']]).Exclude 2 = some c2 ∧ c2.Exclude 2 = some c2 ∧
      ∀ issue,
        ((counterOf [['a'], ['a', 'b'], ['b']]).Include 2).bind
            (fun s => (s.Include 2).bind (fun t => t.AnswerIssue issue)) =
          c1.AnswerIssue issue ∧
        ((counterOf [['a'], ['a', 'b'], ['b']]).Exclude 2).bind
            (fun s => (s.Exclude 2).bind (fun t => t.AnswerIssue issue)) =
          c2.AnswerIssue issue :=
  toggle_idempotent (counterOf [['a'], ['a', 'b'], ['b']]) 2 (by decide) (by decide)

/-- Claim C10: in every state reached by the constructor, toggles and earlier queries, and
for all tokens `t1` and `t2`: `AnswerIssue(t1)` returns and leaves the cursor on the root,
and `AnswerIssue(t2)` run right after it returns the count that `AnswerIssue(t2)` returns
when `AnswerIssue(t1)` is not run; in particular a repeated query returns the same count. -/
theorem AnswerIssue_independent (D : List (List Char)) (c : PolitizationCounter)
    (hc : Reachable D c) (t1 t2 : List Char) :
    ∃ n1 n2 c1 c2 c3, c.AnswerIssue t1 = some (n1, c1) ∧ c1.state_ = AhoCorasick.Root ∧
      c1.AnswerIssue t2 = some (n2, c2) ∧ c.AnswerIssue t2 = some (n2, c3) ∧
      (t1 = t2 → n1 = n2) := by
  obtain ⟨h1, hrun1, hsame, hI1⟩ := AnswerIssue_spec hc.inv t1
  obtain ⟨h2, hrun2, _, _⟩ := AnswerIssue_spec hI1 t2
  obtain ⟨h3, hrun3, _, _⟩ := AnswerIssue_spec hc.inv t2
  have hact : activeStrings D { c with automaton_ := h1, state_ := 0 } = activeStrings D c :=
    activeStrings_congr D c _ rfl (fun p => (hsame.2 p).1)
  rw [hact] at hrun2
  refine ⟨_, _, _, _, _, hrun1, rfl, hrun2, hrun3, ?_⟩
  intro ht
  rw [ht]

/-- Claim C10, witness: dictionary a, ab, b with entry 2 disabled; the tokens `?abab` and
`?ab`. -/
theorem AnswerIssue_independent_witness :
    ∃ n1 n2 c1 c2 c3,
      (excludeOr (counterOf [['a'], ['a', 'b'], ['b']]) 2).AnswerIssue
        ['?', 'a', 'b', 'a', 'b'] = some (n1, c1) ∧
      c1.state_ = AhoCorasick.Root ∧
      c1.AnswerIssue ['?', 'a', 'b'] = some (n2, c2) ∧
      (excludeOr (counterOf [['a'], ['a', 'b'], ['b']]) 2).AnswerIssue ['?', 'a', 'b'] =
        some (n2, c3) ∧
      (['?', 'a', 'b', 'a', 'b'] = ['?', 'a', 'b'] → n1 = n2) :=
  AnswerIssue_independent [['a'], ['a', 'b'], ['b']] _
    (Reachable.excl _ _ 2 (reachable_counterOf _) (by decide))
    ['?', 'a', 'b', 'a', 'b'] ['?', 'a', 'b']

/-! ## The cache only grows -/

theorem GetAutomatonTransition_cache_mono (ch : Char) :
    ∀ (fuel : Nat) (h h1 : AhoCorasick) (v u : Nat),
      GetAutomatonTransition fuel h v ch = some (u, h1) →
      ∀ q c x, mapFind (deref h q).automaton_transitions_cache_ c = some x →
        mapFind (deref h1 q).automaton_transitions_cache_ c = some x := by
  intro fuel
  induction fuel with
  | zero =>
    intro h h1 v u hrun
    simp [GetAutomatonTransition] at hrun
  | succ fuel ih =>
    intro h h1 v u hrun q c x hq
    cases hfind : mapFind (deref h v).automaton_transitions_cache_ ch with
    | some a =>
      simp only [GetAutomatonTransition, hfind] at hrun
      injection hrun with hrun
      injection hrun with _ hh
      rw [← hh]
      exact hq
    | none =>
      cases hsl : (deref h v).suffix_link_ with
      | none =>
        simp only [GetAutomatonTransition, hfind, hsl] at hrun
        injection hrun with hrun
        injection hrun with _ hh
        rw [← hh]
        exact hq
      | some p =>
        cases hrec : GetAutomatonTransition fuel h p ch with
        | none => simp [GetAutomatonTransition, hfind, hsl, hrec] at hrun
        | some r =>
          obtain ⟨a, h2⟩ := r
          simp only [GetAutomatonTransition, hfind, hsl, hrec] at hrun
          injection hrun with hrun
          injection hrun with _ hh
          have hq2 := ih h h2 p a hrec q c x hq
          rw [← hh, deref_set]
          by_cases hvq : v = q ∧ v < h2.length
          · rw [if_pos hvq]
            show mapFind (cacheAssign (deref h2 v).automaton_transitions_cache_ ch a) c = some x
            rw [mapFind_cacheAssign]
            by_cases hc : ch = c
            · exfalso
              rw [← hvq.1, ← hc, hfind] at hq
              exact Option.noConfusion hq
            · simp only [hc, if_false]
              rw [hvq.1]
              exact hq2
          · rw [if_neg hvq]
            exact hq2

theorem AnswerIssueLoop_cache_mono (text : List Char) :
    ∀ (h h1 : AhoCorasick) (v v1 cnt cnt1 : Nat),
      PolitizationCounter.AnswerIssueLoop h v cnt text = some (h1, v1, cnt1) →
      ∀ q c x, mapFind (deref h q).automaton_transitions_cache_ c = some x →
        mapFind (deref h1 q).automaton_transitions_cache_ c = some x := by
  induction text with
  | nil =>
    intro h h1 v v1 cnt cnt1 hrun q c x hq
    simp only [PolitizationCounter.AnswerIssueLoop] at hrun
    injection hrun with hrun
    injection hrun with hh _
    rw [← hh]
    exact hq
  | cons ch rest ih =>
    intro h h1 v v1 cnt cnt1 hrun q c x hq
    cases hnext : NodeReference.Next h v ch with
    | none => simp [PolitizationCounter.AnswerIssueLoop, hnext] at hrun
    | some r =>
      obtain ⟨u, h2⟩ := r
      simp only [PolitizationCounter.AnswerIssueLoop, hnext] at hrun
      cases hm : NodeReference.ForEachMatch h2 u
          (fun (n : Nat) (is_terminal : Bool) => if is_terminal then n + 1 else n) cnt with
      | none => simp [hm] at hrun
      | some cnt2 =>
        simp only [hm] at hrun
        exact ih h2 h1 u v1 cnt2 cnt1 hrun q c x
          (GetAutomatonTransition_cache_mono ch _ h h2 v u hnext q c x hq)

/-! ## Claims C15 and C19 -/

/-- Claim C15: in every reached state and for every token, `AnswerIssue(token)` returns the
number of pairs `(p, s)` with `1 ≤ p ≤ |t|` and `s` a distinct dictionary string whose entry
node is active such that `s` is a suffix of the first `p` characters of `t`, where `t` is the
token without its first character; the first character has no influence on the count, and
the count is 0 for a token of length 0 or 1. -/
theorem AnswerIssue_skips_first_character (D : List (List Char)) (c : PolitizationCounter)
    (hc : Reachable D c) (issue : List Char) :
    (∃ c1, c.AnswerIssue issue = some (occurrences (activeStrings D c) issue.tail, c1)) ∧
    (∀ a b : Char, (c.AnswerIssue (a :: issue.tail)).map Prod.fst =
      (c.AnswerIssue (b :: issue.tail)).map Prod.fst) ∧
    (issue.length ≤ 1 → ∃ c1, c.AnswerIssue issue = some (0, c1)) := by
  obtain ⟨h1, hrun, _, _⟩ := AnswerIssue_spec hc.inv issue
  rw [List.drop_one] at hrun
  refine ⟨⟨_, hrun⟩, ?_, ?_⟩
  · intro a b
    obtain ⟨ha, hruna, _, _⟩ := AnswerIssue_spec hc.inv (a :: issue.tail)
    obtain ⟨hb, hrunb, _, _⟩ := AnswerIssue_spec hc.inv (b :: issue.tail)
    rw [hruna, hrunb]
    rfl
  · intro hlen
    have htail : issue.tail = [] := by
      cases issue with
      | nil => rfl
      | cons x rest =>
        simp only [List.length_cons] at hlen
        have : rest.length = 0 := by omega
        simpa using this
    rw [htail] at hrun
    exact ⟨_, hrun⟩

/-- Claim C15, witness: dictionary a, ab, b, all enabled: the token `xab` is answered like
`?ab`, with 3, and the token `a` with 0. -/
theorem AnswerIssue_skips_first_character_witness :
    (∃ c1, (counterOf [['a'], ['a', 'b'], ['b']]).AnswerIssue ['x', 'a', 'b'] = some (3, c1)) ∧
    (∃ c1, (counterOf [['a'], ['a', 'b'], ['b']]).AnswerIssue ['a'] = some (0, c1)) :=
  ⟨(AnswerIssue_skips_first_character [['a'], ['a', 'b'], ['b']] _
      (reachable_counterOf _) ['x', 'a', 'b']).1,
    (AnswerIssue_skips_first_character [['a'], ['a', 'b'], ['b']] _
      (reachable_counterOf _) ['a']).2.2 (by decide)⟩

/-- Claim C19: in every reached state and for every token, `AnswerIssue` returns, and
afterwards every node has the `is_terminal_` flag, trie transitions, suffix link and
terminal link it had before; the handles are the same, every binding of a transition cache
is still there, and the cursor is the root. -/
theorem AnswerIssue_writes_only_cache (D : List (List Char)) (c : PolitizationCounter)
    (hc : Reachable D c) (issue : List Char) :
    ∃ cnt c1, c.AnswerIssue issue = some (cnt, c1) ∧
      SameButCache c.automaton_ c1.automaton_ ∧
      (∀ q ch x, mapFind (deref c.automaton_ q).automaton_transitions_cache_ ch = some x →
        mapFind (deref c1.automaton_ q).automaton_transitions_cache_ ch = some x) ∧
      c1.surname_vertexes_ = c.surname_vertexes_ ∧
      c1.state_ = AhoCorasick.Root := by
  obtain ⟨h1, hrun, hsame, _⟩ := AnswerIssue_spec hc.inv issue
  refine ⟨_, _, hrun, hsame, ?_, rfl, rfl⟩
  show ∀ q ch x, mapFind (deref c.automaton_ q).automaton_transitions_cache_ ch = some x →
        mapFind (deref h1 q).automaton_transitions_cache_ ch = some x
  unfold PolitizationCounter.AnswerIssue at hrun
  simp only [List.drop_one] at hrun
  cases hloop : PolitizationCounter.AnswerIssueLoop c.automaton_ c.state_ 0 issue.tail with
  | none => simp [hloop] at hrun
  | some r =>
    obtain ⟨h2, v2, cnt2⟩ := r
    simp only [hloop] at hrun
    injection hrun with hrun
    injection hrun with _ hc1
    have hh : h2 = h1 := by
      have := congrArg PolitizationCounter.automaton_ hc1
      exact this
    rw [← hh]
    exact AnswerIssueLoop_cache_mono _ _ _ _ _ _ _ hloop

/-- Claim C19, witness: dictionary a, ab, b with entry 2 disabled, the token `?abab`. -/
theorem AnswerIssue_writes_only_cache_witness :
    ∃ cnt c1, (excludeOr (counterOf [['a'], ['a', 'b'], ['b']]) 2).AnswerIssue
        ['?', 'a', 'b', 'a', 'b'] = some (cnt, c1) ∧
      SameButCache (excludeOr (counterOf [['a'], ['a', 'b'], ['b']]) 2).automaton_
        c1.automaton_ ∧
      (∀ q ch x,
        mapFind (deref (excludeOr (counterOf [['a'], ['a', 'b'], ['b']]) 2).automaton_
          q).automaton_transitions_cache_ ch = some x →
        mapFind (deref c1.automaton_ q).automaton_transitions_cache_ ch = some x) ∧
      c1.surname_vertexes_ =
        (excludeOr (counterOf [['a'], ['a', 'b'], ['b']]) 2).surname_vertexes_ ∧
      c1.state_ = AhoCorasick.Root :=
  AnswerIssue_writes_only_cache [['a'], ['a', 'b'], ['b']] _
    (Reachable.excl _ _ 2 (reachable_counterOf _) (by decide)) ['?', 'a', 'b', 'a', 'b']

/-! ## Trie paths and the words of the nodes -/

theorem trieWalk_sound {h : AhoCorasick} {ws : List (List Char)} (hT : TrieInv h ws)
    (s : List Char) :
    ∀ (v u : Nat), v < h.length → trieWalk h v s = some u →
      u < h.length ∧ word ws u = word ws v ++ s := by
  induction s with
  | nil =>
    intro v u hv hw
    simp only [trieWalk] at hw
    injection hw with hw
    subst hw
    exact ⟨hv, by simp⟩
  | cons ch rest ih =>
    intro v u hv hw
    cases hf : mapFind (deref h v).trie_transitions_ ch with
    | none => simp [trieWalk, hf] at hw
    | some p =>
      simp only [trieWalk, hf] at hw
      obtain ⟨hp, hpw⟩ := hT.edge v ch p hv hf
      obtain ⟨hu, huw⟩ := ih p u hp hw
      exact ⟨hu, by rw [huw, hpw, List.append_assoc, List.singleton_append]⟩

theorem trieWalk_of_same_trie {h h1 : AhoCorasick}
    (htrie : ∀ v, (deref h1 v).trie_transitions_ = (deref h v).trie_transitions_)
    (s : List Char) : ∀ v, trieWalk h1 v s = trieWalk h v s := by
  induction s with
  | nil => intro v; rfl
  | cons ch rest ih =>
    intro v
    simp only [trieWalk, htrie, ih]

/-- Every node is reached from the root along the path that spells its word. -/
theorem TrieInv.walk_word {h : AhoCorasick} {ws : List (List Char)} (hT : TrieInv h ws)
    {v : Nat} (hv : v < h.length) : trieWalk h 0 (word ws v) = some v :=
  trieWalk_spec hT (word ws v) 0 v hT.pos hv (by rw [hT.root, List.nil_append])

/-- The word a path from the root spells is the word of the node it reaches. -/
theorem TrieInv.word_of_walk {h : AhoCorasick} {ws : List (List Char)} (hT : TrieInv h ws)
    {v : Nat} {w : List Char} (hw : trieWalk h 0 w = some v) :
    v < h.length ∧ word ws v = w := by
  obtain ⟨hv, hvw⟩ := trieWalk_sound hT w 0 v hT.pos hw
  rw [hT.root, List.nil_append] at hvw
  exact ⟨hv, hvw⟩

/-- The arena determines the words of its nodes. -/
theorem TrieInv.words_unique {h : AhoCorasick} {ws ws1 : List (List Char)}
    (hT : TrieInv h ws) (hT1 : TrieInv h ws1) : ws = ws1 := by
  apply List.ext_getElem (by rw [hT.len, hT1.len])
  intro v hv hv1
  have hvh : v < h.length := hT.len ▸ hv
  have h1 := (hT1.word_of_walk (hT.walk_word hvh)).2
  unfold word at h1
  rw [List.getD_eq_getElem _ _ hv1, List.getD_eq_getElem _ _ hv] at h1
  exact h1.symm

/-! ## The words of the trie are starts of dictionary strings -/

theorem AddStringLoop_words (s : List Char) :
    ∀ (h : AhoCorasick) (ws : List (List Char)) (curr : Nat),
      TrieInv h ws → curr < h.length →
      ∃ ws1,
        TrieInv (AhoCorasickBuilder.AddStringLoop h curr s).1 (ws ++ ws1) ∧
        ∀ w, w ∈ ws1 → w <+: word ws curr ++ s := by
  induction s with
  | nil =>
    intro h ws curr hT _
    refine ⟨[], ?_, by simp⟩
    have e : AhoCorasickBuilder.AddStringLoop h curr [] = (h, curr) := rfl
    rw [e, List.append_nil]
    exact hT
  | cons sym rest ih =>
    intro h ws curr hT hc
    cases hf : mapFind (deref h curr).trie_transitions_ sym with
    | some child =>
      obtain ⟨hch, hw⟩ := hT.edge curr sym child hc hf
      obtain ⟨ws1, h1, h2⟩ := ih h ws child hT hch
      refine ⟨ws1, ?_, ?_⟩
      · simp only [AhoCorasickBuilder.AddStringLoop, hf]
        exact h1
      · intro w hwm
        have := h2 w hwm
        rw [hw, List.append_assoc, List.singleton_append] at this
        exact this
    | none =>
      let nd : AhoCorasickNode :=
        { deref h curr with
          trie_transitions_ := mapInsert (deref h curr).trie_transitions_ sym h.length
          automaton_transitions_cache_ :=
            cacheAssign (deref h curr).automaton_transitions_cache_ sym h.length }
      let hnew : AhoCorasick := h.set curr nd ++ [AhoCorasickNode.fresh]
      have hlen : hnew.length = h.length + 1 := by simp [hnew]
      have hdcur : deref hnew curr = nd := by
        show deref (h.set curr nd ++ [AhoCorasickNode.fresh]) curr = nd
        rw [deref_append_left _ _ _ (by simpa using hc), deref_set_self _ _ _ hc]
      have hdnew : deref hnew h.length = AhoCorasickNode.fresh := by
        show deref (h.set curr nd ++ [AhoCorasickNode.fresh]) h.length = _
        have := deref_append_fresh (h.set curr nd)
        simpa using this
      have hdold : ∀ v, v < h.length → v ≠ curr → deref hnew v = deref h v := by
        intro v hv hv1
        show deref (h.set curr nd ++ [AhoCorasickNode.fresh]) v = _
        rw [deref_append_left _ _ _ (by simpa using hv), deref_set_ne _ _ _ _ (Ne.symm hv1)]
      have hT1 : TrieInv hnew (ws ++ [word ws curr ++ [sym]]) := by
        apply hT.extend hc hf hnew hlen
        · rw [hdcur]
        · rw [hdnew]; rfl
        · intro v hv hvc
          rw [hdold v hv hvc]
      obtain ⟨ws1, h1, h2⟩ :=
        ih hnew (ws ++ [word ws curr ++ [sym]]) h.length hT1 (by rw [hlen]; omega)
      have hwn : word (ws ++ [word ws curr ++ [sym]]) h.length = word ws curr ++ [sym] := by
        rw [← hT.len]; exact word_append_new ws _
      refine ⟨[word ws curr ++ [sym]] ++ ws1, ?_, ?_⟩
      · have hstep : AhoCorasickBuilder.AddStringLoop h curr (sym :: rest) =
            AhoCorasickBuilder.AddStringLoop hnew h.length rest := by
          simp only [AhoCorasickBuilder.AddStringLoop, hf]
        rw [hstep, ← List.append_assoc]
        exact h1
      · intro w hwm
        rcases List.mem_append.1 hwm with hw1 | hw1
        · rw [List.mem_singleton.1 hw1]
          exact ⟨rest, by simp⟩
        · have := h2 w hw1
          rw [hwn, List.append_assoc, List.singleton_append] at this
          exact this

theorem PrefixWords.mono {D D1 ws : List (List Char)} (hP : PrefixWords D ws)
    (hD : ∀ s, s ∈ D → s ∈ D1) : PrefixWords D1 ws := by
  intro w hw
  rcases hP w hw with h | ⟨s, hs, hws⟩
  · exact Or.inl h
  · exact Or.inr ⟨s, hD s hs, hws⟩

theorem AddStringAt_words {D ws : List (List Char)} {h : AhoCorasick} (hT : TrieInv h ws)
    (hP : PrefixWords D ws) (b : AhoCorasickBuilder) (s : List Char) :
    ∃ ws1, TrieInv (AhoCorasickBuilder.AddStringAt b h 0 s).2 ws1 ∧
      PrefixWords (D ++ [s]) ws1 := by
  obtain ⟨ws1, h1, h2⟩ := AddStringLoop_words s h ws 0 hT hT.pos
  refine ⟨ws ++ ws1, ?_, ?_⟩
  · show TrieInv ((AhoCorasickBuilder.AddStringLoop h 0 s).1.set
      (AhoCorasickBuilder.AddStringLoop h 0 s).2
      { deref (AhoCorasickBuilder.AddStringLoop h 0 s).1
          (AhoCorasickBuilder.AddStringLoop h 0 s).2 with is_terminal_ := true }) (ws ++ ws1)
    apply h1.of_same_trie (by simp)
    intro v
    rw [deref_set]
    split
    · next hv => rw [hv.1]
    · rfl
  · intro w hw
    rcases List.mem_append.1 hw with hw1 | hw1
    · exact (hP.mono (fun s hs => List.mem_append_left _ hs)) w hw1
    · right
      refine ⟨s, by simp, ?_⟩
      have := h2 w hw1
      rw [hT.root, List.nil_append] at this
      exact this

theorem addStrings_words (strs : List (List Char)) :
    ∀ (D : List (List Char)) (h : AhoCorasick) (ws : List (List Char))
      (b : AhoCorasickBuilder),
      TrieInv h ws → PrefixWords D ws →
      ∃ ws1,
        TrieInv (strs.foldl (fun (acc : AhoCorasickBuilder × AhoCorasick) string =>
            AhoCorasickBuilder.AddStringAt acc.1 acc.2 AhoCorasick.Root string) (b, h)).2 ws1 ∧
        PrefixWords (D ++ strs) ws1 := by
  induction strs with
  | nil =>
    intro D h ws b hT hP
    exact ⟨ws, hT, by simpa using hP⟩
  | cons s rest ih =>
    intro D h ws b hT hP
    obtain ⟨ws1, hT1, hP1⟩ := AddStringAt_words hT hP b s
    simp only [List.foldl_cons]
    obtain ⟨ws2, hT2, hP2⟩ := ih (D ++ [s])
      (AhoCorasickBuilder.AddStringAt b h AhoCorasick.Root s).2 ws1
      (AhoCorasickBuilder.AddStringAt b h AhoCorasick.Root s).1 hT1 hP1
    refine ⟨ws2, hT2, ?_⟩
    rw [List.append_assoc] at hP2
    exact hP2

/-- The arena that `Build` hands to `CalculateLinks`, with the handles. -/
theorem trieOf_spec (D : List (List Char)) :
    ∃ ws handles, TrieBuilt D (trieOf D) ws handles ∧ PrefixWords D ws := by
  obtain ⟨ws, hB, _⟩ := addStrings_spec D [] [AhoCorasickNode.fresh] [[]] [] D trieBuilt_fresh
  rw [List.nil_append] at hB
  obtain ⟨ws1, hT1, hP1⟩ := addStrings_words D [] [AhoCorasickNode.fresh] [[]] ⟨[], D⟩
    trieBuilt_fresh.trie (by intro w hw; left; simpa using hw)
  rw [List.nil_append] at hP1
  have hws : ws = ws1 := TrieInv.words_unique hB.trie hT1
  rw [← hws] at hP1
  exact ⟨ws, _, hB, hP1⟩

theorem Build_eq (D : List (List Char)) :
    AhoCorasickBuilder.Build ⟨[], D⟩ =
      match AhoCorasickBuilder.CalculateLinks (trieOf D) AhoCorasick.Root with
      | none => none
      | some automaton =>
        some ((D.foldl (fun (acc : AhoCorasickBuilder × AhoCorasick) string =>
            AhoCorasickBuilder.AddStringAt acc.1 acc.2 AhoCorasick.Root string)
            (⟨[], D⟩, [AhoCorasickNode.fresh])).1, automaton) := rfl

/-! ## The structure of the automaton is frozen after the constructor -/

theorem constructor_arena (D : List (List Char)) (n : Nat) (ops rest : List (List Char))
    (c : PolitizationCounter)
    (hrun : PolitizationCounter.PolitizationCounter n D.length (D ++ ops) = some (c, rest)) :
    AhoCorasickBuilder.CalculateLinks (trieOf D) AhoCorasick.Root = some c.automaton_ := by
  unfold PolitizationCounter.PolitizationCounter PolitizationCounter.Init at hrun
  simp only [InitLoop_spec, List.nil_append, Build_eq] at hrun
  cases hcl : AhoCorasickBuilder.CalculateLinks (trieOf D) AhoCorasick.Root with
  | none => simp [hcl] at hrun
  | some a =>
    simp only [hcl] at hrun
    injection hrun with hrun
    injection hrun with hc _
    rw [← hc]

/-- The automaton of a reached state differs from the one `CalculateLinks` returned at
most in the flags and the caches. -/
theorem Reachable.frozen {D : List (List Char)} {c : PolitizationCounter}
    (hc : Reachable D c) :
    ∃ hfinal, AhoCorasickBuilder.CalculateLinks (trieOf D) AhoCorasick.Root = some hfinal ∧
      c.automaton_.length = hfinal.length ∧
      ∀ v, (deref c.automaton_ v).trie_transitions_ = (deref hfinal v).trie_transitions_ ∧
        (deref c.automaton_ v).suffix_link_ = (deref hfinal v).suffix_link_ ∧
        (deref c.automaton_ v).terminal_link_ = (deref hfinal v).terminal_link_ := by
  induction hc with
  | init n ops rest c hrun =>
    exact ⟨c.automaton_, constructor_arena D n ops rest c hrun, rfl, fun _ => ⟨rfl, rfl, rfl⟩⟩
  | incl c c1 i _ hrun ih =>
    obtain ⟨hfinal, h1, h2, h3⟩ := ih
    obtain ⟨v, _, _, hc1⟩ := Include_eq c i c1 hrun
    have hs := sameButFlagOf_SetTerminal c.automaton_ v true
    refine ⟨hfinal, h1, ?_, ?_⟩
    · rw [hc1]; exact hs.1.trans h2
    · intro q
      rw [hc1]
      show (deref (NodeReference.SetTerminal c.automaton_ v true) q).trie_transitions_ = _ ∧ _
      by_cases hq : q = v
      · rw [hq, hs.2.2.1, hs.2.2.2.2.1, hs.2.2.2.2.2]
        exact h3 v
      · rw [hs.2.1 q hq]
        exact h3 q
  | excl c c1 i _ hrun ih =>
    obtain ⟨hfinal, h1, h2, h3⟩ := ih
    obtain ⟨v, _, _, hc1⟩ := Exclude_eq c i c1 hrun
    have hs := sameButFlagOf_SetTerminal c.automaton_ v false
    refine ⟨hfinal, h1, ?_, ?_⟩
    · rw [hc1]; exact hs.1.trans h2
    · intro q
      rw [hc1]
      show (deref (NodeReference.SetTerminal c.automaton_ v false) q).trie_transitions_ = _ ∧ _
      by_cases hq : q = v
      · rw [hq, hs.2.2.1, hs.2.2.2.2.1, hs.2.2.2.2.2]
        exact h3 v
      · rw [hs.2.1 q hq]
        exact h3 q
  | query c c1 issue cnt hr hrun ih =>
    obtain ⟨hfinal, h1, h2, h3⟩ := ih
    obtain ⟨ha, hrun1, hsame, _⟩ := AnswerIssue_spec hr.inv issue
    rw [hrun1] at hrun
    injection hrun with hrun
    injection hrun with _ hc1
    refine ⟨hfinal, h1, ?_, ?_⟩
    · rw [← hc1]; exact hsame.1.trans h2
    · intro q
      rw [← hc1]
      show (deref ha q).trie_transitions_ = _ ∧ _
      rw [(hsame.2 q).2.1, (hsame.2 q).2.2.1, (hsame.2 q).2.2.2]
      exact h3 q

/-- The invariant of a reached state, with the words of the trie being starts of
dictionary strings. -/
theorem Reachable.full {D : List (List Char)} {c : PolitizationCounter}
    (hc : Reachable D c) :
    ∃ ws, AutomatonInv D c.automaton_ ws ∧ c.surname_vertexes_.map (word ws) = D ∧
      (∀ v, v ∈ c.surname_vertexes_ → v < c.automaton_.length) ∧ c.state_ = 0 ∧
      PrefixWords D ws := by
  obtain ⟨ws, hA, hw, hlt, hst⟩ := hc.inv
  refine ⟨ws, hA, hw, hlt, hst, ?_⟩
  obtain ⟨hfinal, hcl, hlen, hsame⟩ := hc.frozen
  obtain ⟨ws0, handles, hB, hP⟩ := trieOf_spec D
  obtain ⟨h1, hcl1, hsl, _⟩ := CalculateLinks_spec hB
  have hcl2 : AhoCorasickBuilder.CalculateLinks (trieOf D) AhoCorasick.Root = some h1 := hcl1
  rw [hcl] at hcl2
  injection hcl2 with hcl2
  subst hcl2
  have hT0 : TrieInv hfinal ws0 := hsl.trieInv hB.trie
  have hT1 : TrieInv hfinal ws :=
    hA.trie.of_same_trie hlen.symm (fun v => ((hsame v).1).symm)
  rw [TrieInv.words_unique hT1 hT0]
  exact hP

/-- A suffix of `w ++ [ch]` that is the start of a dictionary string is a word of the
trie. -/
theorem mem_words_of_isPrefix {D ws : List (List Char)} {h : AhoCorasick}
    (hA : AutomatonInv D h ws) {t s : List Char} (hs : s ∈ D) (hts : t <+: s) : t ∈ ws := by
  obtain ⟨r, hr⟩ := hts
  apply hA.trie.closed_append t r
  rw [hr]
  exact hA.dict s hs

/-! ## Claims C11 and C12 -/

/-- Claim C11: in every reached state (the automaton as built, or with flags toggled and a
filled cache), for every node `v`, with `w` the word spelled along its trie path, and every
symbol `ch`, `Next` (that is `GetAutomatonTransition`) returns the node whose word is the
longest suffix of `w ++ [ch]` that is the start of a dictionary string, the root when only
the empty suffix qualifies; when `v` has a trie edge on `ch` the result is that child. -/
theorem goto_longest_suffix (D : List (List Char)) (c : PolitizationCounter)
    (hc : Reachable D c) (v : Nat) (hv : v < c.automaton_.length) :
    ∃ w, trieWalk c.automaton_ AhoCorasick.Root w = some v ∧
      ∀ ch : Char, ∃ u h1 wu,
        NodeReference.Next c.automaton_ v ch = some (u, h1) ∧
        trieWalk c.automaton_ AhoCorasick.Root wu = some u ∧
        wu <:+ w ++ [ch] ∧ (wu = [] ∨ ∃ s, s ∈ D ∧ wu <+: s) ∧
        (∀ t, t <:+ w ++ [ch] → (∃ s, s ∈ D ∧ t <+: s) → t.length ≤ wu.length) ∧
        (∀ child, mapFind (deref c.automaton_ v).trie_transitions_ ch = some child →
          u = child) := by
  obtain ⟨ws, hA, _, _, _, hP⟩ := hc.full
  refine ⟨word ws v, hA.trie.walk_word hv, ?_⟩
  intro ch
  obtain ⟨u, h1, hrun, hu, hls, _, _⟩ :=
    GetAutomatonTransition_spec (D := D) ch c.automaton_.length c.automaton_ v hA hv
      (lt_of_le_of_lt (hA.trie.depth v hv) hv)
  refine ⟨u, h1, word ws u, hrun, hA.trie.walk_word hu, hls.2.1, hP _ hls.1, ?_, ?_⟩
  · rintro t hts ⟨s, hs, hpre⟩
    exact hls.2.2 t (mem_words_of_isPrefix hA hs hpre) hts
  · intro child hf
    obtain ⟨hch, hcw⟩ := hA.trie.edge v ch child hv hf
    have hself : IsLongestSuffix ws (word ws v ++ [ch]) (word ws child) := by
      rw [hcw]
      apply isLongestSuffix_self
      rw [← hcw]
      exact (hA.trie.mem_iff _).2 ⟨child, hch, rfl⟩
    exact hA.trie.inj u child hu hch (hls.unique hself)

/-- Claim C11, witness: dictionary a, ab, b; from node 2, the node of `ab`, every symbol has
a transition; on `b` it leads to node 3, the node of `b`. -/
theorem goto_longest_suffix_witness :
    (∃ w, trieWalk (counterOf [['a'], ['a', 'b'], ['b']]).automaton_ AhoCorasick.Root w =
        some 2 ∧
      ∀ ch : Char, ∃ u h1 wu,
        NodeReference.Next (counterOf [['a'], ['a', 'b'], ['b']]).automaton_ 2 ch =
          some (u, h1) ∧
        trieWalk (counterOf [['a'], ['a', 'b'], ['b']]).automaton_ AhoCorasick.Root wu =
          some u ∧
        wu <:+ w ++ [ch] ∧ (wu = [] ∨ ∃ s, s ∈ [['a'], ['a', 'b'], ['b']] ∧ wu <+: s) ∧
        (∀ t, t <:+ w ++ [ch] → (∃ s, s ∈ [['a'], ['a', 'b'], ['b']] ∧ t <+: s) →
          t.length ≤ wu.length) ∧
        (∀ child,
          mapFind (deref (counterOf [['a'], ['a', 'b'], ['b']]).automaton_
            2).trie_transitions_ ch = some child → u = child)) ∧
    (NodeReference.Next (counterOf [['a'], ['a', 'b'], ['b']]).automaton_ 2 'b').map Prod.fst =
      some 3 :=
  ⟨goto_longest_suffix [['a'], ['a', 'b'], ['b']] _ (reachable_counterOf _) 2 (by decide),
    by decide⟩

/-- Claim C12: in every reached state (the dictionary may be empty), for every node `v` and
every symbol `ch` that labels no trie edge of the automaton, `Next` (that is
`GetAutomatonTransition`) returns the root. -/
theorem goto_unseen_symbol (D : List (List Char)) (c : PolitizationCounter)
    (hc : Reachable D c) (v : Nat) (hv : v < c.automaton_.length) (ch : Char)
    (hunseen : ∀ nd, nd ∈ c.automaton_ → mapFind nd.trie_transitions_ ch = none) :
    ∃ h1, NodeReference.Next c.automaton_ v ch = some (AhoCorasick.Root, h1) := by
  obtain ⟨ws, hA, _, _, _, _⟩ := hc.full
  obtain ⟨u, h1, hrun, hu, hls, _, _⟩ :=
    GetAutomatonTransition_spec (D := D) ch c.automaton_.length c.automaton_ v hA hv
      (lt_of_le_of_lt (hA.trie.depth v hv) hv)
  have hnone : ∀ q, q < c.automaton_.length →
      mapFind (deref c.automaton_ q).trie_transitions_ ch = none := by
    intro q hq
    unfold deref
    rw [List.getD_eq_getElem _ _ hq]
    exact hunseen _ (List.getElem_mem hq)
  have hw : word ws u = [] := by
    rcases List.suffix_concat_iff.1 hls.2.1 with h0 | ⟨y, hy, _⟩
    · exact h0
    · exfalso
      have hmem : y ++ [ch] ∈ ws := hy ▸ hls.1
      obtain ⟨p, hp, hpw⟩ := (hA.trie.mem_iff _).1 (hA.trie.closed y ch hmem)
      have := hA.trie.edge_complete p ch u hp hu (by rw [hpw, hy])
      rw [hnone p hp] at this
      exact Option.noConfusion this
  have hu0 : u = 0 := hA.trie.inj u 0 hu hA.trie.pos (hw.trans hA.trie.root.symm)
  rw [hu0] at hrun
  exact ⟨h1, hrun⟩

/-- Claim C12, witness: the empty dictionary, the root and the symbol `x`; dictionary a, ab,
b, node 2 and the symbol `x`. -/
theorem goto_unseen_symbol_witness :
    (∃ h1, NodeReference.Next (counterOf []).automaton_ 0 'x' = some (AhoCorasick.Root, h1)) ∧
    (∃ h1, NodeReference.Next (counterOf [['a'], ['a', 'b'], ['b']]).automaton_ 2 'x' =
      some (AhoCorasick.Root, h1)) :=
  ⟨goto_unseen_symbol [] _ (reachable_counterOf _) 0 (by decide) 'x' (by decide),
    goto_unseen_symbol [['a'], ['a', 'b'], ['b']] _ (reachable_counterOf _) 2 (by decide) 'x'
      (by decide)⟩

/-! ## Termination along the links -/

theorem suffixWalk_total {D ws : List (List Char)} {h : AhoCorasick}
    (hA : AutomatonInv D h ws) (child : Nat) (ch : Char) :
    ∀ (fuel p : Nat), p < h.length → (word ws p).length < fuel →
      ∃ r, suffixWalk child ch fuel h (some p) = some r := by
  intro fuel
  induction fuel with
  | zero => intro p _ hf; exact absurd hf (Nat.not_lt_zero _)
  | succ fuel ih =>
    intro p hp hfuel
    cases hf : mapFind (deref h p).trie_transitions_ ch with
    | some t =>
      exact ⟨(h.set child { deref h child with suffix_link_ := some t }, some p),
        by simp only [suffixWalk, hf]⟩
    | none =>
      have hstep : suffixWalk child ch (fuel + 1) h (some p) =
          suffixWalk child ch fuel h (deref h p).suffix_link_ := by
        simp only [suffixWalk, hf]
      rw [hstep]
      cases hsl : (deref h p).suffix_link_ with
      | none =>
        cases fuel <;> exact ⟨_, rfl⟩
      | some q =>
        have hp0 : p ≠ 0 := by
          intro h0
          have := (hA.links p hp).1 h0
          rw [hsl] at this
          exact Option.noConfusion this
        obtain ⟨q1, hq, hq1, hlps⟩ := (hA.links p hp).2.1 hp0
        rw [hsl] at hq1
        injection hq1 with hq1
        subst hq1
        exact ih q hq (by have := hlps.2.2.1; omega)

theorem ForEachMatchLoop_total {D ws : List (List Char)} {h : AhoCorasick}
    (hA : AutomatonInv D h ws) {σ : Type} (cb : σ → Bool → σ) :
    ∀ (fuel v : Nat) (acc : σ), v < h.length → (word ws v).length < fuel →
      ∃ r, ForEachMatchLoop h cb fuel (some v) acc = some r := by
  intro fuel
  induction fuel with
  | zero => intro v _ _ hf; exact absurd hf (Nat.not_lt_zero _)
  | succ fuel ih =>
    intro v acc hv hfuel
    cases htl : (deref h v).terminal_link_ with
    | none =>
      refine ⟨cb acc (deref h v).is_terminal_, ?_⟩
      simp only [ForEachMatchLoop, htl]
    | some t =>
      have hOK := (hA.links v hv).2.2
      rw [htl] at hOK
      obtain ⟨ht, hlps⟩ := hOK
      simp only [ForEachMatchLoop, htl]
      exact ih t _ ht (by have := hlps.2.2.1; omega)

/-- Claim C20: in every reached state (the automaton `Build` produced, with any flags and
cache), for a node `v` at the end of the trie path `w`: the suffix link of a non-root `v` and
the terminal link, when it is not null, point to nodes on strictly shorter trie paths; and
from `v` the recursion of `GetAutomatonTransition`, the loop of `ForEachMatch` and the walk
along the suffix links inside `CalculateLinks` return within `|w| + 1` steps. -/
theorem links_decrease_depth (D : List (List Char)) (c : PolitizationCounter)
    (hc : Reachable D c) (v : Nat) (w : List Char)
    (hw : trieWalk c.automaton_ AhoCorasick.Root w = some v) :
    (v ≠ AhoCorasick.Root → ∃ u wu, (deref c.automaton_ v).suffix_link_ = some u ∧
      trieWalk c.automaton_ AhoCorasick.Root wu = some u ∧ wu.length < w.length) ∧
    (∀ t, (deref c.automaton_ v).terminal_link_ = some t →
      ∃ wt, trieWalk c.automaton_ AhoCorasick.Root wt = some t ∧ wt.length < w.length) ∧
    (∀ ch, ∃ r, GetAutomatonTransition (w.length + 1) c.automaton_ v ch = some r) ∧
    (∀ (σ : Type) (cb : σ → Bool → σ) (acc : σ),
      ∃ r, ForEachMatchLoop c.automaton_ cb (w.length + 1) (some v) acc = some r) ∧
    (∀ child ch, ∃ r, suffixWalk child ch (w.length + 1) c.automaton_ (some v) = some r) := by
  obtain ⟨ws, hA, _, _, _, _⟩ := hc.full
  obtain ⟨hv, hvw⟩ := hA.trie.word_of_walk hw
  have hfuel : (word ws v).length < w.length + 1 := by rw [hvw]; omega
  refine ⟨?_, ?_, ?_, ?_, ?_⟩
  · intro hv0
    obtain ⟨u, hu, hsl, hlps⟩ := (hA.links v hv).2.1 hv0
    exact ⟨u, word ws u, hsl, hA.trie.walk_word hu, by rw [← hvw]; exact hlps.2.2.1⟩
  · intro t htl
    have hOK := (hA.links v hv).2.2
    rw [htl] at hOK
    obtain ⟨ht, hlps⟩ := hOK
    exact ⟨word ws t, hA.trie.walk_word ht, by rw [← hvw]; exact hlps.2.2.1⟩
  · intro ch
    obtain ⟨u, h1, hrun, _⟩ :=
      GetAutomatonTransition_spec (D := D) ch (w.length + 1) c.automaton_ v hA hv hfuel
    exact ⟨_, hrun⟩
  · intro σ cb acc
    exact ForEachMatchLoop_total hA cb (w.length + 1) v acc hv hfuel
  · intro child ch
    exact suffixWalk_total hA child ch (w.length + 1) v hv hfuel

/-- Claim C20, witness: dictionary a, ab, b; node 2 at the end of the path `ab`, whose
suffix link and terminal link are node 3, the node of `b`. -/
theorem links_decrease_depth_witness :
    ((2 : Nat) ≠ AhoCorasick.Root → ∃ u wu,
      (deref (counterOf [['a'], ['a', 'b'], ['b']]).automaton_ 2).suffix_link_ = some u ∧
      trieWalk (counterOf [['a'], ['a', 'b'], ['b']]).automaton_ AhoCorasick.Root wu =
        some u ∧ wu.length < ['a', 'b'].length) ∧
    (∀ t, (deref (counterOf [['a'], ['a', 'b'], ['b']]).automaton_ 2).terminal_link_ =
        some t →
      ∃ wt, trieWalk (counterOf [['a'], ['a', 'b'], ['b']]).automaton_ AhoCorasick.Root wt =
        some t ∧ wt.length < ['a', 'b'].length) ∧
    (∀ ch, ∃ r, GetAutomatonTransition (['a', 'b'].length + 1)
      (counterOf [['a'], ['a', 'b'], ['b']]).automaton_ 2 ch = some r) ∧
    (∀ (σ : Type) (cb : σ → Bool → σ) (acc : σ),
      ∃ r, ForEachMatchLoop (counterOf [['a'], ['a', 'b'], ['b']]).automaton_ cb
        (['a', 'b'].length + 1) (some 2) acc = some r) ∧
    (∀ child ch, ∃ r, suffixWalk child ch (['a', 'b'].length + 1)
      (counterOf [['a'], ['a', 'b'], ['b']]).automaton_ (some 2) = some r) :=
  links_decrease_depth [['a'], ['a', 'b'], ['b']] _ (reachable_counterOf _) 2 ['a', 'b']
    (by decide)

/-! ## The chain of the suffix links -/

theorem suffixChain_none (h : AhoCorasick) (fuel : Nat) : suffixChain h fuel none = [] := by
  cases fuel <;> rfl

theorem find?_eq_head?_filter {α : Type} (p : α → Bool) (l : List α) :
    l.find? p = (l.filter p).head? := by
  induction l with
  | nil => rfl
  | cons a rest ih =>
    by_cases ha : p a = true
    · rw [List.find?_cons_of_pos _ ha, List.filter_cons_of_pos ha]
      rfl
    · rw [List.find?_cons_of_neg _ ha, List.filter_cons_of_neg ha]
      exact ih

/-- The chain from a node holds exactly the nodes whose words are suffixes of its word,
from the longest to the shortest, whatever fuel is given beyond the depth. -/
theorem suffixChain_spec {D ws : List (List Char)} {h : AhoCorasick}
    (hA : AutomatonInv D h ws) :
    ∀ (fuel p : Nat), p < h.length → (word ws p).length < fuel →
      (∀ u, u ∈ suffixChain h fuel (some p) ↔ u < h.length ∧ word ws u <:+ word ws p) ∧
      (suffixChain h fuel (some p)).Pairwise
        (fun a b => (word ws b).length < (word ws a).length) ∧
      ∀ fuel1, (word ws p).length < fuel1 →
        suffixChain h fuel1 (some p) = suffixChain h fuel (some p) := by
  intro fuel
  induction fuel with
  | zero => intro p _ hf; exact absurd hf (Nat.not_lt_zero _)
  | succ fuel ih =>
    intro p hp hfuel
    by_cases hp0 : p = 0
    · have hsl : (deref h p).suffix_link_ = none := (hA.links p hp).1 hp0
      have hchain : ∀ f, suffixChain h (f + 1) (some p) = [p] := by
        intro f
        simp only [suffixChain, hsl, suffixChain_none]
      rw [hchain]
      refine ⟨?_, List.pairwise_singleton _ _, ?_⟩
      · intro u
        rw [List.mem_singleton]
        constructor
        · intro hu
          rw [hu]
          exact ⟨hp, List.suffix_refl _⟩
        · rintro ⟨hu, hsuf⟩
          rw [hp0, hA.trie.root] at hsuf
          rw [hp0]
          exact hA.trie.inj u 0 hu hA.trie.pos
            ((List.suffix_nil.1 hsuf).trans hA.trie.root.symm)
      · intro fuel1 hf1
        cases fuel1 with
        | zero => exact absurd hf1 (Nat.not_lt_zero _)
        | succ f1 => exact hchain f1
    · obtain ⟨q, hq, hsl, hlps⟩ := (hA.links p hp).2.1 hp0
      have hqf : (word ws q).length < fuel := by
        have := hlps.2.2.1
        omega
      obtain ⟨hmem, hpw, hfu⟩ := ih q hq hqf
      have hchain : suffixChain h (fuel + 1) (some p) = p :: suffixChain h fuel (some q) := by
        simp only [suffixChain, hsl]
      rw [hchain]
      refine ⟨?_, ?_, ?_⟩
      · intro u
        rw [List.mem_cons, hmem]
        constructor
        · rintro (hu | ⟨hu, hsuf⟩)
          · rw [hu]
            exact ⟨hp, List.suffix_refl _⟩
          · exact ⟨hu, hsuf.trans hlps.2.1⟩
        · rintro ⟨hu, hsuf⟩
          by_cases hup : word ws u = word ws p
          · exact Or.inl (hA.trie.inj u p hu hp hup)
          · right
            refine ⟨hu, ?_⟩
            have hlt := suffix_length_lt_of_ne hsuf hup
            exact List.suffix_of_suffix_length_le hsuf hlps.2.1
              (hlps.2.2.2 _ ((hA.trie.mem_iff _).2 ⟨u, hu, rfl⟩) hsuf hlt)
      · rw [List.pairwise_cons]
        refine ⟨?_, hpw⟩
        intro b hb
        have := ((hmem b).1 hb).2.length_le
        have := hlps.2.2.1
        omega
      · intro fuel1 hf1
        cases fuel1 with
        | zero => exact absurd hf1 (Nat.not_lt_zero _)
        | succ f1 =>
          have : suffixChain h (f1 + 1) (some p) = p :: suffixChain h f1 (some q) := by
            simp only [suffixChain, hsl]
          rw [this, hfu f1 (by have := hlps.2.2.1; omega)]

/-- The chain from the suffix link of a node holds the nodes whose words are proper
suffixes of its word. -/
theorem suffixChain_link {D ws : List (List Char)} {h : AhoCorasick}
    (hA : AutomatonInv D h ws) (v : Nat) (hv : v < h.length) (fuel : Nat)
    (hf : (word ws v).length ≤ fuel) :
    (∀ u, u ∈ suffixChain h fuel (deref h v).suffix_link_ ↔
      u < h.length ∧ word ws u <:+ word ws v ∧ (word ws u).length < (word ws v).length) ∧
    (suffixChain h fuel (deref h v).suffix_link_).Pairwise
      (fun a b => (word ws b).length < (word ws a).length) ∧
    ∀ fuel1, (word ws v).length ≤ fuel1 →
      suffixChain h fuel1 (deref h v).suffix_link_ =
        suffixChain h fuel (deref h v).suffix_link_ := by
  by_cases hv0 : v = 0
  · have hsl : (deref h v).suffix_link_ = none := (hA.links v hv).1 hv0
    rw [hsl, suffixChain_none]
    refine ⟨?_, List.Pairwise.nil, fun f _ => suffixChain_none h f⟩
    intro u
    constructor
    · intro hu
      simp at hu
    · rintro ⟨_, _, hlt⟩
      rw [hv0, hA.trie.root] at hlt
      exact absurd hlt (Nat.not_lt_zero _)
  · obtain ⟨q, hq, hsl, hlps⟩ := (hA.links v hv).2.1 hv0
    rw [hsl]
    have hqf : (word ws q).length < fuel := by
      have := hlps.2.2.1
      omega
    obtain ⟨hmem, hpw, hfu⟩ := suffixChain_spec hA fuel q hq hqf
    refine ⟨?_, hpw, fun f hf1 => hfu f (by have := hlps.2.2.1; omega)⟩
    intro u
    rw [hmem]
    constructor
    · rintro ⟨hu, hsuf⟩
      exact ⟨hu, hsuf.trans hlps.2.1, lt_of_le_of_lt hsuf.length_le hlps.2.2.1⟩
    · rintro ⟨hu, hsuf, hlt⟩
      exact ⟨hu, List.suffix_of_suffix_length_le hsuf hlps.2.1
        (hlps.2.2.2 _ ((hA.trie.mem_iff _).2 ⟨u, hu, rfl⟩) hsuf hlt)⟩

/-! ## The terminal links -/

theorem TerminalLinkOK.link_unique {D ws : List (List Char)} {h : AhoCorasick}
    (hT : TrieInv h ws) {w : List Char} {a b : Option Nat}
    (ha : TerminalLinkOK D ws h.length w a) (hb : TerminalLinkOK D ws h.length w b) :
    a = b := by
  cases a with
  | none =>
    cases b with
    | none => rfl
    | some t =>
      exfalso
      exact ha _ hb.2.1 hb.2.2.1 hb.2.2.2.1
  | some s =>
    cases b with
    | none =>
      exfalso
      exact hb _ ha.2.1 ha.2.2.1 ha.2.2.2.1
    | some t =>
      have := hT.inj s t ha.1 hb.1 (ha.2.unique_proper hb.2)
      rw [this]

theorem mem_handles_iff {D ws : List (List Char)} {h : AhoCorasick} (hT : TrieInv h ws)
    {handles : List Nat} (hw : handles.map (word ws) = D)
    (hlt : ∀ v, v ∈ handles → v < h.length) (q : Nat) (hq : q < h.length) :
    q ∈ handles ↔ word ws q ∈ D := by
  constructor
  · intro hm
    rw [← hw]
    exact List.mem_map.2 ⟨q, hm, rfl⟩
  · intro hm
    rw [← hw] at hm
    obtain ⟨p, hp, hpw⟩ := List.mem_map.1 hm
    rw [← hT.inj p q (hlt p hp) hq hpw]
    exact hp

/-- The entry nodes on the chain of a node: the terminal link, and then the entry nodes on
the chain of the terminal link. -/
theorem terminalChain_step {D ws : List (List Char)} {h : AhoCorasick}
    (hA : AutomatonInv D h ws) {handles : List Nat} (hw : handles.map (word ws) = D)
    (hlt : ∀ v, v ∈ handles → v < h.length) :
    ∀ (d v : Nat), v < h.length → (word ws v).length < d →
      (suffixChain h h.length (deref h v).suffix_link_).filter
          (fun u => decide (u ∈ handles)) =
        (deref h v).terminal_link_.elim []
          (fun t => t :: (suffixChain h h.length (deref h t).suffix_link_).filter
            (fun u => decide (u ∈ handles))) := by
  intro d
  induction d with
  | zero => intro v _ hd; exact absurd hd (Nat.not_lt_zero _)
  | succ d ih =>
    intro v hv hd
    have hOK := (hA.links v hv).2.2
    by_cases hv0 : v = 0
    · have hsl : (deref h v).suffix_link_ = none := (hA.links v hv).1 hv0
      have htl : (deref h v).terminal_link_ = none := by
        apply TerminalLinkOK.link_unique hA.trie hOK
        intro t _ _ hl
        rw [hv0, hA.trie.root] at hl
        exact absurd hl (Nat.not_lt_zero _)
      rw [hsl, htl, suffixChain_none]
      rfl
    · obtain ⟨q, hq, hsl, hlps⟩ := (hA.links v hv).2.1 hv0
      have hqd : (word ws q).length ≤ q := hA.trie.depth q hq
      obtain ⟨n1, hn1⟩ : ∃ n1, h.length = n1 + 1 := ⟨h.length - 1, by omega⟩
      have hchain : suffixChain h h.length (deref h v).suffix_link_ =
          q :: suffixChain h h.length (deref h q).suffix_link_ := by
        rw [hsl]
        have h1 : suffixChain h h.length (some q) =
            q :: suffixChain h n1 (deref h q).suffix_link_ := by
          rw [hn1]
          rfl
        rw [h1, (suffixChain_link hA q hq h.length (by omega)).2.2 n1 (by omega)]
      rw [hchain, List.filter_cons]
      by_cases hqm : q ∈ handles
      · have hqD : word ws q ∈ D := (mem_handles_iff hA.trie hw hlt q hq).1 hqm
        have htl : (deref h v).terminal_link_ = some q :=
          TerminalLinkOK.link_unique hA.trie hOK (terminalLinkOK_self hA.dict hq hlps hqD)
        rw [htl]
        simp [hqm]
      · have hqD : word ws q ∉ D := fun hm => hqm ((mem_handles_iff hA.trie hw hlt q hq).2 hm)
        have htl : (deref h v).terminal_link_ = (deref h q).terminal_link_ :=
          TerminalLinkOK.link_unique hA.trie hOK
            (terminalLinkOK_step hA.dict hlps hqD _ (hA.links q hq).2.2)
        rw [htl]
        simp only [hqm, decide_False, Bool.false_eq_true, if_false]
        exact ih q hq (by have := hlps.2.2.1; omega)

/-- The loop of `ForEachMatch` calls the callback on the flag of the node and then on the
flags of the entry nodes of its chain, in order. -/
theorem ForEachMatchLoop_visits {D ws : List (List Char)} {h : AhoCorasick}
    (hA : AutomatonInv D h ws) {handles : List Nat} (hw : handles.map (word ws) = D)
    (hlt : ∀ v, v ∈ handles → v < h.length) {σ : Type} (cb : σ → Bool → σ) :
    ∀ (fuel v : Nat) (acc : σ), v < h.length → (word ws v).length < fuel →
      ForEachMatchLoop h cb fuel (some v) acc =
        some (((v :: (suffixChain h h.length (deref h v).suffix_link_).filter
            (fun u => decide (u ∈ handles))).map
          (fun u => (deref h u).is_terminal_)).foldl cb acc) := by
  intro fuel
  induction fuel with
  | zero => intro v _ _ hf; exact absurd hf (Nat.not_lt_zero _)
  | succ fuel ih =>
    intro v acc hv hfuel
    rw [terminalChain_step hA hw hlt _ v hv (Nat.lt_succ_self _)]
    cases htl : (deref h v).terminal_link_ with
    | none =>
      simp only [ForEachMatchLoop, htl, Option.elim, List.map_cons, List.map_nil,
        List.foldl_cons, List.foldl_nil]
    | some t =>
      have hOK := (hA.links v hv).2.2
      rw [htl] at hOK
      obtain ⟨ht, hlps⟩ := hOK
      simp only [ForEachMatchLoop, htl, Option.elim]
      rw [ih t _ ht (by have := hlps.2.2.1; omega)]
      rfl

/-- Claim C16: in every reached state (links are those `Build` computed), for a node `v` at
the end of the trie path `w`: the entry nodes are the nodes where a dictionary string ends;
the chain `suffix_link(v)`, `suffix_link(suffix_link(v))`, ... holds exactly the nodes whose
word is a proper suffix of `w`, from the longest to the shortest; the terminal link of `v`
is the first entry node on that chain, null if there is none; and `ForEachMatch(v, cb)`
calls `cb` with the current flag of `v` and then with the current flag of each entry node
of the chain, in the order of the chain. -/
theorem terminal_link_first_entry (D : List (List Char)) (c : PolitizationCounter)
    (hc : Reachable D c) (v : Nat) (w : List Char)
    (hw : trieWalk c.automaton_ AhoCorasick.Root w = some v) :
    (∀ u, u ∈ c.surname_vertexes_ ↔
      ∃ s, s ∈ D ∧ trieWalk c.automaton_ AhoCorasick.Root s = some u) ∧
    (∀ u, u ∈ suffixChain c.automaton_ c.automaton_.length (deref c.automaton_ v).suffix_link_ ↔
      ∃ wu, trieWalk c.automaton_ AhoCorasick.Root wu = some u ∧ wu <:+ w ∧
        wu.length < w.length) ∧
    (suffixChain c.automaton_ c.automaton_.length (deref c.automaton_ v).suffix_link_).Pairwise
      (fun a b => ∀ wa wb, trieWalk c.automaton_ AhoCorasick.Root wa = some a →
        trieWalk c.automaton_ AhoCorasick.Root wb = some b → wb.length < wa.length) ∧
    (deref c.automaton_ v).terminal_link_ =
      (suffixChain c.automaton_ c.automaton_.length (deref c.automaton_ v).suffix_link_).find?
        (fun u => decide (u ∈ c.surname_vertexes_)) ∧
    (∀ (σ : Type) (cb : σ → Bool → σ) (acc : σ),
      NodeReference.ForEachMatch c.automaton_ v cb acc =
        some (((v :: (suffixChain c.automaton_ c.automaton_.length
            (deref c.automaton_ v).suffix_link_).filter
              (fun u => decide (u ∈ c.surname_vertexes_))).map
          (fun u => (deref c.automaton_ u).is_terminal_)).foldl cb acc)) := by
  obtain ⟨ws, hA, hwD, hlt, _, _⟩ := hc.full
  obtain ⟨hv, hvw⟩ := hA.trie.word_of_walk hw
  have hdepth : (word ws v).length ≤ c.automaton_.length :=
    le_of_lt (lt_of_le_of_lt (hA.trie.depth v hv) hv)
  obtain ⟨hmem, hpw, _⟩ := suffixChain_link hA v hv c.automaton_.length hdepth
  refine ⟨?_, ?_, ?_, ?_, ?_⟩
  · intro u
    constructor
    · intro hu
      have hul := hlt u hu
      exact ⟨word ws u, (mem_handles_iff hA.trie hwD hlt u hul).1 hu, hA.trie.walk_word hul⟩
    · rintro ⟨s, hs, hsu⟩
      obtain ⟨hul, hus⟩ := hA.trie.word_of_walk hsu
      exact (mem_handles_iff hA.trie hwD hlt u hul).2 (by rw [hus]; exact hs)
  · intro u
    rw [hmem, hvw]
    constructor
    · rintro ⟨hu, hsuf, hl⟩
      exact ⟨word ws u, hA.trie.walk_word hu, hsuf, hl⟩
    · rintro ⟨wu, hwu, hsuf, hl⟩
      obtain ⟨hu, huw⟩ := hA.trie.word_of_walk hwu
      rw [huw]
      exact ⟨hu, hsuf, hl⟩
  · apply hpw.imp
    intro a b hab wa wb ha hb
    rw [← (hA.trie.word_of_walk ha).2, ← (hA.trie.word_of_walk hb).2]
    exact hab
  · rw [find?_eq_head?_filter,
      terminalChain_step hA hwD hlt _ v hv (Nat.lt_succ_self _)]
    cases (deref c.automaton_ v).terminal_link_ <;> rfl
  · intro σ cb acc
    exact ForEachMatchLoop_visits hA hwD hlt cb c.automaton_.length v acc hv
      (lt_of_le_of_lt (hA.trie.depth v hv) hv)

/-- Claim C16, witness: dictionary a, ab, b with entry 3 disabled; node 2 at the end of the
path `ab`: its chain is node 3 and the root, its terminal link is node 3, and `ForEachMatch`
passes the flags of node 2 and node 3, `true` and `false`. -/
theorem terminal_link_first_entry_witness :
    (suffixChain (excludeOr (counterOf [['a'], ['a', 'b'], ['b']]) 3).automaton_
        (excludeOr (counterOf [['a'], ['a', 'b'], ['b']]) 3).automaton_.length
        (deref (excludeOr (counterOf [['a'], ['a', 'b'], ['b']]) 3).automaton_
          2).suffix_link_ = [3, 0]) ∧
    ((deref (excludeOr (counterOf [['a'], ['a', 'b'], ['b']]) 3).automaton_ 2).terminal_link_ =
      (suffixChain (excludeOr (counterOf [['a'], ['a', 'b'], ['b']]) 3).automaton_
        (excludeOr (counterOf [['a'], ['a', 'b'], ['b']]) 3).automaton_.length
        (deref (excludeOr (counterOf [['a'], ['a', 'b'], ['b']]) 3).automaton_
          2).suffix_link_).find?
        (fun u => decide
          (u ∈ (excludeOr (counterOf [['a'], ['a', 'b'], ['b']]) 3).surname_vertexes_))) ∧
    (NodeReference.ForEachMatch (excludeOr (counterOf [['a'], ['a', 'b'], ['b']]) 3).automaton_
        2 (fun (l : List Bool) (flag : Bool) => l ++ [flag]) [] = some [true, false]) :=
  ⟨by decide,
    (terminal_link_first_entry [['a'], ['a', 'b'], ['b']] _
      (Reachable.excl _ _ 3 (reachable_counterOf _) (by decide)) 2 ['a', 'b']
      (by decide)).2.2.2.1,
    by decide⟩

/-! ## The states of the breadth-first loop -/

theorem LoopState.loop_inv {D ws : List (List Char)} {h0 : AhoCorasick} {handles : List Nat}
    (hB : TrieBuilt D h0 ws handles) {h : AhoCorasick} {queue : List Nat}
    (hs : LoopState h0 h queue) :
    SameButLinks h0 h ∧ BfsInv D ws h queue := by
  induction hs with
  | start =>
    obtain ⟨_, hsame, hI⟩ := bfs_start_spec hB
    exact ⟨hsame, hI⟩
  | step h h1 curr queue queue1 _ hrun ih =>
    obtain ⟨hsame, hI⟩ := ih
    have hdict : ∀ s, s ∈ D → s ∈ ws := (bfs_start_spec hB).1
    have hflags : ∀ v, v < h.length → ((deref h v).is_terminal_ = true ↔ word ws v ∈ D) := by
      intro v hv
      rw [hsame.1] at hv
      rw [(hsame.2 v).1]
      exact hB.flags v hv
    obtain ⟨_, h2, hrun2, hsame2, hI2, _⟩ :=
      bfs_body_spec hdict (hsame.trieInv hB.trie) hflags hI
    have hrun3 : linkChildren 0 curr (deref h curr).trie_transitions_ h queue =
        some (h1, queue1) := hrun
    rw [hrun2] at hrun3
    injection hrun3 with hrun3
    injection hrun3 with e1 e2
    rw [← e1, ← e2]
    exact ⟨hsame.links_trans hsame2, hI2⟩

/-- The chain of a node stays among the nodes that are not deeper, as far as these have
their links. -/
theorem suffixChain_depth {D ws : List (List Char)} {h : AhoCorasick} (d : Nat)
    (hL : ∀ q, q < h.length → (word ws q).length ≤ d → Linked D ws h q) :
    ∀ (fuel p : Nat), p < h.length → (word ws p).length ≤ d →
      ∀ u, u ∈ suffixChain h fuel (some p) → u < h.length ∧ (word ws u).length ≤ d := by
  intro fuel
  induction fuel with
  | zero =>
    intro p _ _ u hu
    simp [suffixChain] at hu
  | succ fuel ih =>
    intro p hp hd u hu
    simp only [suffixChain, List.mem_cons] at hu
    rcases hu with hu | hu
    · rw [hu]
      exact ⟨hp, hd⟩
    · cases hsl : (deref h p).suffix_link_ with
      | none =>
        rw [hsl, suffixChain_none] at hu
        simp at hu
      | some q =>
        rw [hsl] at hu
        have hp0 : p ≠ 0 := by
          intro h0
          have := (hL p hp hd).1 h0
          rw [hsl] at this
          exact Option.noConfusion this
        obtain ⟨q1, hq, hq1, hlps⟩ := (hL p hp hd).2.1 hp0
        rw [hsl] at hq1
        injection hq1 with hq1
        subst hq1
        exact ih q hq (by have := hlps.2.2.1; omega) u hu

theorem Linked.suffix_link_eq {D ws : List (List Char)} {h h1 : AhoCorasick} {p : Nat}
    (hT : TrieInv h ws) (hlen : h1.length = h.length)
    (hL : Linked D ws h p) (hL1 : Linked D ws h1 p) :
    (deref h p).suffix_link_ = (deref h1 p).suffix_link_ := by
  by_cases hp0 : p = 0
  · rw [hL.1 hp0, hL1.1 hp0]
  · obtain ⟨u, hu, hsl, hlps⟩ := hL.2.1 hp0
    obtain ⟨u1, hu1, hsl1, hlps1⟩ := hL1.2.1 hp0
    rw [hlen] at hu1
    rw [hsl, hsl1, hT.inj u u1 hu hu1 (hlps.unique_proper hlps1)]

/-! ## Claim C17 -/

/-- Claim C17: in every reached state (links are those `Build` computed) the root has a null
suffix link and, for a non-root node `v` at the end of the trie path `w`, the suffix link of
`v` is the node whose word is the longest proper suffix of `w` that is the start of a
dictionary string, the root when only the empty suffix qualifies. And at every head of the
breadth-first loop of `CalculateLinks`, the suffix link of the node `curr` at the front of
the queue, and of every node on the chain of suffix links from `curr`, which the body reads
for the children of `curr`, already has its final value. -/
theorem suffix_link_longest_proper_suffix (D : List (List Char)) (c : PolitizationCounter)
    (hc : Reachable D c) :
    (deref c.automaton_ AhoCorasick.Root).suffix_link_ = none ∧
    (∀ v w, v ≠ AhoCorasick.Root → trieWalk c.automaton_ AhoCorasick.Root w = some v →
      ∃ u wu, (deref c.automaton_ v).suffix_link_ = some u ∧
        trieWalk c.automaton_ AhoCorasick.Root wu = some u ∧
        wu <:+ w ∧ wu.length < w.length ∧ (wu = [] ∨ ∃ s, s ∈ D ∧ wu <+: s) ∧
        ∀ t, t <:+ w → t.length < w.length → (∃ s, s ∈ D ∧ t <+: s) →
          t.length ≤ wu.length) ∧
    (∀ h curr queue, LoopState (trieOf D) h (curr :: queue) →
      ∀ p, p ∈ suffixChain h h.length (some curr) →
        (deref h p).suffix_link_ = (deref c.automaton_ p).suffix_link_) := by
  obtain ⟨ws, hA, _, _, _, hP⟩ := hc.full
  refine ⟨(hA.links 0 hA.trie.pos).1 rfl, ?_, ?_⟩
  · intro v w hv0 hw
    obtain ⟨hv, hvw⟩ := hA.trie.word_of_walk hw
    obtain ⟨u, hu, hsl, hlps⟩ := (hA.links v hv).2.1 hv0
    rw [hvw] at hlps
    refine ⟨u, word ws u, hsl, hA.trie.walk_word hu, hlps.2.1, hlps.2.2.1, hP _ hlps.1, ?_⟩
    rintro t hts htl ⟨s, hs, hpre⟩
    exact hlps.2.2.2 t (mem_words_of_isPrefix hA hs hpre) hts htl
  · intro h curr queue hs p hp
    obtain ⟨hfinal, hcl, hlen, hsame⟩ := hc.frozen
    obtain ⟨ws0, handles, hB, _⟩ := trieOf_spec D
    obtain ⟨h1, hcl1, hsl1, hall⟩ := CalculateLinks_spec hB
    have hcl2 : AhoCorasickBuilder.CalculateLinks (trieOf D) AhoCorasick.Root = some h1 := hcl1
    rw [hcl] at hcl2
    injection hcl2 with hcl2
    subst hcl2
    obtain ⟨hsl, hI⟩ := hs.loop_inv hB
    have hT : TrieInv h ws0 := hsl.trieInv hB.trie
    have hdict : ∀ s, s ∈ D → s ∈ ws0 := (bfs_start_spec hB).1
    have hflags : ∀ v, v < h.length → ((deref h v).is_terminal_ = true ↔ word ws0 v ∈ D) := by
      intro v hv
      rw [hsl.1] at hv
      rw [(hsl.2 v).1]
      exact hB.flags v hv
    obtain ⟨hL, _⟩ := bfs_body_spec hdict hT hflags hI
    have hcurr := (hI.linked curr (List.mem_cons_self _ _)).1
    obtain ⟨hpl, hpd⟩ :=
      suffixChain_depth (word ws0 curr).length hL h.length curr hcurr (le_refl _) p hp
    have hlen1 : hfinal.length = h.length := by rw [hsl1.1, hsl.1]
    rw [(hsame p).2.1]
    exact Linked.suffix_link_eq hT hlen1 (hL p hpl hpd) (hall p (by rw [hlen1]; exact hpl))

/-- Claim C17, witness: dictionary a, ab, b in the state the constructor leaves. -/
theorem suffix_link_longest_proper_suffix_witness :
    (deref (counterOf [['a'], ['a', 'b'], ['b']]).automaton_ AhoCorasick.Root).suffix_link_ =
      none ∧
    (∀ v w, v ≠ AhoCorasick.Root →
      trieWalk (counterOf [['a'], ['a', 'b'], ['b']]).automaton_ AhoCorasick.Root w = some v →
      ∃ u wu, (deref (counterOf [['a'], ['a', 'b'], ['b']]).automaton_ v).suffix_link_ =
          some u ∧
        trieWalk (counterOf [['a'], ['a', 'b'], ['b']]).automaton_ AhoCorasick.Root wu =
          some u ∧
        wu <:+ w ∧ wu.length < w.length ∧
        (wu = [] ∨ ∃ s, s ∈ [['a'], ['a', 'b'], ['b']] ∧ wu <+: s) ∧
        ∀ t, t <:+ w → t.length < w.length →
          (∃ s, s ∈ [['a'], ['a', 'b'], ['b']] ∧ t <+: s) → t.length ≤ wu.length) ∧
    (∀ h curr queue, LoopState (trieOf [['a'], ['a', 'b'], ['b']]) h (curr :: queue) →
      ∀ p, p ∈ suffixChain h h.length (some curr) →
        (deref h p).suffix_link_ =
          (deref (counterOf [['a'], ['a', 'b'], ['b']]).automaton_ p).suffix_link_) ∧
    (deref (counterOf [['a'], ['a', 'b'], ['b']]).automaton_ 2).suffix_link_ = some 3 :=
  ⟨(suffix_link_longest_proper_suffix [['a'], ['a', 'b'], ['b']] _
      (reachable_counterOf _)).1,
    (suffix_link_longest_proper_suffix [['a'], ['a', 'b'], ['b']] _
      (reachable_counterOf _)).2.1,
    (suffix_link_longest_proper_suffix [['a'], ['a', 'b'], ['b']] _
      (reachable_counterOf _)).2.2,
    by decide⟩

/-! ## The arenas reached from a built automaton -/

theorem Next_out_of_range (h : AhoCorasick) (hpos : 0 < h.length) (v : Nat)
    (hv : h.length ≤ v) (ch : Char) : NodeReference.Next h v ch = some (v, h) := by
  unfold NodeReference.Next
  obtain ⟨n, hn⟩ : ∃ n, h.length = n + 1 := ⟨h.length - 1, by omega⟩
  rw [hn]
  simp only [GetAutomatonTransition, deref_of_le h v hv, AhoCorasickNode.fresh, mapFind]

theorem Next_spec {D ws : List (List Char)} {h : AhoCorasick} (hA : AutomatonInv D h ws)
    (v : Nat) (hv : v < h.length) (ch : Char) :
    ∃ u h1, NodeReference.Next h v ch = some (u, h1) ∧ u < h.length ∧
      IsLongestSuffix ws (word ws v ++ [ch]) (word ws u) ∧
      SameButCache h h1 ∧ AutomatonInv D h1 ws :=
  GetAutomatonTransition_spec ch h.length h v hA hv
    (Nat.lt_of_le_of_lt (hA.trie.depth v hv) hv)

theorem AnswerIssueLoop_inv {D ws : List (List Char)} {h h1 : AhoCorasick}
    (hA : AutomatonInv D h ws) (text : List Char) (v1 cnt : Nat)
    (hrun : PolitizationCounter.AnswerIssueLoop h AhoCorasick.Root 0 text =
      some (h1, v1, cnt)) :
    AutomatonInv D h1 ws := by
  classical
  have hroot : IsLongestSuffix ws [] (word ws 0) := by
    rw [hA.trie.root]
    exact isLongestSuffix_nil hA.trie.nil_mem
  obtain ⟨h2, v2, hrun2, _, hA2⟩ :=
    AnswerIssueLoop_spec (D := D)
      (fun s => decide (∃ q, q < h.length ∧ word ws q = s ∧ (deref h q).is_terminal_ = true))
      text h 0 0 [] hA hA.trie.pos hroot
      (by
        intro q hq _
        by_cases ht : (deref h q).is_terminal_ = true
        · rw [ht]
          exact decide_eq_true ⟨q, hq, rfl, ht⟩
        · rw [Bool.not_eq_true] at ht
          rw [ht]
          apply decide_eq_false
          rintro ⟨p, hp, hpw, hpt⟩
          rw [hA.trie.inj p q hp hq hpw, ht] at hpt
          exact Bool.noConfusion hpt)
  have hrun3 : PolitizationCounter.AnswerIssueLoop h 0 0 text = some (h1, v1, cnt) := hrun
  rw [hrun2] at hrun3
  injection hrun3 with hrun3
  injection hrun3 with e _
  rw [← e]
  exact hA2

theorem ArenaReach.arena_inv {D ws : List (List Char)} {handles : List Nat}
    {h0 h : AhoCorasick} (hA0 : AutomatonInv D h0 ws) (hw : handles.map (word ws) = D)
    (hr : ArenaReach handles h0 h) : AutomatonInv D h ws := by
  induction hr with
  | start => exact hA0
  | goto h h1 v u ch _ hrun ih =>
    by_cases hv : v < h.length
    · obtain ⟨u2, h2, hrun2, _, _, _, hA2⟩ := Next_spec ih v hv ch
      rw [hrun2] at hrun
      injection hrun with hrun
      injection hrun with _ e
      rw [← e]
      exact hA2
    · rw [Next_out_of_range h ih.trie.pos v (Nat.le_of_not_lt hv) ch] at hrun
      injection hrun with hrun
      injection hrun with _ e
      rw [← e]
      exact ih
  | query h h1 text v1 cnt _ hrun ih => exact AnswerIssueLoop_inv ih text v1 cnt hrun
  | toggle h v flg _ hv ih =>
    refine ih.setTerminal v flg ?_
    rw [← hw]
    exact List.mem_map_of_mem _ hv

theorem counterOf_arena (D : List (List Char)) :
    AhoCorasickBuilder.CalculateLinks (trieOf D) AhoCorasick.Root =
      some (counterOf D).automaton_ := by
  obtain ⟨h, ws, handles, hrun, _⟩ := constructor_spec D 0 []
  have hc : counterOf D = ⟨D.length, 0, handles, h, 0⟩ := by
    unfold counterOf
    rw [List.append_nil] at hrun
    rw [hrun]
  rw [hc]
  exact constructor_arena D 0 [] [] _ hrun

/-! ## Claim C18 -/

/-- Claim C18: the transition cache is pure memoization. The automaton that the constructor
builds has a cache that holds just the trie edges; and in every arena reached from it by
calls of `Next` on any node, by queries and by toggles of the handles, every cached entry
`(v, ch) -> u` is the node that `Next(v, ch)` returns on the freshly built automaton, and
`Next(v, ch)` returns, for every node and symbol, the same node on the reached arena as on
the freshly built one. -/
theorem cache_is_memoization (D : List (List Char)) (h : AhoCorasick)
    (hr : ArenaReach (counterOf D).surname_vertexes_ (counterOf D).automaton_ h) :
    (∀ v ch, mapFind (deref (counterOf D).automaton_ v).automaton_transitions_cache_ ch =
      mapFind (deref (counterOf D).automaton_ v).trie_transitions_ ch) ∧
    (∀ v ch u, mapFind (deref h v).automaton_transitions_cache_ ch = some u →
      ∃ hf, NodeReference.Next (counterOf D).automaton_ v ch = some (u, hf)) ∧
    (∀ v ch, ∃ u h1 hf, NodeReference.Next h v ch = some (u, h1) ∧
      NodeReference.Next (counterOf D).automaton_ v ch = some (u, hf)) := by
  obtain ⟨ws, hA0, hw, _, _, _⟩ := (reachable_counterOf D).full
  have hA := ArenaReach.arena_inv hA0 hw hr
  have hlen : h.length = (counterOf D).automaton_.length := by
    rw [← hA.trie.len, ← hA0.trie.len]
  refine ⟨?_, ?_, ?_⟩
  · intro v ch
    obtain ⟨ws0, handles, hB, _⟩ := trieOf_spec D
    obtain ⟨h1, hcl1, hsl, _⟩ := CalculateLinks_spec hB
    have hcl2 : AhoCorasickBuilder.CalculateLinks (trieOf D) AhoCorasick.Root = some h1 := hcl1
    rw [counterOf_arena D] at hcl2
    injection hcl2 with hcl2
    rw [hcl2, (hsl.2 v).2.2, (hsl.2 v).2.1]
    exact hB.cache_eq v ch
  · intro v ch u hfind
    have hv : v < h.length := by
      by_contra hv
      rw [deref_of_le h v (Nat.le_of_not_lt hv)] at hfind
      simp [AhoCorasickNode.fresh, mapFind] at hfind
    obtain ⟨hu, hls⟩ := hA.cache.sound v ch u hv hfind
    obtain ⟨u0, hf, hrun0, hu0, hls0, _, _⟩ := Next_spec hA0 v (hlen ▸ hv) ch
    refine ⟨hf, ?_⟩
    rw [hrun0, hA.trie.inj u u0 hu (hlen ▸ hu0) (hls.unique hls0)]
  · intro v ch
    by_cases hv : v < h.length
    · obtain ⟨u, h1, hrun, hu, hls, _, _⟩ := Next_spec hA v hv ch
      obtain ⟨u0, hf, hrun0, hu0, hls0, _, _⟩ := Next_spec hA0 v (hlen ▸ hv) ch
      refine ⟨u, h1, hf, hrun, ?_⟩
      rw [hrun0, hA.trie.inj u u0 hu (hlen ▸ hu0) (hls.unique hls0)]
    · exact ⟨v, h, (counterOf D).automaton_,
        Next_out_of_range h hA.trie.pos v (Nat.le_of_not_lt hv) ch,
        Next_out_of_range _ hA0.trie.pos v (hlen ▸ Nat.le_of_not_lt hv) ch⟩

/-- Claim C18, witness: dictionary a, ab, b, the arena after the query text abab was read
from the freshly built automaton; node 2 (the word ab) then has the entry for the symbol a
cached. -/
theorem cache_is_memoization_witness :
    (∀ v ch,
      mapFind (deref (counterOf [['a'], ['a', 'b'], ['b']]).automaton_
        v).automaton_transitions_cache_ ch =
      mapFind (deref (counterOf [['a'], ['a', 'b'], ['b']]).automaton_
        v).trie_transitions_ ch) ∧
    (∀ v ch u,
      mapFind (deref
        (((PolitizationCounter.AnswerIssueLoop
          (counterOf [['a'], ['a', 'b'], ['b']]).automaton_ AhoCorasick.Root 0
          ['a', 'b', 'a', 'b']).map Prod.fst).getD [])
        v).automaton_transitions_cache_ ch = some u →
      ∃ hf, NodeReference.Next (counterOf [['a'], ['a', 'b'], ['b']]).automaton_ v ch =
        some (u, hf)) ∧
    (∀ v ch, ∃ u h1 hf,
      NodeReference.Next
        (((PolitizationCounter.AnswerIssueLoop
          (counterOf [['a'], ['a', 'b'], ['b']]).automaton_ AhoCorasick.Root 0
          ['a', 'b', 'a', 'b']).map Prod.fst).getD []) v ch = some (u, h1) ∧
      NodeReference.Next (counterOf [['a'], ['a', 'b'], ['b']]).automaton_ v ch =
        some (u, hf)) ∧
    mapFind (deref
      (((PolitizationCounter.AnswerIssueLoop
        (counterOf [['a'], ['a', 'b'], ['b']]).automaton_ AhoCorasick.Root 0
        ['a', 'b', 'a', 'b']).map Prod.fst).getD [])
      2).automaton_transitions_cache_ 'a' = some 1 ∧
    mapFind (deref (counterOf [['a'], ['a', 'b'], ['b']]).automaton_
      2).automaton_transitions_cache_ 'a' = none :=
  ⟨(cache_is_memoization [['a'], ['a', 'b'], ['b']] _ ArenaReach.start).1,
    (cache_is_memoization [['a'], ['a', 'b'], ['b']] _
      (ArenaReach.query _ _ ['a', 'b', 'a', 'b'] 2 6 ArenaReach.start (by decide))).2.1,
    (cache_is_memoization [['a'], ['a', 'b'], ['b']] _
      (ArenaReach.query _ _ ['a', 'b', 'a', 'b'] 2 6 ArenaReach.start (by decide))).2.2,
    by decide, by decide⟩

/-! ## The token loop of `RequestProcess` -/

theorem isDigit_toNat (ch : Char) (hd : ch.isDigit = true) :
    48 ≤ ch.toNat ∧ ch.toNat ≤ 57 := by
  simp only [Char.isDigit, Bool.and_eq_true, decide_eq_true_eq] at hd
  exact ⟨hd.1, hd.2⟩

theorem parseIndex_cons (d : Char) (digits : List Char) (m : Nat) :
    parseIndex (d :: digits) m =
      parseIndex digits ((m * 10 + (d.toNat + (2 ^ 64 - shift))) % 2 ^ 64) := by
  delta parseIndex
  rfl

theorem shift_eq : (2 : Nat) ^ 64 - shift = 18446744073709551568 := by
  unfold shift
  norm_num

theorem parseIndex_step (m d : Nat) (h48 : 48 ≤ d) (h57 : d ≤ 57) :
    (m % 18446744073709551616 * 10 + (d + 18446744073709551568)) %
      18446744073709551616 = (10 * m + (d - 48)) % 18446744073709551616 := by
  omega

theorem parseIndex_digits (digits : List Char) (hd : digits.all Char.isDigit = true) :
    ∀ m, parseIndex digits (m % 2 ^ 64) =
      digits.foldl (fun n d => 10 * n + (d.toNat - 48)) m % 2 ^ 64 := by
  induction digits with
  | nil =>
    intro m
    delta parseIndex
    rfl
  | cons d digits ih =>
    intro m
    simp only [List.all_cons, Bool.and_eq_true] at hd
    obtain ⟨h48, h57⟩ := isDigit_toNat d hd.1
    rw [parseIndex_cons, shift_eq, List.foldl_cons, ← ih hd.2 (10 * m + (d.toNat - 48))]
    have e : (2 : Nat) ^ 64 = 18446744073709551616 := by norm_num
    rw [e, parseIndex_step m d.toNat h48 h57]

theorem parseIndex_eq_decimalValue (digits : List Char)
    (hd : digits.all Char.isDigit = true) (hlt : decimalValue digits < 2 ^ 64) :
    parseIndex digits 0 = decimalValue digits := by
  have h := parseIndex_digits digits hd 0
  rw [Nat.zero_mod] at h
  rw [h]
  exact Nat.mod_eq_of_lt hlt

theorem operationOf_plus (digits : List Char) (hne : digits ≠ [])
    (hd : digits.all Char.isDigit = true) :
    operationOf ('+' :: digits) = Operation.enable (decimalValue digits) := by
  unfold operationOf
  dsimp only
  rw [if_pos ⟨rfl, hne, hd⟩]

theorem operationOf_minus (digits : List Char) (hne : digits ≠ [])
    (hd : digits.all Char.isDigit = true) :
    operationOf ('-' :: digits) = Operation.disable (decimalValue digits) := by
  unfold operationOf
  dsimp only
  rw [if_neg (fun h => absurd h.1 (by decide)), if_pos ⟨rfl, hne, hd⟩]

theorem operationOf_other (token : List Char) (hp : token.head? ≠ some '+')
    (hm : token.head? ≠ some '-') : operationOf token = Operation.query token := by
  cases token with
  | nil => rfl
  | cons sign digits =>
    unfold operationOf
    dsimp only
    rw [if_neg (fun (h : sign = '+' ∧ _) => hp (by rw [h.1]; rfl)),
      if_neg (fun (h : sign = '-' ∧ _) => hm (by rw [h.1]; rfl))]

theorem RequestProcessLoop_step (i : Nat) (issue token : List Char)
    (input : List (List Char)) (c : PolitizationCounter) (out : List Nat) :
    PolitizationCounter.RequestProcessLoop (i + 1) issue (token :: input) c out =
      if token.head? = some '+' ∨ token.head? = some '-' then
        if token.head? = some '+' then
          match c.Include (parseIndex (token.drop 1) 0) with
          | none => none
          | some c1 => PolitizationCounter.RequestProcessLoop i token input c1 out
        else if token.head? = some '-' then
          match c.Exclude (parseIndex (token.drop 1) 0) with
          | none => none
          | some c1 => PolitizationCounter.RequestProcessLoop i token input c1 out
        else PolitizationCounter.RequestProcessLoop i token input c out
      else
        match c.AnswerIssue token with
        | none => none
        | some (cnt, c1) =>
          PolitizationCounter.RequestProcessLoop i token input c1 (out ++ [cnt]) := by
  delta PolitizationCounter.RequestProcessLoop
  rfl

/-- On well-formed tokens the loop of `RequestProcess` carries out the operations that the
tokens stand for, and stops in front of the rest of the input. -/
theorem RequestProcessLoop_tokens (rest : List (List Char)) :
    ∀ (toks : List (List Char)) (issue : List Char) (c : PolitizationCounter)
      (out : List Nat), (∀ t, t ∈ toks → WellFormedToken t) →
      PolitizationCounter.RequestProcessLoop toks.length issue (toks ++ rest) c out =
        (runOperations c (toks.map operationOf) out).map (fun r => (r.1, rest, r.2)) := by
  intro toks
  induction toks with
  | nil =>
    intro issue c out _
    rfl
  | cons t toks ih =>
    intro issue c out hwf
    have hwf1 : ∀ t, t ∈ toks → WellFormedToken t :=
      fun t ht => hwf t (List.mem_cons_of_mem _ ht)
    rw [List.length_cons, List.cons_append, RequestProcessLoop_step, List.map_cons]
    by_cases hp : t.head? = some '+'
    · obtain ⟨digits, rfl⟩ : ∃ digits, t = '+' :: digits := by
        cases t with
        | nil => simp at hp
        | cons s ds =>
          simp only [List.head?_cons, Option.some.injEq] at hp
          exact ⟨ds, by rw [hp]⟩
      obtain ⟨hne, hd, hlt⟩ :=
        hwf ('+' :: digits) (List.mem_cons_self _ _) '+' digits rfl (Or.inl rfl)
      rw [if_pos (Or.inl hp), if_pos hp, operationOf_plus digits hne hd, List.drop_one,
        List.tail_cons, parseIndex_eq_decimalValue digits hd hlt]
      cases hrun : c.Include (decimalValue digits) with
      | none => simp only [runOperations, hrun, Option.map_none']
      | some c1 =>
        simp only [runOperations, hrun]
        exact ih _ c1 out hwf1
    · by_cases hm : t.head? = some '-'
      · obtain ⟨digits, rfl⟩ : ∃ digits, t = '-' :: digits := by
          cases t with
          | nil => simp at hm
          | cons s ds =>
            simp only [List.head?_cons, Option.some.injEq] at hm
            exact ⟨ds, by rw [hm]⟩
        obtain ⟨hne, hd, hlt⟩ :=
          hwf ('-' :: digits) (List.mem_cons_self _ _) '-' digits rfl (Or.inr rfl)
        rw [if_pos (Or.inr hm), if_neg hp, if_pos hm, operationOf_minus digits hne hd,
          List.drop_one, List.tail_cons, parseIndex_eq_decimalValue digits hd hlt]
        cases hrun : c.Exclude (decimalValue digits) with
        | none => simp only [runOperations, hrun, Option.map_none']
        | some c1 =>
          simp only [runOperations, hrun]
          exact ih _ c1 out hwf1
      · rw [if_neg (fun h => h.elim hp hm), operationOf_other t hp hm]
        cases hrun : c.AnswerIssue t with
        | none => simp only [runOperations, hrun, Option.map_none']
        | some r =>
          obtain ⟨cnt, c1⟩ := r
          simp only [runOperations, hrun]
          exact ih _ c1 (out ++ [cnt]) hwf1

/-! ## The counts that the specification expects -/

/-- The effect of a toggle on the activity of the dictionary strings. -/
theorem entryActive_SetTerminal {D : List (List Char)} {c : PolitizationCounter}
    (hI : CounterInv D c) (i v : Nat) (s : List Char)
    (hv : c.surname_vertexes_[i]? = some v) (hs : D[i]? = some s) (flg : Bool)
    (t : List Char) (ht : t ∈ D) :
    entryActive D { c with automaton_ := NodeReference.SetTerminal c.automaton_ v flg } t =
      if t = s then flg else entryActive D c t := by
  obtain ⟨ws, hA, hw, hlt, _⟩ := hI
  have hvm : v ∈ c.surname_vertexes_ := mem_of_getElem?_eq_some hv
  have hvl : v < c.automaton_.length := hlt v hvm
  have hws : word ws v = s := by
    rw [← hw, List.getElem?_map, hv] at hs
    simpa using hs
  have hvD : word ws v ∈ D := by
    rw [← hw]
    exact List.mem_map_of_mem _ hvm
  have ht1 := ht
  rw [← hw] at ht1
  obtain ⟨q, hq, hqt⟩ := List.mem_map.1 ht1
  have hql : q < c.automaton_.length := hlt q hq
  have hA1 := hA.setTerminal v flg hvD
  have hlen : (NodeReference.SetTerminal c.automaton_ v flg).length = c.automaton_.length := by
    simp [NodeReference.SetTerminal]
  have hqD : word ws q ∈ D := by rw [hqt]; exact ht
  have e1 := entryActive_eq
    (c := { c with automaton_ := NodeReference.SetTerminal c.automaton_ v flg })
    hA1.trie hw (fun p hp => by show p < _; rw [hlen]; exact hlt p hp) q
    (by show q < _; rw [hlen]; exact hql) hqD
  have e2 := entryActive_eq hA.trie hw hlt q hql hqD
  rw [hqt] at e1 e2
  rw [e1, e2]
  show (deref (NodeReference.SetTerminal c.automaton_ v flg) q).is_terminal_ = _
  rw [deref_SetTerminal]
  by_cases hqv : q = v
  · have hts : t = s := by rw [← hqt, hqv, hws]
    rw [if_pos ⟨hqv, hvl⟩, if_pos hts]
  · have hts : t ≠ s := by
      intro h
      apply hqv
      apply hA.trie.inj q v hql hvl
      rw [hqt, hws, h]
    rw [if_neg (fun h => hqv h.1), if_neg hts]

theorem occurrences_congr {A B : List (List Char)} (hA : A.Nodup) (hB : B.Nodup)
    (hAB : ∀ s, s ∈ A ↔ s ∈ B) (text : List Char) :
    occurrences A text = occurrences B text := by
  have hp : A.Perm B := (List.perm_ext_iff_of_nodup hA hB).2 hAB
  unfold occurrences
  congr 1
  apply List.map_congr_left
  intro i _
  exact (hp.filter _).length_eq

theorem expectedCounts_length (D : List (List Char)) :
    ∀ (ops : List Operation) (active : List (List Char)),
      (expectedCounts D active ops).length = (ops.filter Operation.isQuery).length := by
  intro ops
  induction ops with
  | nil => intro active; rfl
  | cons o ops ih =>
    intro active
    cases o with
    | enable i =>
      simp only [expectedCounts, List.filter_cons, Operation.isQuery]
      exact ih _
    | disable i =>
      simp only [expectedCounts, List.filter_cons, Operation.isQuery]
      exact ih _
    | query token =>
      simp only [expectedCounts, List.filter_cons, Operation.isQuery, List.length_cons,
        if_true]
      rw [ih]

/-- Operations whose indices are in range all return, and the counts written are those
that the specification expects from the set of active strings. -/
theorem runOperations_counts {D : List (List Char)} :
    ∀ (ops : List Operation) (c : PolitizationCounter) (out : List Nat)
      (active : List (List Char)),
      Reachable D c → (∀ o, o ∈ ops → o.inRange D.length = true) →
      active.Nodup → (∀ s, s ∈ active ↔ s ∈ activeStrings D c) →
      ∃ c1, runOperations c ops out = some (c1, out ++ expectedCounts D active ops) ∧
        Reachable D c1 := by
  intro ops
  induction ops with
  | nil =>
    intro c out active hc _ _ _
    exact ⟨c, by simp [runOperations, expectedCounts], hc⟩
  | cons o ops ih =>
    intro c out active hc hr hnd hact
    have hr1 : ∀ o, o ∈ ops → o.inRange D.length = true :=
      fun o ho => hr o (List.mem_cons_of_mem _ ho)
    have ho := hr o (List.mem_cons_self _ _)
    cases o with
    | enable i =>
      simp only [Operation.inRange, decide_eq_true_eq] at ho
      obtain ⟨v, hv, _⟩ := hc.inv.handle i ho.1 ho.2
      have hrun := Include_of_handle c i v ho.1 hv
      have hi : i - 1 < D.length := by omega
      have hs : D[i - 1]? = some D[i - 1] := List.getElem?_eq_getElem hi
      have hsD : D[i - 1] ∈ D := List.getElem_mem hi
      have hnd1 : (applyOperation D active (Operation.enable i)).Nodup := by
        simp only [applyOperation, hs]
        by_cases hm : 1 ≤ i ∧ D[i - 1] ∉ active
        · rw [if_pos hm]
          exact List.nodup_cons.2 ⟨hm.2, hnd⟩
        · rw [if_neg hm]
          exact hnd
      have hact1 : ∀ t, t ∈ applyOperation D active (Operation.enable i) ↔
          t ∈ activeStrings D
            { c with automaton_ := NodeReference.SetTerminal c.automaton_ v true } := by
        intro t
        rw [mem_activeStrings_iff]
        have hiff : t ∈ applyOperation D active (Operation.enable i) ↔
            t = D[i - 1] ∨ t ∈ active := by
          simp only [applyOperation, hs]
          by_cases hm : 1 ≤ i ∧ D[i - 1] ∉ active
          · rw [if_pos hm, List.mem_cons]
          · rw [if_neg hm]
            constructor
            · exact Or.inr
            · rintro (h | h)
              · rw [h]
                by_contra hn
                exact hm ⟨ho.1, hn⟩
              · exact h
        rw [hiff, hact t, mem_activeStrings_iff]
        constructor
        · rintro (h | ⟨htD, hta⟩)
          · refine ⟨h ▸ hsD, ?_⟩
            rw [entryActive_SetTerminal hc.inv (i - 1) v _ hv hs true t (h ▸ hsD), if_pos h]
          · refine ⟨htD, ?_⟩
            rw [entryActive_SetTerminal hc.inv (i - 1) v _ hv hs true t htD]
            by_cases hts : t = D[i - 1]
            · rw [if_pos hts]
            · rw [if_neg hts]
              exact hta
        · rintro ⟨htD, hta⟩
          rw [entryActive_SetTerminal hc.inv (i - 1) v _ hv hs true t htD] at hta
          by_cases hts : t = D[i - 1]
          · exact Or.inl hts
          · rw [if_neg hts] at hta
            exact Or.inr ⟨htD, hta⟩
      obtain ⟨c1, hrun1, hc1⟩ :=
        ih _ out _ (Reachable.incl c _ i hc hrun) hr1 hnd1 hact1
      refine ⟨c1, ?_, hc1⟩
      simp only [runOperations, hrun, expectedCounts]
      exact hrun1
    | disable i =>
      simp only [Operation.inRange, decide_eq_true_eq] at ho
      obtain ⟨v, hv, _⟩ := hc.inv.handle i ho.1 ho.2
      have hrun := Exclude_of_handle c i v ho.1 hv
      have hi : i - 1 < D.length := by omega
      have hs : D[i - 1]? = some D[i - 1] := List.getElem?_eq_getElem hi
      have happ : applyOperation D active (Operation.disable i) =
          active.filter (fun t => decide (t ≠ D[i - 1])) := by
        simp only [applyOperation, hs]
        rw [if_pos ho.1]
      have hnd1 : (applyOperation D active (Operation.disable i)).Nodup := by
        rw [happ]
        exact hnd.filter _
      have hact1 : ∀ t, t ∈ applyOperation D active (Operation.disable i) ↔
          t ∈ activeStrings D
            { c with automaton_ := NodeReference.SetTerminal c.automaton_ v false } := by
        intro t
        rw [happ, mem_activeStrings_iff, List.mem_filter, hact t, mem_activeStrings_iff,
          decide_eq_true_eq]
        constructor
        · rintro ⟨⟨htD, hta⟩, hts⟩
          refine ⟨htD, ?_⟩
          rw [entryActive_SetTerminal hc.inv (i - 1) v _ hv hs false t htD, if_neg hts]
          exact hta
        · rintro ⟨htD, hta⟩
          rw [entryActive_SetTerminal hc.inv (i - 1) v _ hv hs false t htD] at hta
          by_cases hts : t = D[i - 1]
          · rw [if_pos hts] at hta
            exact Bool.noConfusion hta
          · rw [if_neg hts] at hta
            exact ⟨⟨htD, hta⟩, hts⟩
      obtain ⟨c1, hrun1, hc1⟩ :=
        ih _ out _ (Reachable.excl c _ i hc hrun) hr1 hnd1 hact1
      refine ⟨c1, ?_, hc1⟩
      simp only [runOperations, hrun, expectedCounts]
      exact hrun1
    | query token =>
      obtain ⟨h1, hrun, hsame, _⟩ := AnswerIssue_spec hc.inv token
      have hact1 : ∀ s, s ∈ active ↔
          s ∈ activeStrings D { c with automaton_ := h1, state_ := 0 } := by
        intro s
        rw [activeStrings_congr D c { c with automaton_ := h1, state_ := 0 } rfl
          (fun p => (hsame.2 p).1)]
        exact hact s
      obtain ⟨c1, hrun1, hc1⟩ :=
        ih _ (out ++ [occurrences (activeStrings D c) (token.drop 1)]) active
          (Reachable.query c _ token _ hc hrun) hr1 hnd hact1
      refine ⟨c1, ?_, hc1⟩
      simp only [runOperations, hrun, expectedCounts]
      rw [hrun1, List.append_assoc, List.singleton_append, List.drop_one,
        occurrences_congr hnd (nodup_activeStrings D c) hact token.tail]

/-! ## Claim C13 -/

/-- Claim C13, amended: in a counter state reached for the dictionary `D` whose operation
count `issues_cnt_` is the number of the tokens `toks` that the input holds next, when every
token that starts with `+` or `-` continues with at least one character, all of them decimal
digits, of a value below 2^64 that is between 1 and the number of entries, `RequestProcess`
returns, has read exactly these tokens, and has handled them in order: `+` and digits call
`Include` with their decimal value, `-` and digits call `Exclude` with it, and every other
token is passed whole to `AnswerIssue`. The callback receives exactly one count per such
token, in the order of the tokens, and the count is the number of occurrences, in the token
without its first character, of the dictionary strings that are active at that point. -/
theorem RequestProcess_dispatches_tokens (D : List (List Char)) (c : PolitizationCounter)
    (hc : Reachable D c) (toks rest : List (List Char)) (hn : c.issues_cnt_ = toks.length)
    (hwf : ∀ t, t ∈ toks → WellFormedToken t)
    (hr : ∀ t, t ∈ toks → (operationOf t).inRange D.length = true) :
    ∃ c1,
      c.RequestProcess (toks ++ rest) =
        some (c1, rest, expectedCounts D (activeStrings D c) (toks.map operationOf)) ∧
      runOperations c (toks.map operationOf) [] =
        some (c1, expectedCounts D (activeStrings D c) (toks.map operationOf)) ∧
      Reachable D c1 ∧
      (expectedCounts D (activeStrings D c) (toks.map operationOf)).length =
        ((toks.map operationOf).filter Operation.isQuery).length := by
  have heq : c.RequestProcess (toks ++ rest) =
      (runOperations c (toks.map operationOf) []).map (fun r => (r.1, rest, r.2)) := by
    unfold PolitizationCounter.RequestProcess
    rw [hn]
    exact RequestProcessLoop_tokens rest toks [] c [] hwf
  obtain ⟨c1, hrun, hc1⟩ :=
    runOperations_counts (D := D) (toks.map operationOf) c [] (activeStrings D c) hc
      (by
        intro o ho
        obtain ⟨t, ht, rfl⟩ := List.mem_map.1 ho
        exact hr t ht)
      (nodup_activeStrings D c) (fun _ => Iff.rfl)
  rw [List.nil_append] at hrun
  refine ⟨c1, ?_, hrun, hc1, expectedCounts_length D _ _⟩
  rw [heq, hrun]
  rfl

/-- Claim C13, witness: dictionary a, ab, b in the state the constructor leaves for three
operations, and the tokens `-2`, `?abab`, `+2` followed by one more token, which is left
unread; the one query writes the count 4 (a and b twice each, ab being disabled). -/
theorem RequestProcess_dispatches_tokens_witness :
    Reachable [['a'], ['a', 'b'], ['b']]
      ⟨3, 3, [1, 2, 3], (counterOf [['a'], ['a', 'b'], ['b']]).automaton_, 0⟩ ∧
    (∀ t, t ∈ [['-', '2'], ['?', 'a', 'b', 'a', 'b'], ['+', '2']] → WellFormedToken t) ∧
    (∃ c1,
      PolitizationCounter.RequestProcess
          ⟨3, 3, [1, 2, 3], (counterOf [['a'], ['a', 'b'], ['b']]).automaton_, 0⟩
          ([['-', '2'], ['?', 'a', 'b', 'a', 'b'], ['+', '2']] ++ [['?', 'b']]) =
        some (c1, [['?', 'b']],
          expectedCounts [['a'], ['a', 'b'], ['b']]
            (activeStrings [['a'], ['a', 'b'], ['b']]
              ⟨3, 3, [1, 2, 3], (counterOf [['a'], ['a', 'b'], ['b']]).automaton_, 0⟩)
            ([['-', '2'], ['?', 'a', 'b', 'a', 'b'], ['+', '2']].map operationOf)) ∧
      runOperations ⟨3, 3, [1, 2, 3], (counterOf [['a'], ['a', 'b'], ['b']]).automaton_, 0⟩
          ([['-', '2'], ['?', 'a', 'b', 'a', 'b'], ['+', '2']].map operationOf) [] =
        some (c1,
          expectedCounts [['a'], ['a', 'b'], ['b']]
            (activeStrings [['a'], ['a', 'b'], ['b']]
              ⟨3, 3, [1, 2, 3], (counterOf [['a'], ['a', 'b'], ['b']]).automaton_, 0⟩)
            ([['-', '2'], ['?', 'a', 'b', 'a', 'b'], ['+', '2']].map operationOf)) ∧
      Reachable [['a'], ['a', 'b'], ['b']] c1 ∧
      (expectedCounts [['a'], ['a', 'b'], ['b']]
          (activeStrings [['a'], ['a', 'b'], ['b']]
            ⟨3, 3, [1, 2, 3], (counterOf [['a'], ['a', 'b'], ['b']]).automaton_, 0⟩)
          ([['-', '2'], ['?', 'a', 'b', 'a', 'b'], ['+', '2']].map operationOf)).length =
        (([['-', '2'], ['?', 'a', 'b', 'a', 'b'], ['+', '2']].map operationOf).filter
          Operation.isQuery).length) ∧
    expectedCounts [['a'], ['a', 'b'], ['b']]
      (activeStrings [['a'], ['a', 'b'], ['b']]
        ⟨3, 3, [1, 2, 3], (counterOf [['a'], ['a', 'b'], ['b']]).automaton_, 0⟩)
      ([['-', '2'], ['?', 'a', 'b', 'a', 'b'], ['+', '2']].map operationOf) = [4] ∧
    (PolitizationCounter.RequestProcess
        ⟨3, 3, [1, 2, 3], (counterOf [['a'], ['a', 'b'], ['b']]).automaton_, 0⟩
        ([['-', '2'], ['?', 'a', 'b', 'a', 'b'], ['+', '2']] ++ [['?', 'b']])).map
      (fun r => (r.2.1, r.2.2)) = some ([['?', 'b']], [4]) :=
  ⟨Reachable.init 3 [] [] _ (by decide),
    by
      intro t ht sign digits he hs
      simp only [List.mem_cons, List.mem_singleton, List.not_mem_nil, or_false] at ht
      rcases ht with rfl | rfl | rfl
      · injection he with h1 h2
        subst h1 h2
        decide
      · injection he with h1 h2
        subst h1
        exact absurd hs (by decide)
      · injection he with h1 h2
        subst h1 h2
        decide,
    RequestProcess_dispatches_tokens [['a'], ['a', 'b'], ['b']]
      ⟨3, 3, [1, 2, 3], (counterOf [['a'], ['a', 'b'], ['b']]).automaton_, 0⟩
      (Reachable.init 3 [] [] _ (by decide))
      [['-', '2'], ['?', 'a', 'b', 'a', 'b'], ['+', '2']] [['?', 'b']] rfl
      (by
        intro t ht sign digits he hs
        simp only [List.mem_cons, List.mem_singleton, List.not_mem_nil, or_false] at ht
        rcases ht with rfl | rfl | rfl
        · injection he with h1 h2
          subst h1 h2
          decide
        · injection he with h1 h2
          subst h1
          exact absurd hs (by decide)
        · injection he with h1 h2
          subst h1 h2
          decide)
      (by decide),
    by decide,
    by decide⟩

/-- Claim C13, counterexample: with the dictionary a, the token made of the characters
minus, slash and semicolon is not a minus followed by decimal digits, so the claim has it
answered as a query; `RequestProcess` calls `Exclude(1)` instead, since slash and semicolon
parse to 10 * (47 - 48) + (59 - 48) = 1. For this token followed by the token `?a` the
program writes the single count 0, where the reading of the claim writes 0 and 1. -/
theorem RequestProcess_sign_dispatch_counterexample :
    operationOf ['-', '/', ';'] = Operation.query ['-', '/', ';'] ∧
    parseIndex ['/', ';'] 0 = 1 ∧
    main [['2'], ['1'], ['a'], ['-', '/', ';'], ['?', 'a']] = some [0] ∧
    (runOperations (counterOf [['a']])
      ([['-', '/', ';'], ['?', 'a']].map operationOf) []).map Prod.snd = some [0, 1] := by
  decide

/-! ## The input order of `main` -/

theorem readSize_cons (token : List Char) (n : Nat) (input : List (List Char))
    (hread : readSize [token] = some (n, [])) : readSize (token :: input) = some (n, input) := by
  unfold readSize at hread ⊢
  dsimp only at hread ⊢
  by_cases hc : token ≠ [] ∧ token.all Char.isDigit = true ∧ decimalValue token < 2 ^ 64
  · rw [if_pos hc] at hread ⊢
    injection hread with hread
    injection hread with hread _
    rw [hread]
  · rw [if_neg hc] at hread
    exact Option.noConfusion hread

/-- The loop of `RequestProcess` reads exactly as many tokens as its counter says. -/
theorem RequestProcessLoop_consumes (rest : List (List Char)) :
    ∀ (toks : List (List Char)) (issue : List Char) (c : PolitizationCounter)
      (out : List Nat) (r : PolitizationCounter × List (List Char) × List Nat),
      PolitizationCounter.RequestProcessLoop toks.length issue (toks ++ rest) c out = some r →
      r.2.1 = rest := by
  intro toks
  induction toks with
  | nil =>
    intro issue c out r hrun
    have hrun1 : some (c, rest, out) = some r := hrun
    injection hrun1 with hrun1
    rw [← hrun1]
  | cons t toks ih =>
    intro issue c out r hrun
    rw [List.length_cons, List.cons_append, RequestProcessLoop_step] at hrun
    by_cases hp : t.head? = some '+'
    · rw [if_pos (Or.inl hp), if_pos hp] at hrun
      cases hi : c.Include (parseIndex (t.drop 1) 0) with
      | none =>
        rw [hi] at hrun
        exact Option.noConfusion hrun
      | some c1 =>
        rw [hi] at hrun
        exact ih _ c1 out r hrun
    · by_cases hm : t.head? = some '-'
      · rw [if_pos (Or.inr hm), if_neg hp, if_pos hm] at hrun
        cases hi : c.Exclude (parseIndex (t.drop 1) 0) with
        | none =>
          rw [hi] at hrun
          exact Option.noConfusion hrun
        | some c1 =>
          rw [hi] at hrun
          exact ih _ c1 out r hrun
      · rw [if_neg (fun h => h.elim hp hm)] at hrun
        cases hi : c.AnswerIssue t with
        | none =>
          rw [hi] at hrun
          exact Option.noConfusion hrun
        | some a =>
          obtain ⟨cnt, c1⟩ := a
          rw [hi] at hrun
          exact ih _ c1 (out ++ [cnt]) r hrun

/-! ## Claim C14 -/

/-- Claim C14, amended: the program reads first the number N of operation tokens, second the
number K of dictionary entries (both written as decimal numerals below 2^64), then exactly
K dictionary strings, then exactly N operation tokens. For an input that starts with the
numerals of N and K, then K strings `D`, then N tokens `toks`, the constructor builds the
counter from `D` and stops in front of `toks`: the counter has K handles, the handle of
entry `i` is the node at the end of the trie path that spells the `i`-th string of `D`, and
all the distinct strings of `D` are active. `main` writes what `RequestProcess` hands out
for `toks` on that counter, and `RequestProcess` stops in front of whatever follows. When
the tokens are well formed and the indices in range, `main` returns the counts that the
specification expects for the operations of `toks` on the dictionary `D` with all its
strings active, one per query token. -/
theorem main_reads_operation_count_first (tN tK : List Char)
    (D toks rest : List (List Char))
    (hN : readSize [tN] = some (toks.length, []))
    (hK : readSize [tK] = some (D.length, [])) :
    ∃ c, PolitizationCounter.PolitizationCounter toks.length D.length
        (D ++ (toks ++ rest)) = some (c, toks ++ rest) ∧
      Reachable D c ∧ c.issues_cnt_ = toks.length ∧ c.members_cnt_ = D.length ∧
      c.surname_vertexes_.length = D.length ∧
      (∀ (i : Nat) (s : List Char), D[i]? = some s →
        ∃ v, c.surname_vertexes_[i]? = some v ∧
          trieWalk c.automaton_ AhoCorasick.Root s = some v) ∧
      activeStrings D c = D.dedup ∧
      main (tN :: tK :: (D ++ (toks ++ rest))) =
        (c.RequestProcess (toks ++ rest)).map (fun r => r.2.2) ∧
      (∀ r, c.RequestProcess (toks ++ rest) = some r → r.2.1 = rest) ∧
      ((∀ t, t ∈ toks → WellFormedToken t) →
        (∀ t, t ∈ toks → (operationOf t).inRange D.length = true) →
        (∃ c1, c.RequestProcess (toks ++ rest) =
          some (c1, rest, expectedCounts D D.dedup (toks.map operationOf))) ∧
        main (tN :: tK :: (D ++ (toks ++ rest))) =
          some (expectedCounts D D.dedup (toks.map operationOf)) ∧
        (runOperations c (toks.map operationOf) []).map Prod.snd =
          some (expectedCounts D D.dedup (toks.map operationOf)) ∧
        (expectedCounts D D.dedup (toks.map operationOf)).length =
          ((toks.map operationOf).filter Operation.isQuery).length) := by
  obtain ⟨h, ws, handles, hrun, hA, hall, hw, hlt⟩ :=
    constructor_spec D toks.length (toks ++ rest)
  have hc : Reachable D ⟨D.length, toks.length, handles, h, 0⟩ :=
    Reachable.init toks.length (toks ++ rest) (toks ++ rest) _ hrun
  have hact : activeStrings D ⟨D.length, toks.length, handles, h, 0⟩ = D.dedup :=
    activeStrings_constructor (c := ⟨D.length, toks.length, handles, h, 0⟩) hA.trie hw hlt hall
  have hmain : main (tN :: tK :: (D ++ (toks ++ rest))) =
      (PolitizationCounter.RequestProcess ⟨D.length, toks.length, handles, h, 0⟩
        (toks ++ rest)).map (fun r => r.2.2) := by
    unfold main
    rw [readSize_cons tN _ _ hN]
    dsimp only
    rw [readSize_cons tK _ _ hK]
    dsimp only
    rw [hrun]
    dsimp only
    cases PolitizationCounter.RequestProcess ⟨D.length, toks.length, handles, h, 0⟩
      (toks ++ rest) <;> rfl
  refine ⟨_, hrun, hc, rfl, rfl, ?_, ?_, hact, hmain, ?_, ?_⟩
  · show handles.length = D.length
    rw [← hw, List.length_map]
  · intro i s hs
    show ∃ v, handles[i]? = some v ∧ trieWalk h AhoCorasick.Root s = some v
    have hs1 := hs
    rw [← hw, List.getElem?_map] at hs1
    cases hv : handles[i]? with
    | none =>
      rw [hv] at hs1
      exact Option.noConfusion hs1
    | some v =>
      rw [hv] at hs1
      have hws : word ws v = s := by simpa using hs1
      have hvl : v < h.length := hlt v (mem_of_getElem?_eq_some hv)
      refine ⟨v, rfl, ?_⟩
      exact trieWalk_spec hA.trie s 0 v hA.trie.pos hvl
        (by rw [hA.trie.root, List.nil_append, hws])
  · intro r hr
    exact RequestProcessLoop_consumes rest toks [] _ [] r hr
  · intro hwf hr
    obtain ⟨c1, hrun1, _⟩ :=
      runOperations_counts (D := D) (toks.map operationOf) _ [] D.dedup hc
        (by
          intro o ho
          obtain ⟨t, ht, rfl⟩ := List.mem_map.1 ho
          exact hr t ht)
        (List.nodup_dedup D) (fun s => by rw [hact])
    rw [List.nil_append] at hrun1
    have heq : PolitizationCounter.RequestProcess ⟨D.length, toks.length, handles, h, 0⟩
        (toks ++ rest) =
        (runOperations ⟨D.length, toks.length, handles, h, 0⟩ (toks.map operationOf) []).map
          (fun r => (r.1, rest, r.2)) := by
      unfold PolitizationCounter.RequestProcess
      exact RequestProcessLoop_tokens rest toks [] _ [] hwf
    refine ⟨⟨c1, ?_⟩, ?_, ?_, expectedCounts_length D _ _⟩
    · rw [heq, hrun1]
      rfl
    · rw [hmain, heq, hrun1]
      rfl
    · rw [hrun1]
      rfl

/-- Claim C14, witness: the input `1 2 a b ?ab` is one operation on a dictionary of two
entries; the program writes the count 2, which is what the specification expects for the
query `?ab` on the dictionary a, b with both strings active. -/
theorem main_reads_operation_count_first_witness :
    readSize [['1']] = some ([['?', 'a', 'b']].length, []) ∧
    readSize [['2']] = some ([['a'], ['b']].length, []) ∧
    (∃ c, PolitizationCounter.PolitizationCounter [['?', 'a', 'b']].length
        [['a'], ['b']].length ([['a'], ['b']] ++ ([['?', 'a', 'b']] ++ [])) =
        some (c, [['?', 'a', 'b']] ++ []) ∧
      Reachable [['a'], ['b']] c ∧ c.issues_cnt_ = [['?', 'a', 'b']].length ∧
      c.members_cnt_ = [['a'], ['b']].length ∧
      c.surname_vertexes_.length = [['a'], ['b']].length ∧
      (∀ (i : Nat) (s : List Char), [['a'], ['b']][i]? = some s →
        ∃ v, c.surname_vertexes_[i]? = some v ∧
          trieWalk c.automaton_ AhoCorasick.Root s = some v) ∧
      activeStrings [['a'], ['b']] c = [['a'], ['b']].dedup ∧
      main (['1'] :: ['2'] :: ([['a'], ['b']] ++ ([['?', 'a', 'b']] ++ []))) =
        (c.RequestProcess ([['?', 'a', 'b']] ++ [])).map (fun r => r.2.2) ∧
      (∀ r, c.RequestProcess ([['?', 'a', 'b']] ++ []) = some r → r.2.1 = []) ∧
      ((∀ t, t ∈ [['?', 'a', 'b']] → WellFormedToken t) →
        (∀ t, t ∈ [['?', 'a', 'b']] → (operationOf t).inRange [['a'], ['b']].length = true) →
        (∃ c1, c.RequestProcess ([['?', 'a', 'b']] ++ []) =
          some (c1, [],
            expectedCounts [['a'], ['b']] [['a'], ['b']].dedup
              ([['?', 'a', 'b']].map operationOf))) ∧
        main (['1'] :: ['2'] :: ([['a'], ['b']] ++ ([['?', 'a', 'b']] ++ []))) =
          some (expectedCounts [['a'], ['b']] [['a'], ['b']].dedup
            ([['?', 'a', 'b']].map operationOf)) ∧
        (runOperations c ([['?', 'a', 'b']].map operationOf) []).map Prod.snd =
          some (expectedCounts [['a'], ['b']] [['a'], ['b']].dedup
            ([['?', 'a', 'b']].map operationOf)) ∧
        (expectedCounts [['a'], ['b']] [['a'], ['b']].dedup
            ([['?', 'a', 'b']].map operationOf)).length =
          (([['?', 'a', 'b']].map operationOf).filter Operation.isQuery).length)) ∧
    expectedCounts [['a'], ['b']] [['a'], ['b']].dedup ([['?', 'a', 'b']].map operationOf) =
      [2] ∧
    main [['1'], ['2'], ['a'], ['b'], ['?', 'a', 'b']] = some [2] :=
  ⟨by decide, by decide,
    main_reads_operation_count_first ['1'] ['2'] [['a'], ['b']] [['?', 'a', 'b']] []
      (by decide) (by decide),
    by decide, by decide⟩

/-- Claim C14, counterexample: on the input `1 2 a b ?ab` the program writes the count 2,
the two entries a and b each occurring once in the one query. In the order of the claim,
one entry a and then the two operation tokens `b` and `?ab`, it would write 0 and 1. -/
theorem main_input_order_counterexample :
    main [['1'], ['2'], ['a'], ['b'], ['?', 'a', 'b']] = some [2] ∧
    ((PolitizationCounter.PolitizationCounter 2 1 [['a'], ['b'], ['?', 'a', 'b']]).bind
      (fun p => (p.1.RequestProcess p.2).map (fun r => r.2.2))) = some [0, 1] := by
  decide

end Politics
